import Mathlib

/-!
Verification development for the `js-node-arango` query-builder core
(`src/querybuilder/base-query-builder.ts`, `edge-query-builder.ts`,
`document-query-builder.ts`).

The TypeScript classes are embedded shallowly: the mutable builder tree
becomes an inductive tree `QB`, the root-owned tick counter becomes an
explicitly threaded `Nat`, thrown errors become `Except QError`, and the
per-node `bindVars` record becomes an insertion-ordered association list
with JavaScript object-spread / assignment semantics (`jsSpread`,
`recSet`).
-/

set_option maxHeartbeats 1600000
set_option maxRecDepth 40000

/-- Modelled from the spec: the `Primitive` leaf-value type of the options
interface (`string | number | boolean | undefined | null`); the file
`src/types/arango-query-options.interface.ts` is not among the sources, but
the shape is pinned down by `isFilterPrimitiveType` in
`base-query-builder.ts`. -/
inductive Prim where
  | str (s : String)
  | num (n : Int)
  | bool (b : Bool)
  | null
  | undef
deriving DecidableEq

mutual
/-- Modelled from the spec: one value inside a nested `Filter` object —
either a primitive, an array of primitives, or a further object (which may
be a leaf-filter object carrying the `@value` / `@operator` /
`@docNameToFilter` markers, or a deeper nesting level). -/
inductive FilterNode where
  | prim (p : Prim)
  | arr (l : List Prim)
  | obj (entries : FilterEntries)

/-- The ordered own-properties of a filter object (JavaScript `for..in`
iteration order is insertion order for string keys). -/
inductive FilterEntries where
  | nil
  | cons (key : String) (value : FilterNode) (rest : FilterEntries)
end

/-- A value stored in `bindVars`: `Primitive | Primitive[]`; `objVal`
covers the degenerate JavaScript case where `filter[key]['@value'] ??
filter[key]` falls back to a whole object. -/
inductive BindVal where
  | prim (p : Prim)
  | arr (l : List Prim)
  | objVal (entries : FilterEntries)

/-- `BindVars = Record<string, Primitive | Primitive[]>`, kept as an
insertion-ordered association list. -/
abbrev BindVars := List (String × BindVal)

/-- JavaScript `obj[k] = v`: overwrite in place if the key exists,
otherwise append at the end. -/
def recSet (m : BindVars) (k : String) (v : BindVal) : BindVars :=
  if m.any (fun p => p.1 == k) then
    m.map (fun p => if p.1 == k then (p.1, v) else p)
  else
    m ++ [(k, v)]

/-- JavaScript spread `{...a, ...b}`: the keys of `a` in order (with `b`'s
value winning on a collision), then the keys of `b` not present in `a`. -/
def jsSpread (a b : BindVars) : BindVars :=
  a.map (fun p =>
    match b.find? (fun q => q.1 == p.1) with
    | some q => (p.1, q.2)
    | none => p) ++
  b.filter (fun q => !(a.any (fun p => p.1 == q.1)))

/-- JavaScript `Array.prototype.join(sep)` for string arrays. -/
def joinSep (sep : String) : List String → String
  | [] => ""
  | [x] => x
  | x :: y :: rest => x ++ sep ++ joinSep sep (y :: rest)

/-- `[A-Za-z]` — the first character accepted by the `checkSafe` regex
`^[A-Za-z][A-Za-z0-9\-_]*$`. -/
def isSafeHead (c : Char) : Bool :=
  ('A' ≤ c && c ≤ 'Z') || ('a' ≤ c && c ≤ 'z')

/-- `[A-Za-z0-9\-_]` — the continuation characters accepted by the
`checkSafe` regex. -/
def isSafeTail (c : Char) : Bool :=
  isSafeHead c || ('0' ≤ c && c ≤ '9') || c == '-' || c == '_'

/-- The test `/^[A-Za-z][A-Za-z0-9\-_]*$/.test(phrase)` of
`ArangoBaseQueryBuilder.checkSafe`. -/
def checkSafeB (s : String) : Bool :=
  match s.data with
  | [] => false
  | c :: rest => isSafeHead c && rest.all isSafeTail

/-- The regex `/^[A-Za-z][A-Za-z0-9\-_]*\/[A-Za-z0-9\-_]+$/` used by
`ArangoEdgeQueryBuilder.buildStartingVertexId`: since the character class
excludes the slash, a match is exactly one slash with a `checkSafe`-shaped
collection part and a nonempty safe key part. -/
def isValidVertexIdB (s : String) : Bool :=
  (match s.data.takeWhile (fun c => c != '/') with
   | [] => false
   | c :: cs => isSafeHead c && cs.all isSafeTail) &&
  (match s.data.dropWhile (fun c => c != '/') with
   | '/' :: rest => !rest.isEmpty && rest.all isSafeTail
   | _ => false)

/-- The distinct `throw new Error(...)` sites of the builder classes. -/
inductive QError where
  | unsafePhrase (phrase : String)
  | duplicateVarName
  | overrideThisMethod
  | invalidStartingVertexId
  | missingStartingVertex
deriving DecidableEq

/-- `checkSafe(phrase)`: throws (carrying the phrase) unless the regex
matches. -/
def checkSafe (phrase : String) : Except QError Unit :=
  if checkSafeB phrase then .ok () else .error (.unsafePhrase phrase)

/-- First own-property with the given key (object keys are unique in
JavaScript, so first-match lookup is exact). -/
def FilterEntries.getProp : FilterEntries → String → Option FilterNode
  | .nil, _ => none
  | .cons k v rest, key => if k == key then some v else rest.getProp key

/-- `isFilterPrimitiveType`: a primitive, or an array whose elements are
all primitive (always true here since `arr` holds primitives). -/
def isFilterPrimitiveType : FilterNode → Bool
  | .prim _ => true
  | .arr _ => true
  | .obj _ => false

/-- `isFilterProperFilterObject`: has an own `@value` of primitive type and
at least one of `@operator` / `@docNameToFilter`. Only ever evaluated on
objects (the short-circuit `isFilterPrimitiveType || ...` screens out
primitives and arrays). -/
def isFilterProperFilterObject : FilterNode → Bool
  | .obj es =>
    (match es.getProp "@value" with
     | some v => isFilterPrimitiveType v
     | none => false) &&
    ((es.getProp "@operator").isSome || (es.getProp "@docNameToFilter").isSome)
  | _ => false

/-- `(filter[key] as FilterObj)['@value'] ?? filter[key]`: `??` falls back
exactly on `null`/`undefined` (including a property access on a
non-object, which yields `undefined`). -/
def leafValue : FilterNode → BindVal
  | .prim p => .prim p
  | .arr l => .arr l
  | .obj es =>
    match es.getProp "@value" with
    | some (.prim .null) => .objVal es
    | some (.prim .undef) => .objVal es
    | none => .objVal es
    | some (.prim p) => .prim p
    | some (.arr l) => .arr l
    | some (.obj inner) => .objVal inner

/-- `(filter[key] as FilterObj)['@operator'] ?? '=='`; the interface
declares `@operator?: string`, so only the string case is reachable. -/
def leafOperator : FilterNode → String
  | .obj es =>
    match es.getProp "@operator" with
    | some (.prim (.str s)) => s
    | _ => "=="
  | _ => "=="

/-- `(filter[key] as FilterObj)['@docNameToFilter'] ?? this.doc`; the
interface declares `@docNameToFilter?: string`. -/
def leafDocName (doc : String) : FilterNode → String
  | .obj es =>
    match es.getProp "@docNameToFilter" with
    | some (.prim (.str s)) => s
    | _ => doc
  | _ => doc

/-- JavaScript `s.split('.')` on character lists: an empty string yields
one empty part, and each dot starts a new part. -/
def splitDotChars : List Char → List (List Char)
  | [] => [[]]
  | c :: rest =>
    let r := splitDotChars rest
    if c == '.' then [] :: r
    else
      match r with
      | [] => [[c]]
      | h :: t => (c :: h) :: t

/-- JavaScript `s.split('.')`. -/
def jsSplitDot (s : String) : List String :=
  (splitDotChars s.data).map String.mk

/-- One flattened leaf condition (`AqlQuery` in the source: a query
fragment plus its two bind variables). -/
structure AqlLeaf where
  query : String
  bindVars : BindVars

mutual
/-- `extractFilters(filter, prevKey)` of `ArangoBaseQueryBuilder`,
with the global tick counter threaded explicitly. Note the source mutates
the loop-local `prevKey` (`prevKey += key + '.'`) before recursing, so the
siblings that follow a nested object also see the extended prefix; the
recursive call receives the string by value. -/
def extractFilters (doc : String) : FilterEntries → String → Nat → List AqlLeaf × Nat
  | .nil, _, t => ([], t)
  | .cons key v rest, prevKey, t =>
    if isFilterPrimitiveType v || isFilterProperFilterObject v then
      let objectKey := prevKey ++ key
      let docPath := "path_" ++ Nat.repr (t + 1)
      let bindVarName := "filter_" ++ Nat.repr (t + 2)
      let q := leafDocName doc v ++ ".@" ++ docPath ++ " " ++ leafOperator v ++ " @" ++ bindVarName
      let leafBv : BindVars :=
        [(docPath, .arr ((jsSplitDot objectKey).map Prim.str)),
         (bindVarName, leafValue v)]
      let res := extractFilters doc rest prevKey (t + 2)
      (⟨q, leafBv⟩ :: res.1, res.2)
    else
      let prevKey' := prevKey ++ key ++ "."
      let inner := extractFiltersInto doc v prevKey' t
      let res := extractFilters doc rest prevKey' inner.2
      (inner.1 ++ res.1, res.2)
termination_by structural es _pk _t => es

/-- Recursion into a non-leaf entry; only objects are ever recursed into
(`for..in` over the nested filter object). -/
def extractFiltersInto (doc : String) : FilterNode → String → Nat → List AqlLeaf × Nat
  | .obj es, prevKey, t => extractFilters doc es prevKey t
  | .prim _, _, t => ([], t)
  | .arr _, _, t => ([], t)
termination_by structural f _pk _t => f
end

/-- Modelled from the spec: the traversal `Direction` enum (`ANY` default,
`OUTBOUND`, `INBOUND`), interpolated verbatim into the selector. -/
inductive Direction where
  | any
  | outbound
  | inbound
deriving DecidableEq

/-- The string value of the `Direction` enum member. -/
def Direction.render : Direction → String
  | .any => "ANY"
  | .outbound => "OUTBOUND"
  | .inbound => "INBOUND"

/-- A `string | string[]` option value (edge / related collections). -/
inductive StrOrList where
  | one (s : String)
  | many (l : List String)

/-- `sortBy: { field: string; order: string }`. -/
structure SortBy where
  field : String
  order : String

/-- `limitBy: { offset: number; limit: number }`. -/
structure LimitBy where
  offset : Int
  limit : Int

/-- Modelled from the spec: the option fields shared by document and edge
queries (`withCount?`, `filterBy?.filter`, `sortBy?`, `limitBy?`). -/
structure CommonOpts where
  withCount : Bool
  filterBy : Option FilterEntries
  sortBy : Option SortBy
  limitBy : Option LimitBy

/-- The concrete builder variant together with its variant-specific state:
`document` holds `options.documentCollection`; `edge` holds the
edge-specific options after the constructor defaults (`depth ??= 1`,
`direction ??= Any`) plus the mutable `rootDoc` field (initially `''`,
set only by `setRootDocSelector`). `base` is the abstract class used
directly, whose `buildSelector` throws. -/
inductive QKind where
  | base
  | document (documentCollection : String)
  | edge (edgeCollections : StrOrList) (relatedCollections : Option StrOrList)
      (startingVertexId : Option String) (depth : Int) (direction : Direction)
      (rootDoc : String)

mutual
/-- One query-builder node: its variant, common options, current `doc`
selector (row alias), the `_isRootQuery` flag, and the insertion-ordered
`additionalQueries` map. The `_parent` pointer is not stored: children are
embedded in their parent, and `prepareQuery` receives the information the
parent-chain walk would produce (see `prepareQuery`). -/
inductive QB where
  | node (kind : QKind) (opts : CommonOpts) (doc : String) (isRoot : Bool)
      (children : Children)

/-- The `additionalQueries : Map<string, ArangoBaseQueryBuilder>` of a
node, in insertion order. -/
inductive Children where
  | nil
  | cons (name : String) (q : QB) (rest : Children)
end

/-- The node's `options` (shared fields). -/
def QB.optsOf : QB → CommonOpts
  | .node _ o _ _ _ => o

/-- The node's `doc` field (`getDocSelector()`). -/
def QB.docOf : QB → String
  | .node _ _ d _ _ => d

/-- The node's `_isRootQuery` flag. -/
def QB.isRootOf : QB → Bool
  | .node _ _ _ r _ => r

/-- The node's `kind` (its class plus variant-specific state). -/
def QB.kindOf : QB → QKind
  | .node k _ _ _ _ => k

/-- The node's `additionalQueries` map. -/
def QB.childrenOf : QB → Children
  | .node _ _ _ _ c => c

/-- `Map.prototype.set`: replace in place if present, else append. -/
def Children.set : Children → String → QB → Children
  | .nil, k, v => .cons k v .nil
  | .cons k' v' rest, k, v =>
    if k' == k then .cons k' v rest else .cons k' v' (rest.set k v)

/-- `Map.prototype.get`. -/
def Children.get : Children → String → Option QB
  | .nil, _ => none
  | .cons k' v' rest, k => if k' == k then some v' else rest.get k

/-- `Array.from(map.keys())`. -/
def Children.keys : Children → List String
  | .nil => []
  | .cons k _ rest => k :: rest.keys

/-- `new ArangoDocumentQueryBuilder(options)`: document variant, alias
`doc`, a fresh root. -/
def ArangoDocumentQueryBuilder.make (documentCollection : String)
    (opts : CommonOpts) : QB :=
  .node (.document documentCollection) opts "doc" true .nil

/-- `new ArangoBaseQueryBuilder(options)`: the abstract base used
directly. -/
def ArangoBaseQueryBuilder.make (opts : CommonOpts) : QB :=
  .node .base opts "doc" true .nil

/-- `new ArangoEdgeQueryBuilder(options)`: edge variant, alias `vertex`,
constructor defaults `depth ??= 1` and `direction ??= Direction.Any`,
`rootDoc` initially empty. -/
def ArangoEdgeQueryBuilder.make (edgeCollections : StrOrList)
    (relatedCollections : Option StrOrList) (startingVertexId : Option String)
    (depth : Option Int) (direction : Option Direction) (opts : CommonOpts) : QB :=
  .node (.edge edgeCollections relatedCollections startingVertexId
      (depth.getD 1) (direction.getD .any) "")
    opts "vertex" true .nil

/-- `setParentQuery(parent)`: clears `_isRootQuery` (the parent link itself
is realised by embedding the child into the parent's map). -/
def QB.setParentQuery : QB → QB
  | .node k o d _ c => .node k o d false c

/-- `setDocSelector(doc)`: guard, then overwrite the row alias. -/
def QB.setDocSelector (q : QB) (doc : String) : Except QError QB := do
  checkSafe doc
  match q with
  | .node k o _ r c => pure (.node k o doc r c)

/-- `ArangoEdgeQueryBuilder.setRootDocSelector(doc)`: guard, then set the
edge node's `rootDoc`. On a non-edge node the method does not exist; the
embedding leaves such a node unchanged after the guard. -/
def QB.setRootDocSelector (q : QB) (doc : String) : Except QError QB := do
  checkSafe doc
  match q with
  | .node (.edge ecs rel sv depth dir _) o d r c =>
    pure (.node (.edge ecs rel sv depth dir doc) o d r c)
  | other => pure other

/-- `addAdditionalQuery(varName, q)`: guard the field name, reject a name
equal to the current `doc` alias, mark the child as non-root and register
it. -/
def QB.addAdditionalQuery (q : QB) (varName : String) (child : QB) :
    Except QError QB := do
  checkSafe varName
  if varName == q.docOf then
    .error .duplicateVarName
  else
    match q with
    | .node k o d r c =>
      pure (.node k o d r (c.set varName child.setParentQuery))

/-- The loop body of `handleCommaSeparated`: one `@@name` placeholder and
one `@name` bind variable per value, comma-separated, one fresh tick
each. -/
def commaLoop : List String → String → BindVars → Nat → String × BindVars × Nat
  | [], _, bv, t => ("", bv, t)
  | [v], base, bv, t =>
    let keyName := base ++ "_" ++ Nat.repr (t + 1)
    ("@@" ++ keyName, recSet bv ("@" ++ keyName) (.prim (.str v)), t + 1)
  | v :: v' :: rest, base, bv, t =>
    let keyName := base ++ "_" ++ Nat.repr (t + 1)
    let res := commaLoop (v' :: rest) base (recSet bv ("@" ++ keyName) (.prim (.str v))) (t + 1)
    ("@@" ++ keyName ++ ", " ++ res.1, res.2)

/-- `handleCommaSeparated(values, keyNameInput)`: guard the base name,
return `''` for no values, else the comma-joined placeholders. -/
def handleCommaSeparated (values : List String) (keyNameInput : String)
    (bv : BindVars) (t : Nat) : Except QError (String × BindVars × Nat) := do
  checkSafe keyNameInput
  if values.isEmpty then
    pure ("", bv, t)
  else
    pure (commaLoop values keyNameInput bv t)

/-- `buildFilter()`: flatten `filterBy.filter`, join the leaf fragments
with `' && '`, and spread each leaf's bind variables under the node's own
(`{...filter.bindVars, ...this.bindVars}` — the node's keys win). -/
def buildFilter (doc : String) (filterBy : Option FilterEntries)
    (bv : BindVars) (t : Nat) : String × BindVars × Nat :=
  match filterBy with
  | none => ("", bv, t)
  | some entries =>
    let res := extractFilters doc entries "" t
    ("FILTER " ++ joinSep " && " (res.1.map (fun l => l.query)) ++ " ",
     res.1.foldl (fun acc l => jsSpread l.bindVars acc) bv,
     res.2)

/-- `buildSort()`: two fresh names (dot-path array, order literal). -/
def buildSort (doc : String) (sortBy : Option SortBy) (bv : BindVars)
    (t : Nat) : String × BindVars × Nat :=
  match sortBy with
  | none => ("", bv, t)
  | some sb =>
    let sortFieldKeyName := "sortField_" ++ Nat.repr (t + 1)
    let sortOrderKeyName := "sortOrder_" ++ Nat.repr (t + 2)
    ("SORT " ++ doc ++ ".@" ++ sortFieldKeyName ++ " @" ++ sortOrderKeyName ++ " ",
     recSet (recSet bv sortFieldKeyName (.arr ((jsSplitDot sb.field).map Prim.str)))
       sortOrderKeyName (.prim (.str sb.order)),
     t + 2)

/-- `buildLimit()`: two fresh names (offset, limit). -/
def buildLimit (limitBy : Option LimitBy) (bv : BindVars) (t : Nat) :
    String × BindVars × Nat :=
  match limitBy with
  | none => ("", bv, t)
  | some lb =>
    let offsetKeyName := "limitByOffset_" ++ Nat.repr (t + 1)
    let limitKeyName := "limitByLimit_" ++ Nat.repr (t + 2)
    ("LIMIT @" ++ offsetKeyName ++ ", @" ++ limitKeyName ++ " ",
     recSet (recSet bv offsetKeyName (.prim (.num lb.offset)))
       limitKeyName (.prim (.num lb.limit)),
     t + 2)

mutual
/-- `gatherRelatedCollectionsRecursively()`: this node's (truthy)
`relatedCollections` — `concatArrays` appends an array wholesale and
pushes a single string — followed by each child's gathering, in child
order, depth-first. An empty string is falsy and skipped; an empty array
is truthy and concatenated. -/
def gatherRelatedCollectionsRecursively : QB → List String
  | .node k _ _ _ cs =>
    (match k with
     | .edge _ (some (.one s)) _ _ _ _ => if s == "" then [] else [s]
     | .edge _ (some (.many l)) _ _ _ _ => l
     | _ => []) ++ gatherChildren cs
termination_by structural q => q

/-- The `for (let elem of this.additionalQueries)` part of
`gatherRelatedCollectionsRecursively`. -/
def gatherChildren : Children → List String
  | .nil => []
  | .cons _ q rest => gatherRelatedCollectionsRecursively q ++ gatherChildren rest
termination_by structural cs => cs
end

/-- `buildWithClause()`: only a root node gathers the related collections
of the whole tree and, when nonempty, emits `WITH ...` via
`handleCommaSeparated(targets, 'target')`. -/
def buildWithClause (isRoot : Bool) (q : QB) (bv : BindVars) (t : Nat) :
    Except QError (String × BindVars × Nat) :=
  if isRoot then do
    let targets := gatherRelatedCollectionsRecursively q
    if targets.length > 0 then
      let res ← handleCommaSeparated targets "target" bv t
      pure ("WITH " ++ res.1 ++ " ", res.2.1, res.2.2)
    else
      pure ("", bv, t)
  else
    pure ("", bv, t)

/-- `buildReturnClause()`: the bare alias without children, otherwise a
`MERGE` of the alias with one field per child. -/
def buildReturnClause (doc : String) : Children → String
  | .nil => doc
  | cs => "MERGE(" ++ doc ++ ", \x7b " ++ joinSep ", " cs.keys ++ " \x7d)"

/-- `ArangoEdgeQueryBuilder.buildStartingVertexId()`. `topSel` is what the
parent-chain walk `getTopmostParentQuery()` would find: `none` when the
node has no parent (the walk returns the node itself), otherwise the
resolved ancestor's `doc` alias. Returns the `startingVertexId` text. -/
def buildStartingVertexId (startingVertexId : Option String) (rootDoc : String)
    (topSel : Option String) (bv : BindVars) (t : Nat) :
    Except QError (String × BindVars × Nat) :=
  match startingVertexId with
  | some sv =>
    if sv ≠ "" then
      if isValidVertexIdB sv then
        let id := "starting_vertex_" ++ Nat.repr (t + 1)
        .ok ("@" ++ id, recSet bv id (.prim (.str sv)), t + 1)
      else
        .error .invalidStartingVertexId
    else
      if rootDoc = "" then
        match topSel with
        | none => .error .missingStartingVertex
        | some r => .ok (r ++ "._id", bv, t)
      else
        .ok (rootDoc ++ "._id", bv, t)
  | none =>
    if rootDoc = "" then
      match topSel with
      | none => .error .missingStartingVertex
      | some r => .ok (r ++ "._id", bv, t)
    else
      .ok (rootDoc ++ "._id", bv, t)

/-- `buildSelector()`: abstract base throws `Override this method`;
document nodes guard the collection name and bind it; edge nodes build
the edge list, the starting vertex and the depth bound
(`buildEdges(); buildStartingVertexId();` then the `FOR ... IN 1..@depth`
template). -/
def buildSelector (k : QKind) (doc : String) (topSel : Option String)
    (bv : BindVars) (t : Nat) : Except QError (String × BindVars × Nat) :=
  match k with
  | .base => .error .overrideThisMethod
  | .document coll => do
    checkSafe coll
    let collectionKey := "collection_" ++ Nat.repr (t + 1)
    pure ("FOR " ++ doc ++ " IN @@" ++ collectionKey ++ " ",
      recSet bv ("@" ++ collectionKey) (.prim (.str coll)), t + 1)
  | .edge ecs _rel sv depth dir rootDoc => do
    let edgeCollections := match ecs with
      | .one s => [s]
      | .many l => l
    let res1 ← handleCommaSeparated edgeCollections "edge" bv t
    let res2 ← buildStartingVertexId sv rootDoc topSel res1.2.1 res1.2.2
    let depthKeyName := "depth_" ++ Nat.repr (res2.2.2 + 1)
    pure ("FOR " ++ doc ++ " IN 1..@" ++ depthKeyName ++ " " ++ dir.render ++ " " ++
        res2.1 ++ " " ++ res1.1 ++ " ",
      recSet res2.2.1 depthKeyName (.prim (.num depth)), res2.2.2 + 1)

mutual
/-- `prepareQuery()`: run `buildEverything()` (selector, filter, sort,
limit, with-clause, return clause, child assembly — in that order, all
name allocation delegated to the root's tick counter, threaded here as
`t`) and assemble one of the two output shapes. `topSel` describes the
parent chain: `none` for a node with no parent, otherwise the `doc` alias
of the node `getTopmostParentQuery()` resolves to. -/
def prepareQuery (q : QB) (topSel : Option String) (t : Nat) :
    Except QError (String × BindVars × Nat) :=
  match q with
  | .node k opts doc isRoot cs => do
    let sel ← buildSelector k doc topSel [] t
    let fil := buildFilter doc opts.filterBy sel.2.1 sel.2.2
    let srt := buildSort doc opts.sortBy fil.2.1 fil.2.2
    let lim := buildLimit opts.limitBy srt.2.1 srt.2.2
    let wth ← buildWithClause isRoot (.node k opts doc isRoot cs) lim.2.1 lim.2.2
    let returnClause := buildReturnClause doc cs
    let childTopSel := if isRoot then doc else topSel.getD doc
    let inl ← buildAdditionalQueries cs childTopSel wth.2.1 wth.2.2
    let query :=
      if opts.withCount then
        wth.1 ++ "LET total = FIRST(" ++ sel.1 ++ fil.1 ++
          "COLLECT WITH COUNT INTO length RETURN length) " ++
          "LET docs = (" ++ sel.1 ++ fil.1 ++ srt.1 ++ lim.1 ++ inl.1 ++
          "RETURN " ++ returnClause ++ ") " ++
          "RETURN \x7b docs, total \x7d"
      else
        wth.1 ++ sel.1 ++ fil.1 ++ srt.1 ++ lim.1 ++ inl.1 ++
          "RETURN " ++ returnClause
    pure (query, inl.2.1, inl.2.2)
termination_by structural q

/-- `buildAdditionalQueries()`: prepare every child recursively, wrap it
as `LET name = [FIRST](...)` — `FIRST` exactly when the child asked for a
total count or `limitBy?.limit === 1` — and spread the child's bind
variables under the node's own (`{...inner.bindVars, ...this.bindVars}`).
Each child's parent-chain walk resolves to the nearest root ancestor,
whose alias is `childTopSel`. -/
def buildAdditionalQueries (cs : Children) (childTopSel : String)
    (bv : BindVars) (t : Nat) : Except QError (String × BindVars × Nat) :=
  match cs with
  | .nil => pure ("", bv, t)
  | .cons name c rest => do
    let inner ← prepareQuery c (some childTopSel) t
    let piece := "LET " ++ name ++ " = " ++
      (if c.optsOf.withCount ||
          (match c.optsOf.limitBy with
           | some lb => lb.limit == 1
           | none => false) then "FIRST" else "") ++
      "(" ++ inner.1 ++ ") "
    let bv' := jsSpread inner.2.1 bv
    let res ← buildAdditionalQueries rest childTopSel bv' inner.2.2
    pure (piece ++ res.1, res.2.1, res.2.2)
termination_by structural cs
end

/-- A caller-side `prepareQuery()` on a freshly built tree: the root has
no parent and the counter starts at `0`. -/
def prepareQueryTop (q : QB) : Except QError (String × BindVars) :=
  (prepareQuery q none 0).map (fun r => (r.1, r.2.1))

/-- JavaScript record read `m[k]` (as an `Option`). -/
def recGet (m : BindVars) (k : String) : Option BindVal :=
  (m.find? (fun p => p.1 == k)).map (fun p => p.2)

/-! ### Concrete fixtures

These replicate the trees built in `src/__tests__/querybuilder.test.ts`;
the fidelity theorems below check the embedding byte-for-byte against the
expected outputs recorded there. -/

/-- The filter `{ gitRepoInfo: { owner: 'Tospaa' } }`. -/
def filterGitOwner : FilterEntries :=
  .cons "gitRepoInfo" (.obj (.cons "owner" (.prim (.str "Tospaa")) .nil)) .nil

/-- The tree of the test `should prepare query when complex related
query 1`. -/
def builderComplex1 : Except QError QB := do
  let root := ArangoDocumentQueryBuilder.make "manifest"
    ⟨false, some filterGitOwner, none, none⟩
  let root ← root.addAdditionalQuery "one_data_source"
    (ArangoDocumentQueryBuilder.make "data_sources" ⟨false, none, none, some ⟨0, 1⟩⟩)
  root.addAdditionalQuery "related"
    (ArangoEdgeQueryBuilder.make (.one "tospaa") (some (.one "afyon"))
      (some "deneme/1-2") none none
      ⟨true, none, some ⟨"foo.bar", "ASC"⟩, some ⟨3, 2⟩⟩)

/-- `prepareQuery()` on that tree. -/
def preparedComplex1 : Except QError (String × BindVars) := do
  let b ← builderComplex1
  prepareQueryTop b

/-- The tree of the test `should prepare query when only edge query`. -/
def builderOnlyEdge : QB :=
  ArangoEdgeQueryBuilder.make (.one "related_execution_infos")
    (some (.many ["execution_info", "data_sources"]))
    (some "deneme/1-2") (some 4) (some .outbound)
    ⟨false, some filterGitOwner, none, none⟩

/-- The tree of the second test named `should prepare query when complex
related query 2` (nested children, re-aliased via `setDocSelector`). -/
def builderNested : Except QError QB := do
  let innermost := ArangoEdgeQueryBuilder.make (.one "innermost_edge")
    (some (.one "innermost_related")) none none none
    ⟨false, none, some ⟨"dateCreated", "ASC"⟩, none⟩
  let innermost ← innermost.setDocSelector "doc3"
  let inner := ArangoEdgeQueryBuilder.make (.one "inner_edge")
    (some (.one "inner_related")) none none none ⟨false, none, none, none⟩
  let inner ← inner.addAdditionalQuery "innermost" innermost
  let execs := ArangoDocumentQueryBuilder.make "execution_info"
    ⟨false, none, some ⟨"createdTs", "DESC"⟩, some ⟨0, 1⟩⟩
  let execs ← execs.setDocSelector "doc2"
  let execs ← execs.addAdditionalQuery "inner" inner
  let root := ArangoDocumentQueryBuilder.make "manifest"
    ⟨false, some filterGitOwner, none, none⟩
  root.addAdditionalQuery "executions" execs

/-- `prepareQuery()` on the nested tree. -/
def preparedNested : Except QError (String × BindVars) := do
  let b ← builderNested
  prepareQueryTop b

/-- The filter `{ a: { b: 1, c: 2 }, d: 3 }` from the flattening claim. -/
def filterABCD : FilterEntries :=
  .cons "a" (.obj (.cons "b" (.prim (.num 1)) (.cons "c" (.prim (.num 2)) .nil)))
    (.cons "d" (.prim (.num 3)) .nil)

/-- The dot-path array bound by a leaf condition (its first bind
variable). -/
def leafPathOf (l : AqlLeaf) : List Prim :=
  match l.bindVars with
  | (_, .arr ps) :: _ => ps
  | _ => []

/-! ### Spec-side predicates

Independent `Prop`-level readings of the two regexes, used to state the
error-handling claims without referring back to the executable guards. -/

/-- `Prop`-level reading of `^[A-Za-z][A-Za-z0-9\-_]*$`. -/
def SafePattern (s : String) : Prop :=
  ∃ c cs, s.data = c :: cs ∧
    (('A' ≤ c ∧ c ≤ 'Z') ∨ ('a' ≤ c ∧ c ≤ 'z')) ∧
    ∀ d ∈ cs, ('A' ≤ d ∧ d ≤ 'Z') ∨ ('a' ≤ d ∧ d ≤ 'z') ∨
      ('0' ≤ d ∧ d ≤ '9') ∨ d = '-' ∨ d = '_'

/-- `Prop`-level reading of `^[A-Za-z][A-Za-z0-9\-_]*\/[A-Za-z0-9\-_]+$`
(an ArangoDB `collection/key` reference): a unique split at the only
slash, whose left part matches the identifier pattern and whose right part
is a nonempty run of identifier-continuation characters. -/
def VertexPattern (s : String) : Prop :=
  ∃ a b : List Char, s.data = a ++ '/' :: b ∧
    (∃ c cs, a = c :: cs ∧
      (('A' ≤ c ∧ c ≤ 'Z') ∨ ('a' ≤ c ∧ c ≤ 'z')) ∧
      ∀ d ∈ cs, ('A' ≤ d ∧ d ≤ 'Z') ∨ ('a' ≤ d ∧ d ≤ 'z') ∨
        ('0' ≤ d ∧ d ≤ '9') ∨ d = '-' ∨ d = '_') ∧
    b ≠ [] ∧
    ∀ d ∈ b, ('A' ≤ d ∧ d ≤ 'Z') ∨ ('a' ≤ d ∧ d ≤ 'z') ∨
      ('0' ≤ d ∧ d ≤ '9') ∨ d = '-' ∨ d = '_'

/-! ### Placeholder scanner

A spec-side tokenizer for the produced query text: tokens are maximal runs
of non-delimiter characters, and a token starting with `@` is a named
placeholder reference (`@name` refers to key `name`, `@@name` to key
`@name` — i.e. the reference always names the key obtained by dropping the
first `@`). -/

/-- The characters that separate tokens in the generated query text. -/
def isDelim (c : Char) : Bool :=
  c == ' ' || c == ',' || c == '(' || c == ')' || c == '\x7b' || c == '\x7d' || c == '.'

/-- Scanner state: the current (possibly empty) token and the finished
tokens. -/
structure ScanSt where
  cur : List Char
  out : List (List Char)

/-- Consume one character. -/
def scanStep (st : ScanSt) (c : Char) : ScanSt :=
  if isDelim c then
    match st.cur with
    | [] => ⟨[], st.out⟩
    | _ => ⟨[], st.out ++ [st.cur]⟩
  else ⟨st.cur ++ [c], st.out⟩

/-- Close the final token. -/
def scanFinish (st : ScanSt) : List (List Char) :=
  match st.cur with
  | [] => st.out
  | _ => st.out ++ [st.cur]

/-- All tokens of a character list. -/
def tokensOf (l : List Char) : List (List Char) :=
  scanFinish (l.foldl scanStep ⟨[], []⟩)

/-- The bind-variable key a token refers to, if it is a placeholder. -/
def tokenRef : List Char → Option String
  | c :: rest => if c = '@' then some (String.mk rest) else none
  | [] => none

/-- The bind-variable keys referenced by the placeholders of a character
list. -/
def refsL (l : List Char) : List String :=
  (tokensOf l).filterMap tokenRef

/-- The bind-variable keys referenced by the placeholders of a query
string. -/
def placeholderRefs (s : String) : List String :=
  refsL s.data

/-! ### Decimal-representation helpers

`Nat.repr` unfolds to `Nat.toDigitsCore`; `natDigits` is the same digit
string in directly recursive form, used to reason about the numeric
suffixes of generated names. -/

/-- The decimal digit characters of `n`, most significant first. -/
def natDigits (n : Nat) : List Char :=
  if _h : n < 10 then [Nat.digitChar n]
  else natDigits (n / 10) ++ [Nat.digitChar (n % 10)]
decreasing_by
  exact Nat.div_lt_self (by omega) (by omega)

/-- Value of a decimal digit character. -/
def digitVal (c : Char) : Nat := c.toNat - '0'.toNat

/-- Value of a decimal digit string. -/
def digitsVal (l : List Char) : Nat :=
  l.foldl (fun a c => a * 10 + digitVal c) 0

/-- The (reversed) trailing digit run of a generated name — the decimal
tick suffix that makes generated names unique. -/
def keyTick (s : String) : List Char :=
  s.data.reverse.takeWhile Char.isDigit

/-- A name generated from a tick in the half-open range `(lo, hi]`. -/
def GenKey (lo hi : Nat) (s : String) : Prop :=
  ∃ k, lo < k ∧ k ≤ hi ∧ keyTick s = (natDigits k).reverse

/-- Every key of `bv` was generated from a tick in `(lo, hi]`. -/
def KeysIn (bv : BindVars) (lo hi : Nat) : Prop :=
  ∀ p ∈ bv, GenKey lo hi p.1

/-- The keys of `bv` have pairwise distinct tick suffixes. -/
def TickInj (bv : BindVars) : Prop :=
  (bv.map (fun p => keyTick p.1)).Nodup

/-- A query fragment that is empty or ends in a delimiter, so that
scanning it alongside what follows cannot merge tokens across the
boundary. -/
def STermS (s : String) : Prop :=
  s.data = [] ∨ ∃ u c, s.data = u ++ [c] ∧ isDelim c = true

/-- Contract of one build step: the tick does not decrease, the new bind
variables are appended (up to the order changes of JavaScript spreads),
their names carry fresh ticks from `(t, t']` with pairwise distinct
suffixes, every placeholder of the emitted fragment names one of them,
and the fragment ends cleanly. -/
def StepOK (bv : BindVars) (t : Nat) (frag : String) (bv' : BindVars) (t' : Nat) : Prop :=
  t ≤ t' ∧
  ∃ delta, bv'.Perm (bv ++ delta) ∧ KeysIn delta t t' ∧ TickInj delta ∧
    (∀ r ∈ placeholderRefs frag, r ∈ delta.map Prod.fst) ∧ STermS frag

/-- Contract of a flattened leaf list: consecutive leaves carry bind
variables from consecutive fresh tick segments, and each leaf's fragment
references only its own bind variables. -/
def LeafSegs : List AqlLeaf → Nat → Nat → Prop
  | [], t, t' => t' = t
  | l :: rest, t, t' => ∃ tm, t ≤ tm ∧ KeysIn l.bindVars t tm ∧ TickInj l.bindVars ∧
      (∀ r ∈ placeholderRefs l.query, r ∈ l.bindVars.map Prod.fst) ∧
      LeafSegs rest tm t' ∧ tm ≤ t'

/-- Every key of `bv` whose name ends in the decimal digits of some `k`
has `k ≤ t`: the record predates every tick after `t`, so a freshly
generated name (whose digit suffix is nonempty and greater than `t`)
cannot collide with it. -/
def TicksLe (bv : BindVars) (t : Nat) : Prop :=
  ∀ p ∈ bv, ∀ k : Nat, keyTick p.1 = (natDigits k).reverse → k ≤ t

/-- Invariant of a full `prepareQuery` result (each node starts from an
empty bind-variable record): the counter does not decrease, all keys carry
fresh ticks from `(t, t']` with pairwise distinct suffixes, and every
placeholder of the query text names one of the keys. -/
def PrepOK (t : Nat) (frag : String) (bv' : BindVars) (t' : Nat) : Prop :=
  t ≤ t' ∧ KeysIn bv' t t' ∧ TickInj bv' ∧
    (∀ r ∈ placeholderRefs frag, r ∈ bv'.map Prod.fst)

/-! ### Validity of a builder tree

`validQB` carves out the trees the uniqueness/coverage claim quantifies
over: every row alias, child field name and explicit `rootDoc` passes the
identifier guard (as the public setters enforce), and the unguarded
filter-leaf overrides are well-formed — `@docNameToFilter` is an
identifier (it names a row alias) and `@operator` is free of `@`. -/

/-- No `@` anywhere in the string. -/
def noAtB (s : String) : Bool :=
  s.data.all (fun c => c != '@')

/-- Well-formedness of the (unguarded) string-valued leaf-filter markers
of one filter object. -/
def validProps (es : FilterEntries) : Bool :=
  (match es.getProp "@operator" with
   | some (.prim (.str s)) => noAtB s
   | _ => true) &&
  (match es.getProp "@docNameToFilter" with
   | some (.prim (.str s)) => checkSafeB s
   | _ => true)

mutual
/-- Well-formedness of every filter object in a filter value. -/
def validFilterNode : FilterNode → Bool
  | .prim _ => true
  | .arr _ => true
  | .obj es => validProps es && validFilterEntries es

/-- Well-formedness of every filter object under an entry list. -/
def validFilterEntries : FilterEntries → Bool
  | .nil => true
  | .cons _ v rest => validFilterNode v && validFilterEntries rest
end

mutual
/-- A valid builder tree (see section comment). -/
def validQB : QB → Bool
  | .node k opts doc _ cs =>
    checkSafeB doc &&
    (match opts.filterBy with
     | none => true
     | some es => validFilterEntries es) &&
    (match k with
     | .edge _ _ _ _ _ rootDoc => rootDoc == "" || checkSafeB rootDoc
     | _ => true) &&
    validChildren cs

/-- Validity of a child map: guarded names, valid subtrees. -/
def validChildren : Children → Bool
  | .nil => true
  | .cons name q rest => checkSafeB name && validQB q && validChildren rest
end

/-! ### Comma-statement specification (for the declaration-clause claim) -/

/-- The bind-variable keys `handleCommaSeparated` allocates: one
`@base_k` per value, ticks `t+1, t+2, ...`. -/
def commaKeysSpec (base : String) : List String → Nat → List String
  | [], _ => []
  | _ :: rest, t => ("@" ++ base ++ "_" ++ Nat.repr (t + 1)) :: commaKeysSpec base rest (t + 1)

/-- The bind-variable entries `handleCommaSeparated` appends: each value
bound, in order, with no deduplication. -/
def commaDeltaSpec (base : String) : List String → Nat → BindVars
  | [], _ => []
  | v :: rest, t =>
    ("@" ++ base ++ "_" ++ Nat.repr (t + 1), .prim (.str v)) :: commaDeltaSpec base rest (t + 1)

/-- The emitted comma-separated placeholder list. -/
def commaStmtSpec (base : String) : List String → Nat → String
  | [], _ => ""
  | [_], t => "@@" ++ base ++ "_" ++ Nat.repr (t + 1)
  | _ :: v :: rest, t =>
    "@@" ++ base ++ "_" ++ Nat.repr (t + 1) ++ ", " ++ commaStmtSpec base (v :: rest) (t + 1)

/-! ### Parent-chain walk (termination claim)

`getTopmostParentQuery` walks mutable parent pointers with an unguarded
`while (true)`. To reason about its termination the pointer graph is
modelled explicitly: nodes are indices, `parent` the pointer map,
`isRootQ` the `_isRootQuery` flags, and the loop gets a fuel parameter —
`none` means the fuel ran out before the loop returned. -/

/-- The parent-pointer environment of a set of builders. -/
structure ParentEnv where
  parent : Nat → Option Nat
  isRootQ : Nat → Bool

/-- The `while (true)` loop of `getTopmostParentQuery`, fueled. -/
def topmostLoop (env : ParentEnv) : Nat → Nat → Option Nat
  | 0, _ => none
  | fuel + 1, p =>
    match env.parent p with
    | none => some p
    | some lp => if env.isRootQ lp then some lp else topmostLoop env fuel lp

/-- `getTopmostParentQuery()`: a node with no parent returns itself; a
parent that is itself a root is returned; otherwise the loop walks up. -/
def getTopmostParentQuery (env : ParentEnv) (fuel : Nat) (n : Nat) : Option Nat :=
  match env.parent n with
  | none => some n
  | some p => if env.isRootQ p then some p else topmostLoop env fuel p

/-- `getNextGlobalTick()` = `getTopmostParentQuery().getNextTick()`: the
resolved root's counter incremented; diverges iff the walk does. -/
def getNextGlobalTick (env : ParentEnv) (ticks : Nat → Nat) (fuel : Nat) (n : Nat) :
    Option Nat :=
  (getTopmostParentQuery env fuel n).map (fun r => ticks r + 1)

/-- The `k`-fold parent map. -/
def ancestor (env : ParentEnv) : Nat → Nat → Option Nat
  | 0, n => some n
  | k + 1, n => (env.parent n).bind (ancestor env k)

/-- A two-node parent cycle (`0 → 1 → 0`, no root flags): the state a
cycle guard would have to defend against. -/
def cycEnv : ParentEnv :=
  ⟨fun n => if n == 0 then some 1 else if n == 1 then some 0 else none,
   fun _ => false⟩

/-- A three-node chain `2 → 1 → 0` whose head `0` is a flagged root with
no parent (the shape `addAdditionalQuery` produces). -/
def chainEnv : ParentEnv :=
  ⟨fun n => if n == 2 then some 1 else if n == 1 then some 0 else none,
   fun n => n == 0⟩

/-! # Theorems

## Fidelity of the embedding

The embedding reproduces, byte for byte, the outputs the repository's own
test suite (`src/__tests__/querybuilder.test.ts`) records for three full
builder trees, including tick numbering, clause order, parameter values
and the resolution of nested traversals to the root alias. -/

/-- Fidelity: the tree of `complex related query 1` produces exactly the
query text and bind variables the test expects (bind-variable order in
this list is the embedding's; the test compares records, which are
order-insensitive). -/
theorem fidelity_complex1 :
    preparedComplex1 = .ok
      ("WITH @@target_4 FOR doc IN @@collection_1 FILTER doc.@path_2 == @filter_3 " ++
       "LET one_data_source = FIRST(FOR doc IN @@collection_5 LIMIT @limitByOffset_6, " ++
       "@limitByLimit_7 RETURN doc) LET related = FIRST(LET total = FIRST(FOR vertex IN " ++
       "1..@depth_10 ANY @starting_vertex_9 @@edge_8 COLLECT WITH COUNT INTO length " ++
       "RETURN length) LET docs = (FOR vertex IN 1..@depth_10 ANY @starting_vertex_9 " ++
       "@@edge_8 SORT vertex.@sortField_11 @sortOrder_12 LIMIT @limitByOffset_13, " ++
       "@limitByLimit_14 RETURN vertex) RETURN \x7b docs, total \x7d) " ++
       "RETURN MERGE(doc, \x7b one_data_source, related \x7d)",
       [("@edge_8", .prim (.str "tospaa")),
        ("starting_vertex_9", .prim (.str "deneme/1-2")),
        ("depth_10", .prim (.num 1)),
        ("sortField_11", .arr [.str "foo", .str "bar"]),
        ("sortOrder_12", .prim (.str "ASC")),
        ("limitByOffset_13", .prim (.num 3)),
        ("limitByLimit_14", .prim (.num 2)),
        ("@collection_5", .prim (.str "data_sources")),
        ("limitByOffset_6", .prim (.num 0)),
        ("limitByLimit_7", .prim (.num 1)),
        ("path_2", .arr [.str "gitRepoInfo", .str "owner"]),
        ("filter_3", .prim (.str "Tospaa")),
        ("@collection_1", .prim (.str "manifest")),
        ("@target_4", .prim (.str "afyon"))]) := by
  rfl

/-- Fidelity: the standalone traversal of `only edge query` (explicit
starting vertex, two related collections, OUTBOUND, depth 4). -/
theorem fidelity_onlyEdge :
    prepareQueryTop builderOnlyEdge = .ok
      ("WITH @@target_6, @@target_7 FOR vertex IN 1..@depth_3 OUTBOUND " ++
       "@starting_vertex_2 @@edge_1 FILTER vertex.@path_4 == @filter_5 RETURN vertex",
       [("path_4", .arr [.str "gitRepoInfo", .str "owner"]),
        ("filter_5", .prim (.str "Tospaa")),
        ("@edge_1", .prim (.str "related_execution_infos")),
        ("starting_vertex_2", .prim (.str "deneme/1-2")),
        ("depth_3", .prim (.num 4)),
        ("@target_6", .prim (.str "execution_info")),
        ("@target_7", .prim (.str "data_sources"))]) := by
  rfl

/-- Fidelity: the doubly nested tree (re-aliased children; both inner
traversals resolve their starting vertex to the root alias `doc`, not to
their immediate parents). -/
theorem fidelity_nested :
    preparedNested = .ok
      ("WITH @@target_4, @@target_5 FOR doc IN @@collection_1 FILTER doc.@path_2 == " ++
       "@filter_3 LET executions = FIRST(FOR doc2 IN @@collection_6 SORT " ++
       "doc2.@sortField_7 @sortOrder_8 LIMIT @limitByOffset_9, @limitByLimit_10 " ++
       "LET inner = (FOR vertex IN 1..@depth_12 ANY doc._id @@edge_11 LET innermost = " ++
       "(FOR doc3 IN 1..@depth_14 ANY doc._id @@edge_13 SORT doc3.@sortField_15 " ++
       "@sortOrder_16 RETURN doc3) RETURN MERGE(vertex, \x7b innermost \x7d)) " ++
       "RETURN MERGE(doc2, \x7b inner \x7d)) RETURN MERGE(doc, \x7b executions \x7d)",
       [("@edge_13", .prim (.str "innermost_edge")),
        ("depth_14", .prim (.num 1)),
        ("sortField_15", .arr [.str "dateCreated"]),
        ("sortOrder_16", .prim (.str "ASC")),
        ("@edge_11", .prim (.str "inner_edge")),
        ("depth_12", .prim (.num 1)),
        ("@collection_6", .prim (.str "execution_info")),
        ("sortField_7", .arr [.str "createdTs"]),
        ("sortOrder_8", .prim (.str "DESC")),
        ("limitByOffset_9", .prim (.num 0)),
        ("limitByLimit_10", .prim (.num 1)),
        ("path_2", .arr [.str "gitRepoInfo", .str "owner"]),
        ("filter_3", .prim (.str "Tospaa")),
        ("@collection_1", .prim (.str "manifest")),
        ("@target_4", .prim (.str "inner_related")),
        ("@target_5", .prim (.str "innermost_related"))]) := by
  rfl

/-! ## Basic string and character facts -/

/-- `String.append` concatenates the character lists. -/
theorem sdata_append (a b : String) : (a ++ b).data = a.data ++ b.data := rfl

/-- Strings with equal character lists are equal. -/
theorem sdata_inj {a b : String} (h : a.data = b.data) : a = b := by
  cases a; cases b; exact congrArg String.mk h

/-! ## Decimal representation

`Nat.repr` produces the digit string `natDigits n`; its digits determine
`n`, which makes names with distinct tick suffixes distinct. -/

theorem toDigitsCore_eq_natDigits :
    ∀ fuel n ds, n < fuel →
      Nat.toDigitsCore 10 fuel n ds = natDigits n ++ ds := by
  intro fuel
  induction fuel with
  | zero => intro n ds h; omega
  | succ f ih =>
    intro n ds h
    rw [Nat.toDigitsCore]
    by_cases h10 : n < 10
    · have hdiv : n / 10 = 0 := Nat.div_eq_of_lt h10
      rw [natDigits]
      simp [hdiv, h10, Nat.mod_eq_of_lt h10]
    · have hdiv : n / 10 ≠ 0 := by
        intro hc
        have := Nat.div_eq_of_lt (show n < 10 by omega)
        omega
      have hlt : n / 10 < f := by
        have h1 : n / 10 < n := Nat.div_lt_self (by omega) (by omega)
        omega
      rw [natDigits]
      simp only [hdiv, if_false, h10, dif_neg, ih (n / 10) _ hlt]
      simp [List.append_assoc]

/-- The characters of `Nat.repr n` are exactly `natDigits n`. -/
theorem repr_data (n : Nat) : (Nat.repr n).data = natDigits n := by
  show (List.asString (Nat.toDigits 10 n)).data = natDigits n
  rw [Nat.toDigits, toDigitsCore_eq_natDigits (n + 1) n [] (by omega)]
  simp [List.asString]

theorem digitVal_digitChar {m : Nat} (h : m < 10) :
    digitVal (Nat.digitChar m) = m := by
  interval_cases m <;> rfl

theorem digitChar_isDigit {m : Nat} (h : m < 10) :
    (Nat.digitChar m).isDigit = true := by
  interval_cases m <;> decide

theorem digitsVal_append_one (a : List Char) (c : Char) :
    digitsVal (a ++ [c]) = digitsVal a * 10 + digitVal c := by
  simp [digitsVal, List.foldl_append]

/-- The digit string of `n` evaluates back to `n`. -/
theorem digitsVal_natDigits (n : Nat) : digitsVal (natDigits n) = n := by
  induction n using Nat.strong_induction_on with
  | _ n ih =>
    rw [natDigits]
    by_cases h : n < 10
    · rw [dif_pos h]
      show digitsVal ([] ++ [Nat.digitChar n]) = n
      rw [digitsVal_append_one]
      simp [digitsVal, digitVal_digitChar h]
    · rw [dif_neg h]
      rw [digitsVal_append_one]
      rw [ih (n / 10) (Nat.div_lt_self (by omega) (by omega))]
      rw [digitVal_digitChar (Nat.mod_lt n (by omega))]
      omega

/-- Distinct numbers have distinct digit strings. -/
theorem natDigits_inj {a b : Nat} (h : natDigits a = natDigits b) : a = b := by
  have := congrArg digitsVal h
  rwa [digitsVal_natDigits, digitsVal_natDigits] at this

/-- `Nat.repr` is injective. -/
theorem natRepr_inj {a b : Nat} (h : Nat.repr a = Nat.repr b) : a = b := by
  apply natDigits_inj
  rw [← repr_data, ← repr_data, h]

/-- Every character of `natDigits n` is a digit. -/
theorem natDigits_digits (n : Nat) : ∀ c ∈ natDigits n, c.isDigit = true := by
  induction n using Nat.strong_induction_on with
  | _ n ih =>
    rw [natDigits]
    by_cases h : n < 10
    · rw [dif_pos h]
      intro c hc
      rw [List.mem_singleton] at hc
      subst hc
      exact digitChar_isDigit h
    · rw [dif_neg h]
      intro c hc
      rcases List.mem_append.mp hc with hc | hc
      · exact ih (n / 10) (Nat.div_lt_self (by omega) (by omega)) c hc
      · rw [List.mem_singleton] at hc
        subst hc
        exact digitChar_isDigit (Nat.mod_lt n (by omega))

/-- `natDigits` is never empty. -/
theorem natDigits_ne_nil (n : Nat) : natDigits n ≠ [] := by
  rw [natDigits]
  by_cases h : n < 10
  · rw [dif_pos h]; simp
  · rw [dif_neg h]; simp

/-! ## The two regexes, `Bool`-level vs `Prop`-level -/

theorem isSafeHead_iff (c : Char) :
    isSafeHead c = true ↔ (('A' ≤ c ∧ c ≤ 'Z') ∨ ('a' ≤ c ∧ c ≤ 'z')) := by
  simp [isSafeHead, Bool.or_eq_true, Bool.and_eq_true, decide_eq_true_eq]

theorem isSafeTail_iff (c : Char) :
    isSafeTail c = true ↔
      (('A' ≤ c ∧ c ≤ 'Z') ∨ ('a' ≤ c ∧ c ≤ 'z') ∨
       ('0' ≤ c ∧ c ≤ '9') ∨ c = '-' ∨ c = '_') := by
  simp only [isSafeTail, isSafeHead, Bool.or_eq_true, Bool.and_eq_true,
    decide_eq_true_eq, beq_iff_eq]
  tauto

/-- The executable guard test agrees with the `Prop`-level pattern. -/
theorem checkSafeB_iff (s : String) : checkSafeB s = true ↔ SafePattern s := by
  unfold checkSafeB SafePattern
  cases hd : s.data with
  | nil => simp
  | cons c cs =>
    simp only [Bool.and_eq_true, List.all_eq_true, isSafeHead_iff, isSafeTail_iff]
    constructor
    · rintro ⟨h1, h2⟩
      exact ⟨c, cs, rfl, h1, h2⟩
    · rintro ⟨c', cs', heq, h1, h2⟩
      cases heq
      exact ⟨h1, h2⟩

theorem safeHead_ne_slash {c : Char} (h : isSafeHead c = true) : (c != '/') = true := by
  rcases (isSafeHead_iff c).mp h with ⟨h1, h2⟩ | ⟨h1, h2⟩ <;>
    · simp only [bne_iff_ne, ne_eq]
      rintro rfl
      revert h1 h2
      decide

theorem safeTail_ne_slash {c : Char} (h : isSafeTail c = true) : (c != '/') = true := by
  rcases (isSafeTail_iff c).mp h with ⟨h1, h2⟩ | ⟨h1, h2⟩ | ⟨h1, h2⟩ | rfl | rfl <;>
    simp only [bne_iff_ne, ne_eq] <;> first
    | decide
    | · rintro rfl
        revert h1 h2
        decide

/-- `takeWhile`/`dropWhile` split at the first failing element. -/
theorem takeWhile_dropWhile_split {α : Type} (p : α → Bool) :
    ∀ (a : List α) (y : α) (b : List α), (∀ x ∈ a, p x = true) → p y = false →
      (a ++ y :: b).takeWhile p = a ∧ (a ++ y :: b).dropWhile p = y :: b := by
  intro a
  induction a with
  | nil =>
    intro y b _ hy
    simp [List.takeWhile, List.dropWhile, hy]
  | cons x xs ih =>
    intro y b hall hy
    have hx : p x = true := hall x (by simp)
    have := ih y b (fun z hz => hall z (by simp [hz])) hy
    simp [List.takeWhile, List.dropWhile, hx, this.1, this.2]

/-- The executable vertex-reference test agrees with the `Prop`-level
`collection/key` pattern. -/
theorem isValidVertexIdB_iff (s : String) :
    isValidVertexIdB s = true ↔ VertexPattern s := by
  unfold isValidVertexIdB VertexPattern
  constructor
  · intro h
    rw [Bool.and_eq_true] at h
    obtain ⟨h1, h2⟩ := h
    rcases hpre : s.data.takeWhile (fun c => c != '/') with _ | ⟨c, cs⟩
    · rw [hpre] at h1; exact absurd h1 (by simp)
    · rw [hpre] at h1
      rcases hpost : s.data.dropWhile (fun c => c != '/') with _ | ⟨y, rest⟩
      · rw [hpost] at h2; exact absurd h2 (by simp)
      · rw [hpost] at h2
        have hy : y = '/' := by
          by_cases hy' : y = '/'
          · exact hy'
          · exfalso
            revert h2
            have : (y != '/') || !(y != '/') := by simp
            simp only [show (match y :: rest with
              | '/' :: rest => !rest.isEmpty && rest.all isSafeTail
              | _ => false) = (if y = '/' then !rest.isEmpty && rest.all isSafeTail else false) from by
                split <;> simp_all]
            simp [hy']
        subst hy
        simp only [Bool.and_eq_true] at h1 h2
        refine ⟨c :: cs, rest, ?_, ⟨c, cs, rfl, (isSafeHead_iff c).mp h1.1, ?_⟩, ?_, ?_⟩
        · rw [← hpre, ← hpost]
          exact (List.takeWhile_append_dropWhile ..).symm
        · intro d hd
          exact (isSafeTail_iff d).mp (List.all_eq_true.mp h1.2 d hd)
        · intro hre
          rw [hre] at h2
          exact absurd h2.1 (by simp [List.isEmpty])
        · intro d hd
          exact (isSafeTail_iff d).mp (List.all_eq_true.mp h2.2 d hd)
  · rintro ⟨a, b, hdata, ⟨c, cs, ha, hh, htl⟩, hb, hball⟩
    subst ha
    have hsafeall : ∀ x ∈ c :: cs, (fun c => c != '/') x = true := by
      intro x hx
      rcases List.mem_cons.mp hx with rfl | hx
      · exact safeHead_ne_slash ((isSafeHead_iff x).mpr hh)
      · exact safeTail_ne_slash ((isSafeTail_iff x).mpr (htl x hx))
    have hsplit := takeWhile_dropWhile_split (fun c => c != '/') (c :: cs) '/' b
      hsafeall (by simp)
    rw [hdata, hsplit.1, hsplit.2]
    rw [Bool.and_eq_true]
    constructor
    · rw [Bool.and_eq_true]
      refine ⟨(isSafeHead_iff c).mpr hh, ?_⟩
      rw [List.all_eq_true]
      intro d hd
      exact (isSafeTail_iff d).mpr (htl d hd)
    · show (!b.isEmpty && b.all isSafeTail) = true
      rw [Bool.and_eq_true]
      constructor
      · cases b
        · exact absurd rfl hb
        · simp [List.isEmpty]
      · rw [List.all_eq_true]
        intro d hd
        exact (isSafeTail_iff d).mpr (hball d hd)

/-! ## Claim C2 — filter flattening -/

/-- Claim C2 counterexample: on `{a:{b:1,c:2},d:3}` the flattener yields
the dot-paths `a.b`, `a.c`, `a.d` — the loop-local `prevKey` mutation
(`prevKey += key + '.'`) makes the leaf sibling `d` inherit the prefix of
the nested sibling `a` that preceded it (the source's own doc example and
the repository tests record the same behaviour) — so the claimed path list
`a.b`, `a.c`, `d` is not what the code produces. -/
theorem claim2_counterexample :
    (extractFilters "doc" filterABCD "" 0).1.map leafPathOf =
      [[.str "a", .str "b"], [.str "a", .str "c"], [.str "a", .str "d"]] ∧
    (extractFilters "doc" filterABCD "" 0).1.map leafPathOf ≠
      [[.str "a", .str "b"], [.str "a", .str "c"], [.str "d"]] := by
  exact ⟨rfl, by decide⟩

/-- Claim C2 (amended): flattening `{a:{b:1, c:2}, d:3}` is order-preserving
and depth-first, and yields exactly three leaf conditions whose dot-paths
are `a.b`, `a.c`, `a.d` in that order — the path of a leaf reflects the
keys on its root-to-leaf path plus the accumulated prefixes of earlier
non-leaf siblings at each level. -/
theorem claim2_flattening :
    extractFilters "doc" filterABCD "" 0 =
      ([⟨"doc.@path_1 == @filter_2",
         [("path_1", .arr [.str "a", .str "b"]), ("filter_2", .prim (.num 1))]⟩,
        ⟨"doc.@path_3 == @filter_4",
         [("path_3", .arr [.str "a", .str "c"]), ("filter_4", .prim (.num 2))]⟩,
        ⟨"doc.@path_5 == @filter_6",
         [("path_5", .arr [.str "a", .str "d"]), ("filter_6", .prim (.num 3))]⟩],
       6) := rfl

/-! ## Claim C5 — the identifier guard -/

/-- Claim C5: the guard errors (carrying the offending string) exactly on
strings that do not match `^[A-Za-z][A-Za-z0-9\-_]*$`; its callers
`setDocSelector`, `setRootDocSelector`, `addAdditionalQuery` and the
document selector builder propagate that error, so a rejected string
aborts the build and never reaches any query text — for a document node
with an unsafe collection name, `prepareQuery` produces the error and no
query. -/
theorem claim5_identifierGuard :
    (∀ s, checkSafe s = .error (.unsafePhrase s) ↔ ¬ SafePattern s) ∧
    (∀ s, checkSafe s = .ok () ↔ SafePattern s) ∧
    (∀ (q : QB) (s : String), ¬ SafePattern s →
       q.setDocSelector s = .error (.unsafePhrase s)) ∧
    (∀ (q : QB) (s : String), ¬ SafePattern s →
       q.setRootDocSelector s = .error (.unsafePhrase s)) ∧
    (∀ (q : QB) (s : String) (c : QB), ¬ SafePattern s →
       q.addAdditionalQuery s c = .error (.unsafePhrase s)) ∧
    (∀ coll doc topSel bv t, ¬ SafePattern coll →
       buildSelector (.document coll) doc topSel bv t = .error (.unsafePhrase coll)) ∧
    (∀ coll opts doc isRoot cs topSel t, ¬ SafePattern coll →
       prepareQuery (.node (.document coll) opts doc isRoot cs) topSel t =
         .error (.unsafePhrase coll)) := by
  have herr : ∀ s, ¬ SafePattern s → checkSafe s = .error (.unsafePhrase s) := by
    intro s hns
    unfold checkSafe
    rw [if_neg]
    intro h
    exact hns ((checkSafeB_iff s).mp h)
  have hsel : ∀ coll doc topSel bv t, ¬ SafePattern coll →
      buildSelector (.document coll) doc topSel bv t = .error (.unsafePhrase coll) := by
    intro coll doc topSel bv t hns
    simp only [buildSelector]
    rw [herr coll hns]
    rfl
  refine ⟨?_, ?_, ?_, ?_, ?_, hsel, ?_⟩
  · intro s
    constructor
    · intro h hsp
      unfold checkSafe at h
      rw [if_pos ((checkSafeB_iff s).mpr hsp)] at h
      exact Except.noConfusion h
    · exact herr s
  · intro s
    constructor
    · intro h
      by_cases hb : checkSafeB s = true
      · exact (checkSafeB_iff s).mp hb
      · unfold checkSafe at h
        rw [if_neg hb] at h
        exact Except.noConfusion h
    · intro hsp
      unfold checkSafe
      rw [if_pos ((checkSafeB_iff s).mpr hsp)]
  · intro q s hns
    unfold QB.setDocSelector
    rw [herr s hns]
    rfl
  · intro q s hns
    unfold QB.setRootDocSelector
    rw [herr s hns]
    rfl
  · intro q s c hns
    unfold QB.addAdditionalQuery
    rw [herr s hns]
    rfl
  · intro coll opts doc isRoot cs topSel t hns
    simp only [prepareQuery]
    rw [hsel coll doc topSel [] t hns]
    rfl

/-- Claim C5 witness: `'doc//'` fails the pattern, and the setter of a
concrete builder rejects it with the offending string attached. -/
theorem claim5_witness :
    (ArangoDocumentQueryBuilder.make "m" ⟨false, none, none, none⟩).setDocSelector "doc//" =
      .error (.unsafePhrase "doc//") := by
  apply claim5_identifierGuard.2.2.1
  rintro ⟨c, cs, h, -, hall⟩
  have hd : "doc//".data = ['d', 'o', 'c', '/', '/'] := rfl
  rw [hd] at h
  injection h with h1 h2
  subst h2
  have := hall '/' (by decide)
  revert this
  decide

/-! ## Claims C8 and C9 — child registration and the alias invariant -/

/-- `Except.ok` feeds the continuation. -/
theorem exceptOkBind {α β : Type} (a : α) (f : α → Except QError β) :
    (do let x ← Except.ok a; f x) = f a := rfl

/-- `Map.set` then `Map.get` at the same key. -/
theorem childrenGetSet : ∀ (cs : Children) (k : String) (v : QB),
    (cs.set k v).get k = some v
  | .nil, k, v => by simp [Children.set, Children.get]
  | .cons k' v' rest, k, v => by
    by_cases h : k' == k
    · simp [Children.set, Children.get, h]
    · simp only [Children.set, Children.get, h, Bool.false_eq_true, if_false]
      exact childrenGetSet rest k v
termination_by structural cs _ _ => cs

/-- A present key is among the map's keys. -/
theorem childrenGetMemKeys : ∀ {cs : Children} {n : String} {c : QB},
    cs.get n = some c → n ∈ cs.keys
  | .nil, n, c, h => Option.noConfusion h
  | .cons k' v' rest, n, c, h => by
    rw [Children.get] at h
    by_cases hk : k' == n
    · rw [Children.keys]
      exact (eq_of_beq hk) ▸ List.mem_cons_self _ _
    · rw [if_neg (by simp_all)] at h
      rw [Children.keys]
      exact List.mem_cons_of_mem _ (childrenGetMemKeys h)
termination_by structural cs _ _ _ => cs

/-- Claim C8: for a pattern-valid field name, `addAdditionalQuery` fails
with the duplicate-name error exactly when the name equals the current row
alias; otherwise it succeeds, registers the child under that name, and the
stored child is marked non-root (its `_isRootQuery` flag cleared by
`setParentQuery`), with everything else about the builder unchanged. -/
theorem claim8_addChild :
    (∀ (q : QB) (name : String) (c : QB), SafePattern name → name = q.docOf →
       q.addAdditionalQuery name c = .error .duplicateVarName) ∧
    (∀ (q : QB) (name : String) (c : QB), SafePattern name → name ≠ q.docOf →
       ∃ q', q.addAdditionalQuery name c = .ok q' ∧
         q'.childrenOf.get name = some c.setParentQuery ∧
         c.setParentQuery.isRootOf = false ∧
         q'.docOf = q.docOf ∧ q'.kindOf = q.kindOf ∧
         q'.optsOf = q.optsOf ∧ q'.isRootOf = q.isRootOf) := by
  have hok : ∀ s, SafePattern s → checkSafe s = .ok () := by
    intro s hs
    unfold checkSafe
    rw [if_pos ((checkSafeB_iff s).mpr hs)]
  constructor
  · intro q name c hs heq
    unfold QB.addAdditionalQuery
    rw [hok name hs, exceptOkBind]
    rw [if_pos (by simp [heq])]
  · intro q name c hs hne
    cases q with
    | node k o d r cs =>
      simp only [QB.docOf] at hne
      unfold QB.addAdditionalQuery
      rw [hok name hs, exceptOkBind]
      simp only [QB.docOf]
      rw [if_neg (by simp [hne])]
      refine ⟨_, rfl, ?_, ?_, rfl, rfl, rfl, rfl⟩
      · exact childrenGetSet cs name c.setParentQuery
      · cases c; rfl

/-- Claim C8 witness: registering `related` on a fresh document builder
(alias `doc`) succeeds and stores a non-root child; registering `doc`
fails with the duplicate-name error. -/
theorem claim8_witness :
    ((ArangoDocumentQueryBuilder.make "m" ⟨false, none, none, none⟩).addAdditionalQuery
        "doc" (ArangoDocumentQueryBuilder.make "n" ⟨false, none, none, none⟩) =
      .error .duplicateVarName) ∧
    ∃ q', (ArangoDocumentQueryBuilder.make "m" ⟨false, none, none, none⟩).addAdditionalQuery
        "related" (ArangoDocumentQueryBuilder.make "n" ⟨false, none, none, none⟩) = .ok q' ∧
      q'.childrenOf.get "related" =
        some (ArangoDocumentQueryBuilder.make "n" ⟨false, none, none, none⟩).setParentQuery ∧
      (ArangoDocumentQueryBuilder.make "n" ⟨false, none, none, none⟩).setParentQuery.isRootOf = false ∧
      q'.docOf = (ArangoDocumentQueryBuilder.make "m" ⟨false, none, none, none⟩).docOf ∧
      q'.kindOf = (ArangoDocumentQueryBuilder.make "m" ⟨false, none, none, none⟩).kindOf ∧
      q'.optsOf = (ArangoDocumentQueryBuilder.make "m" ⟨false, none, none, none⟩).optsOf ∧
      q'.isRootOf = (ArangoDocumentQueryBuilder.make "m" ⟨false, none, none, none⟩).isRootOf := by
  constructor
  · exact claim8_addChild.1 _ "doc" _
      ⟨'d', ['o', 'c'], rfl, by decide, by decide⟩ rfl
  · exact claim8_addChild.2 _ "related" _
      ⟨'r', ['e', 'l', 'a', 't', 'e', 'd'], rfl, by decide, by decide⟩ (by decide)

/-- Claim C9: `setDocSelector` validates only the identifier pattern — on
a builder that already has a child registered under `n`, `setDocSelector n`
with a pattern-valid `n` succeeds, leaving the child map unchanged, so the
row alias now collides with a child key and the return clause merges the
row with a child field of the same name. The no-collision invariant is
enforced only at `addAdditionalQuery` time. -/
theorem claim9_aliasCollision :
    ∀ (q : QB) (n : String) (c : QB), SafePattern n → q.childrenOf.get n = some c →
      ∃ q', q.setDocSelector n = .ok q' ∧ q'.docOf = n ∧
        q'.childrenOf = q.childrenOf ∧
        n ∈ q'.childrenOf.keys ∧
        buildReturnClause q'.docOf q'.childrenOf =
          "MERGE(" ++ n ++ ", \x7b " ++ joinSep ", " q'.childrenOf.keys ++ " \x7d)" := by
  intro q n c hs hget
  unfold QB.setDocSelector
  rw [show checkSafe n = .ok () by
    unfold checkSafe; rw [if_pos ((checkSafeB_iff n).mpr hs)]]
  cases q with
  | node k o d r cs =>
    refine ⟨_, rfl, rfl, rfl, ?_, ?_⟩
    · exact childrenGetMemKeys hget
    · show buildReturnClause n cs = _
      cases cs with
      | nil => exact Option.noConfusion hget
      | cons k' v' rest => rfl

/-- Claim C9 witness: after registering child `related` and then calling
`setDocSelector "related"`, the alias equals a child key and the return
clause is `MERGE(related, { related })`. -/
theorem claim9_witness :
    ∃ q', (QB.node (.document "m") ⟨false, none, none, none⟩ "doc" true
        (.cons "related" (ArangoDocumentQueryBuilder.make "n"
          ⟨false, none, none, none⟩) .nil)).setDocSelector "related" = .ok q' ∧
      q'.docOf = "related" ∧
      q'.childrenOf = (QB.node (.document "m") ⟨false, none, none, none⟩ "doc" true
        (.cons "related" (ArangoDocumentQueryBuilder.make "n"
          ⟨false, none, none, none⟩) .nil)).childrenOf ∧
      "related" ∈ q'.childrenOf.keys ∧
      buildReturnClause q'.docOf q'.childrenOf =
        "MERGE(" ++ "related" ++ ", \x7b " ++ joinSep ", " q'.childrenOf.keys ++ " \x7d)" :=
  claim9_aliasCollision _ "related" _
    ⟨'r', ['e', 'l', 'a', 't', 'e', 'd'], rfl, by decide, by decide⟩ rfl

/-! ## Claim C4 — starting-vertex resolution -/

/-- Claim C4: a traversal node resolves its starting vertex in priority
order: (a) an explicit starting-vertex value — rejected with the
invalid-reference error unless it matches the `collection/key` pattern,
otherwise bound as the parameter `starting_vertex_<tick>`; (b) an
explicitly set root-document selector, inlined as `<rootDoc>._id`; (c)
with a parent chain, the alias of the resolved root ancestor, inlined as
`<alias>._id`; (d) a root with none of the above fails with the
missing-starting-vertex error. The two end-to-end conjuncts run
`prepareQuery()` on the spec's two test scenarios. -/
theorem claim4_startingVertex :
    (∀ (sv : String) rd topSel (bv : BindVars) (t : Nat), sv ≠ "" → ¬ VertexPattern sv →
       buildStartingVertexId (some sv) rd topSel bv t = .error .invalidStartingVertexId) ∧
    (∀ (sv : String) rd topSel (bv : BindVars) (t : Nat), VertexPattern sv →
       buildStartingVertexId (some sv) rd topSel bv t =
         .ok ("@" ++ ("starting_vertex_" ++ Nat.repr (t + 1)),
              recSet bv ("starting_vertex_" ++ Nat.repr (t + 1)) (.prim (.str sv)),
              t + 1)) ∧
    (∀ svo (rd : String) topSel (bv : BindVars) (t : Nat),
       (svo = none ∨ svo = some "") → rd ≠ "" →
       buildStartingVertexId svo rd topSel bv t = .ok (rd ++ "._id", bv, t)) ∧
    (∀ svo (r : String) (bv : BindVars) (t : Nat), (svo = none ∨ svo = some "") →
       buildStartingVertexId svo "" (some r) bv t = .ok (r ++ "._id", bv, t)) ∧
    (∀ svo (bv : BindVars) (t : Nat), (svo = none ∨ svo = some "") →
       buildStartingVertexId svo "" none bv t = .error .missingStartingVertex) ∧
    (prepareQueryTop (ArangoEdgeQueryBuilder.make (.one "edge") (some (.one "related"))
        none none none ⟨false, none, none, none⟩) = .error .missingStartingVertex) ∧
    (prepareQueryTop (ArangoEdgeQueryBuilder.make (.one "edge") (some (.one "related"))
        (some "invalid") (some 2) (some .outbound) ⟨false, none, none, none⟩) =
      .error .invalidStartingVertexId) := by
  refine ⟨?_, ?_, ?_, ?_, ?_, rfl, rfl⟩
  · intro sv rd topSel bv t hne hnv
    simp only [buildStartingVertexId]
    rw [if_pos hne]
    rw [if_neg]
    intro h
    exact hnv ((isValidVertexIdB_iff sv).mp h)
  · intro sv rd topSel bv t hv
    have hne : sv ≠ "" := by
      rintro rfl
      obtain ⟨a, b, hd, -, -, -⟩ := hv
      rw [show ("" : String).data = [] from rfl] at hd
      exact absurd hd.symm (by simp)
    simp only [buildStartingVertexId]
    rw [if_pos hne, if_pos ((isValidVertexIdB_iff sv).mpr hv)]
  · intro svo rd topSel bv t hsvo hrd
    rcases hsvo with rfl | rfl
    · simp only [buildStartingVertexId]
      rw [if_neg hrd]
    · simp only [buildStartingVertexId]
      rw [if_neg (fun h => h rfl), if_neg hrd]
  · intro svo r bv t hsvo
    rcases hsvo with rfl | rfl
    · simp only [buildStartingVertexId]
      simp
    · simp only [buildStartingVertexId]
      rw [if_neg (fun h => h rfl)]
      simp
  · intro svo bv t hsvo
    rcases hsvo with rfl | rfl
    · simp only [buildStartingVertexId]
      simp
    · simp only [buildStartingVertexId]
      rw [if_neg (fun h => h rfl)]
      simp

/-- Claim C4 witness: the four resolution outcomes at concrete inputs. -/
theorem claim4_witness :
    buildStartingVertexId (some "invalid") "" none [] 0 = .error .invalidStartingVertexId ∧
    buildStartingVertexId (some "coll/key1") "" none [] 5 =
      .ok ("@" ++ ("starting_vertex_" ++ Nat.repr 6),
           recSet [] ("starting_vertex_" ++ Nat.repr 6) (.prim (.str "coll/key1")), 6) ∧
    buildStartingVertexId none "rootx" none [] 0 = .ok ("rootx" ++ "._id", [], 0) ∧
    buildStartingVertexId (some "") "" (some "doc") [] 0 = .ok ("doc" ++ "._id", [], 0) ∧
    buildStartingVertexId none "" none [] 0 = .error .missingStartingVertex := by
  refine ⟨?_, ?_, ?_, ?_, ?_⟩
  · apply claim4_startingVertex.1 "invalid" "" none [] 0 (by decide)
    rintro ⟨a, b, hd, -, -, -⟩
    have hm : ('/' : Char) ∈ "invalid".data := by
      rw [hd]
      exact List.mem_append_right _ (List.mem_cons_self _ _)
    revert hm
    decide
  · apply claim4_startingVertex.2.1 "coll/key1" "" none [] 5
    exact ⟨['c', 'o', 'l', 'l'], ['k', 'e', 'y', '1'], rfl,
      ⟨'c', ['o', 'l', 'l'], rfl, by decide, by decide⟩, by decide, by decide⟩
  · exact claim4_startingVertex.2.2.1 none "rootx" none [] 0 (Or.inl rfl) (by decide)
  · exact claim4_startingVertex.2.2.2.1 (some "") "doc" [] 0 (Or.inr rfl)
  · exact claim4_startingVertex.2.2.2.2.1 none [] 0 (Or.inl rfl)

/-! ## Claim C3 — the two companion bindings of a counted query -/

/-- `Except.error` short-circuits `bind`. -/
theorem bindErr {α β : Type} (e : QError) (f : α → Except QError β) :
    (Bind.bind (Except.error e) f : Except QError β) = .error e := rfl

/-- `Except.ok` feeds `bind`. -/
theorem bindOk {α β : Type} (a : α) (f : α → Except QError β) :
    (Bind.bind (Except.ok a) f : Except QError β) = f a := rfl

/-- `String.append` is associative. -/
theorem sappend_assoc (a b c : String) : a ++ b ++ c = a ++ (b ++ c) := by
  apply sdata_inj
  simp [sdata_append, List.append_assoc]

/-- Claim C3: whenever a node requests a total count, the produced query
is the two-binding shape — a `total` binding and a `docs` binding — and
the selector-plus-filter text `selfil` occurring in the count binding is
character-for-character the text occurring in the row-set binding; the two
bindings differ only by the sort, limit and inline-children fragments and
the projection. -/
theorem claim3_withCountShape :
    ∀ (q : QB) (topSel : Option String) (t : Nat) (s : String) (bv : BindVars) (t' : Nat),
      q.optsOf.withCount = true →
      prepareQuery q topSel t = .ok (s, bv, t') →
      ∃ w selfil srt lim inl ret,
        s = w ++ ("LET total = FIRST(" ++ (selfil ++
            ("COLLECT WITH COUNT INTO length RETURN length) " ++
            ("LET docs = (" ++ (selfil ++ (srt ++ (lim ++ (inl ++ ("RETURN " ++ (ret ++ (") " ++
            "RETURN \x7b docs, total \x7d"))))))))))) := by
  intro q topSel t s bv t' hwc hp
  cases q with
  | node k opts doc isRoot cs =>
    simp only [QB.optsOf] at hwc
    simp only [prepareQuery] at hp
    rcases hsel : buildSelector k doc topSel [] t with e | selv
    · rw [hsel, bindErr] at hp
      exact absurd hp (by simp)
    · simp only [hsel, bindOk] at hp
      generalize hfil : buildFilter doc opts.filterBy selv.2.1 selv.2.2 = filv at hp
      generalize hsrt : buildSort doc opts.sortBy filv.2.1 filv.2.2 = srtv at hp
      generalize hlim : buildLimit opts.limitBy srtv.2.1 srtv.2.2 = limv at hp
      rcases hw : buildWithClause isRoot (QB.node k opts doc isRoot cs) limv.2.1 limv.2.2
        with e | wv
      · rw [hw, bindErr] at hp
        exact absurd hp (by simp)
      · simp only [hw, bindOk] at hp
        rcases hin : buildAdditionalQueries cs (if isRoot then doc else topSel.getD doc)
            wv.2.1 wv.2.2 with e | inlv
        · rw [hin, bindErr] at hp
          exact absurd hp (by simp)
        · simp only [hin, bindOk] at hp
          rw [if_pos hwc] at hp
          have hq : wv.1 ++ "LET total = FIRST(" ++ selv.1 ++ filv.1 ++
              "COLLECT WITH COUNT INTO length RETURN length) " ++
              "LET docs = (" ++ selv.1 ++ filv.1 ++ srtv.1 ++ limv.1 ++ inlv.1 ++
              "RETURN " ++ buildReturnClause doc cs ++ ") " ++
              "RETURN \x7b docs, total \x7d" = s := by
            have := congrArg (fun r : Except QError (String × BindVars × Nat) =>
              r.toOption.elim "" (fun v => v.1)) hp
            simpa using this
          refine ⟨wv.1, selv.1 ++ filv.1, srtv.1, limv.1, inlv.1,
            buildReturnClause doc cs, ?_⟩
          rw [← hq]
          simp only [sappend_assoc]

/-- Claim C3 witness: the two-binding decomposition at a concrete counted
document query. -/
theorem claim3_witness :
    ∃ w selfil srt lim inl ret,
      ("LET total = FIRST(FOR doc IN @@collection_1 COLLECT WITH COUNT INTO length " ++
       "RETURN length) LET docs = (FOR doc IN @@collection_1 RETURN doc) " ++
       "RETURN \x7b docs, total \x7d") = w ++ ("LET total = FIRST(" ++ (selfil ++
        ("COLLECT WITH COUNT INTO length RETURN length) " ++
        ("LET docs = (" ++ (selfil ++ (srt ++ (lim ++ (inl ++ ("RETURN " ++ (ret ++ (") " ++
        "RETURN \x7b docs, total \x7d"))))))))))) :=
  claim3_withCountShape (ArangoDocumentQueryBuilder.make "m" ⟨true, none, none, none⟩)
    none 0
    ("LET total = FIRST(FOR doc IN @@collection_1 COLLECT WITH COUNT INTO length " ++
     "RETURN length) LET docs = (FOR doc IN @@collection_1 RETURN doc) " ++
     "RETURN \x7b docs, total \x7d")
    [("@collection_1", .prim (.str "m"))] 1 rfl rfl

/-! ## Claim C7 — child assembly -/

theorem recGet_cons (x : String × BindVal) (l : BindVars) (k : String) :
    recGet (x :: l) k = if x.1 == k then some x.2 else recGet l k := by
  by_cases h : x.1 == k
  · simp [recGet, List.find?, h]
  · simp [recGet, List.find?, h]

theorem recGet_append_of_some {l1 : BindVars} {k : String} {v : BindVal}
    (l2 : BindVars) (h : recGet l1 k = some v) :
    recGet (l1 ++ l2) k = some v := by
  induction l1 with
  | nil => exact Option.noConfusion h
  | cons x xs ih =>
    rw [List.cons_append, recGet_cons]
    rw [recGet_cons] at h
    by_cases hx : x.1 == k
    · rw [if_pos hx] at h ⊢
      exact h
    · rw [if_neg hx] at h ⊢
      exact ih h

theorem recGet_append_of_none {l1 : BindVars} {k : String}
    (l2 : BindVars) (h : recGet l1 k = none) :
    recGet (l1 ++ l2) k = recGet l2 k := by
  induction l1 with
  | nil => rfl
  | cons x xs ih =>
    rw [List.cons_append, recGet_cons]
    rw [recGet_cons] at h
    by_cases hx : x.1 == k
    · rw [if_pos hx] at h
      exact Option.noConfusion h
    · rw [if_neg hx] at h ⊢
      exact ih h

/-- Lookup in the mapped left half of a spread: a key the left object
has gets the right object's value when the right object has the key. -/
theorem recGet_map_spread (b : BindVars) (k : String) (v : BindVal)
    (hb : recGet b k = some v) :
    ∀ a : BindVars, (∃ p ∈ a, p.1 = k) →
      recGet (a.map (fun p =>
        match b.find? (fun q => q.1 == p.1) with
        | some q => (p.1, q.2)
        | none => p)) k = some v := by
  intro a
  induction a with
  | nil => rintro ⟨p, hp, -⟩; exact absurd hp (List.not_mem_nil p)
  | cons x xs ih =>
    rintro ⟨p, hp, hpk⟩
    rw [List.map_cons, recGet_cons]
    by_cases hxk : x.1 == k
    · have hx1 : x.1 = k := eq_of_beq hxk
      have hfst : (match b.find? (fun (q : String × BindVal) => q.1 == x.1) with
          | some q => (x.1, q.2)
          | none => x).1 = x.1 := by
        cases b.find? (fun (q : String × BindVal) => q.1 == x.1) <;> rfl
      rw [if_pos (by rw [hfst]; exact hxk)]
      obtain ⟨q, hq, hqv⟩ : ∃ q, b.find? (fun r => r.1 == k) = some q ∧ q.2 = v := by
        unfold recGet at hb
        cases hbf : b.find? (fun r => r.1 == k)
        · rw [hbf] at hb
          exact Option.noConfusion hb
        · rw [hbf] at hb
          exact ⟨_, rfl, by injection hb⟩
      rw [hx1, hq]
      exact congrArg some hqv
    · have hfst : (match b.find? (fun (q : String × BindVal) => q.1 == x.1) with
          | some q => (x.1, q.2)
          | none => x).1 = x.1 := by
        cases b.find? (fun (q : String × BindVal) => q.1 == x.1) <;> rfl
      rw [if_neg (by rw [hfst]; exact hxk)]
      apply ih
      rcases List.mem_cons.mp hp with rfl | hp'
      · exact absurd (beq_iff_eq.mpr hpk) hxk
      · exact ⟨p, hp', hpk⟩

/-- Lookup misses the mapped left half when the left object lacks the
key. -/
theorem recGet_map_none (b : BindVars) (k : String) :
    ∀ a : BindVars, (∀ p ∈ a, p.1 ≠ k) →
      recGet (a.map (fun p =>
        match b.find? (fun q => q.1 == p.1) with
        | some q => (p.1, q.2)
        | none => p)) k = none := by
  intro a
  induction a with
  | nil => intro _; rfl
  | cons x xs ih =>
    intro hall
    rw [List.map_cons, recGet_cons]
    have hfst : (match b.find? (fun (q : String × BindVal) => q.1 == x.1) with
        | some q => (x.1, q.2)
        | none => x).1 = x.1 := by
      cases b.find? (fun (q : String × BindVal) => q.1 == x.1) <;> rfl
    rw [if_neg (by
      rw [hfst]
      simpa using hall x (List.mem_cons_self _ _))]
    exact ih (fun p hp => hall p (List.mem_cons_of_mem _ hp))

/-- Filtering with a predicate that keeps every entry of the looked-up key
does not change the lookup. -/
theorem recGet_filter_pass (k : String) (v : BindVal) (g : String × BindVal → Bool) :
    ∀ b : BindVars, (∀ q ∈ b, q.1 = k → g q = true) →
      recGet b k = some v → recGet (b.filter g) k = some v := by
  intro b
  induction b with
  | nil => intro _ h; exact Option.noConfusion h
  | cons x xs ih =>
    intro hkeep h
    rw [recGet_cons] at h
    rw [List.filter_cons]
    by_cases hxk : x.1 == k
    · rw [if_pos hxk] at h
      rw [hkeep x (List.mem_cons_self _ _) (eq_of_beq hxk)]
      rw [if_pos rfl, recGet_cons, if_pos hxk]
      exact h
    · rw [if_neg hxk] at h
      have htail := ih (fun q hq => hkeep q (List.mem_cons_of_mem _ hq)) h
      cases hg : g x
      · rw [if_neg (fun hcontra => Bool.noConfusion hcontra)]
        exact htail
      · rw [if_pos rfl, recGet_cons, if_neg hxk]
        exact htail

/-- Claim C7 key-precedence core: spreading a child's bind variables
under the node's own (`{...child, ...own}`) never changes the value of a
key the node already has. -/
theorem jsSpread_preserves (a b : BindVars) (k : String) (v : BindVal)
    (h : recGet b k = some v) : recGet (jsSpread a b) k = some v := by
  unfold jsSpread
  by_cases hka : ∃ p ∈ a, p.1 = k
  · exact recGet_append_of_some _ (recGet_map_spread b k v h a hka)
  · push_neg at hka
    rw [recGet_append_of_none _ (recGet_map_none b k a hka)]
    apply recGet_filter_pass k v _ b ?_ h
    intro q hq hqk
    have : List.any a (fun p => p.1 == q.1) = false := by
      rw [List.any_eq_false]
      intro p hp
      rw [hqk]
      cases hbe : (p.1 == k)
      · exact fun hcontra => Bool.noConfusion hcontra
      · intro _
        exact absurd (eq_of_beq hbe) (hka p hp)
    rw [this]
    rfl

/-- Claim C7: `buildAdditionalQueries` on a nonempty child map prepares
the first child recursively, wraps its text as the inline binding
`LET name = F(childText) `, where `F` is `FIRST` exactly when the child
requested a total count or an exact limit of `1`, spreads the child's bind
variables under the node's own so that the node's existing keys keep
their values, and continues with the remaining children. -/
theorem claim7_childAssembly :
    ∀ (name : String) (c : QB) (rest : Children) (rootSel : String)
      (bv : BindVars) (t : Nat) (s : String) (bv' : BindVars) (t' : Nat),
      buildAdditionalQueries (.cons name c rest) rootSel bv t = .ok (s, bv', t') →
      ∃ cq cbv t1 rs,
        prepareQuery c (some rootSel) t = .ok (cq, cbv, t1) ∧
        buildAdditionalQueries rest rootSel (jsSpread cbv bv) t1 = .ok (rs, bv', t') ∧
        s = "LET " ++ name ++ " = " ++
          (if c.optsOf.withCount ||
              (match c.optsOf.limitBy with
               | some lb => lb.limit == 1
               | none => false) then "FIRST" else "") ++
          "(" ++ cq ++ ") " ++ rs ∧
        ((c.optsOf.withCount ||
            (match c.optsOf.limitBy with
             | some lb => lb.limit == 1
             | none => false)) = true ↔
          (c.optsOf.withCount = true ∨
            ∃ lb, c.optsOf.limitBy = some lb ∧ lb.limit = 1)) ∧
        (∀ k v, recGet bv k = some v → recGet (jsSpread cbv bv) k = some v) := by
  intro name c rest rootSel bv t s bv' t' hp
  simp only [buildAdditionalQueries] at hp
  rcases hc : prepareQuery c (some rootSel) t with e | ⟨cq, cbv, t1⟩
  · rw [hc, bindErr] at hp
    exact absurd hp (by simp)
  · simp only [hc, bindOk] at hp
    rcases hr : buildAdditionalQueries rest rootSel (jsSpread cbv bv) t1
      with e | ⟨rs, rbv, rt⟩
    · rw [hr, bindErr] at hp
      exact absurd hp (by simp)
    · simp only [hr, bindOk, pure, Except.pure, Except.ok.injEq, Prod.mk.injEq] at hp
      obtain ⟨h1, rfl, rfl⟩ := hp
      refine ⟨cq, cbv, t1, rs, rfl, hr, h1.symm, ?_, ?_⟩
      · rw [Bool.or_eq_true]
        constructor
        · rintro (h | h)
          · exact Or.inl h
          · right
            cases hlb : c.optsOf.limitBy with
            | none => rw [hlb] at h; exact Bool.noConfusion h
            | some lb =>
              rw [hlb] at h
              exact ⟨lb, rfl, eq_of_beq h⟩
        · rintro (h | ⟨lb, hlb, hl⟩)
          · exact Or.inl h
          · right
            rw [hlb]
            exact beq_iff_eq.mpr hl
      · intro k v hv
        exact jsSpread_preserves cbv bv k v hv

/-- Claim C7 witness: a child with `limitBy.limit === 1` is wrapped in
`FIRST` and its bind variables are merged under the parent's. -/
theorem claim7_witness :
    ∃ cq cbv t1 rs,
      prepareQuery (ArangoDocumentQueryBuilder.make "data_sources"
          ⟨false, none, none, some ⟨0, 1⟩⟩) (some "doc") 0 = .ok (cq, cbv, t1) ∧
      buildAdditionalQueries .nil "doc" (jsSpread cbv []) t1 =
        .ok (rs, [("@collection_1", .prim (.str "data_sources")),
                  ("limitByOffset_2", .prim (.num 0)),
                  ("limitByLimit_3", .prim (.num 1))], 3) ∧
      ("LET one_data_source = FIRST(FOR doc IN @@collection_1 LIMIT @limitByOffset_2, " ++
       "@limitByLimit_3 RETURN doc) ") = "LET " ++ "one_data_source" ++ " = " ++
        (if (ArangoDocumentQueryBuilder.make "data_sources"
            ⟨false, none, none, some ⟨0, 1⟩⟩).optsOf.withCount ||
            (match (ArangoDocumentQueryBuilder.make "data_sources"
              ⟨false, none, none, some ⟨0, 1⟩⟩).optsOf.limitBy with
             | some lb => lb.limit == 1
             | none => false) then "FIRST" else "") ++
        "(" ++ cq ++ ") " ++ rs ∧
      (((ArangoDocumentQueryBuilder.make "data_sources"
          ⟨false, none, none, some ⟨0, 1⟩⟩).optsOf.withCount ||
          (match (ArangoDocumentQueryBuilder.make "data_sources"
            ⟨false, none, none, some ⟨0, 1⟩⟩).optsOf.limitBy with
           | some lb => lb.limit == 1
           | none => false)) = true ↔
        ((ArangoDocumentQueryBuilder.make "data_sources"
          ⟨false, none, none, some ⟨0, 1⟩⟩).optsOf.withCount = true ∨
          ∃ lb, (ArangoDocumentQueryBuilder.make "data_sources"
            ⟨false, none, none, some ⟨0, 1⟩⟩).optsOf.limitBy = some lb ∧ lb.limit = 1)) ∧
      (∀ k v, recGet [] k = some v → recGet (jsSpread cbv []) k = some v) :=
  claim7_childAssembly "one_data_source"
    (ArangoDocumentQueryBuilder.make "data_sources" ⟨false, none, none, some ⟨0, 1⟩⟩)
    .nil "doc" [] 0
    ("LET one_data_source = FIRST(FOR doc IN @@collection_1 LIMIT @limitByOffset_2, " ++
     "@limitByLimit_3 RETURN doc) ")
    [("@collection_1", .prim (.str "data_sources")),
     ("limitByOffset_2", .prim (.num 0)),
     ("limitByLimit_3", .prim (.num 1))] 3 rfl

/-! ## Claim C6 — the declaration (WITH) clause -/

/-- A fixed prefix followed by a decimal suffix determines the suffix. -/
theorem keyRepr_inj (pre : String) {a b : Nat}
    (h : pre ++ Nat.repr a = pre ++ Nat.repr b) : a = b := by
  apply natRepr_inj
  apply sdata_inj
  have := congrArg String.data h
  rw [sdata_append, sdata_append] at this
  exact List.append_cancel_left this

/-- JavaScript assignment of a fresh key appends. -/
theorem recSet_append (bv : BindVars) (k : String) (v : BindVal)
    (h : ∀ p ∈ bv, p.1 ≠ k) : recSet bv k v = bv ++ [(k, v)] := by
  unfold recSet
  rw [if_neg]
  intro hcontra
  obtain ⟨p, hp, hpk⟩ := List.any_eq_true.mp hcontra
  exact h p hp (eq_of_beq hpk)

/-- The `handleCommaSeparated` loop: one placeholder and one appended
binding per value, consecutive fresh ticks. -/
theorem commaLoop_spec (base : String) :
    ∀ (vs : List String) (bv : BindVars) (t : Nat),
      (∀ p ∈ bv, ∀ j : Nat, t < j → p.1 ≠ "@" ++ base ++ "_" ++ Nat.repr j) →
      commaLoop vs base bv t =
        (commaStmtSpec base vs t, bv ++ commaDeltaSpec base vs t, t + vs.length) := by
  intro vs
  induction vs with
  | nil =>
    intro bv t hfresh
    simp [commaLoop, commaStmtSpec, commaDeltaSpec]
  | cons v rest ih =>
    intro bv t hfresh
    have hset : recSet bv ("@" ++ (base ++ "_" ++ Nat.repr (t + 1))) (.prim (.str v)) =
        bv ++ [("@" ++ base ++ "_" ++ Nat.repr (t + 1), .prim (.str v))] := by
      rw [show "@" ++ (base ++ "_" ++ Nat.repr (t + 1)) =
          "@" ++ base ++ "_" ++ Nat.repr (t + 1) by simp [sappend_assoc]]
      exact recSet_append bv _ _ (fun p hp => hfresh p hp (t + 1) (by omega))
    cases rest with
    | nil =>
      simp only [commaLoop]
      rw [hset]
      simp only [commaStmtSpec, commaDeltaSpec, Prod.mk.injEq]
      exact ⟨by simp [sappend_assoc], by simp, rfl⟩
    | cons v' rest' =>
      have hfresh' : ∀ p ∈ bv ++ [("@" ++ base ++ "_" ++ Nat.repr (t + 1), BindVal.prim (.str v))],
          ∀ j : Nat, t + 1 < j → p.1 ≠ "@" ++ base ++ "_" ++ Nat.repr j := by
        intro p hp j hj
        rcases List.mem_append.mp hp with hp | hp
        · exact hfresh p hp j (by omega)
        · rw [List.mem_singleton] at hp
          subst hp
          intro hcontra
          have := keyRepr_inj ("@" ++ base ++ "_")
            (by simpa [sappend_assoc] using hcontra)
          omega
      simp only [commaLoop]
      rw [hset, ih _ (t + 1) hfresh']
      simp only [commaStmtSpec, commaDeltaSpec, Prod.mk.injEq]
      refine ⟨by simp [sappend_assoc], ?_, ?_⟩
      · rw [List.append_assoc]
        rfl
      · simp only [List.length_cons]
        omega

/-- The bindings the comma loop appends carry exactly the input values in
order — duplicates included, nothing deduplicated. -/
theorem commaDeltaSpec_values (base : String) :
    ∀ (vs : List String) (t : Nat),
      (commaDeltaSpec base vs t).map (fun p => p.2) =
        vs.map (fun v => BindVal.prim (.str v)) := by
  intro vs
  induction vs with
  | nil => intro t; rfl
  | cons v rest ih =>
    intro t
    show BindVal.prim (.str v) :: (commaDeltaSpec base rest (t + 1)).map (fun p => p.2) = _
    rw [ih (t + 1)]
    rfl

/-- Claim C6: the declaration clause is emitted only on the root — a
non-root `buildWithClause` is a no-op; on the root it is built from the
related-collection names gathered recursively, depth-first (node before
its children, children in order); it is omitted entirely when the
collected list is empty; and when nonempty it binds one `@target_<tick>`
per occurrence, whose values are the gathered list verbatim — no
deduplication. -/
theorem claim6_withClause :
    (∀ (q : QB) (bv : BindVars) (t : Nat), buildWithClause false q bv t = .ok ("", bv, t)) ∧
    (∀ (q : QB) (bv : BindVars) (t : Nat), gatherRelatedCollectionsRecursively q = [] →
       buildWithClause true q bv t = .ok ("", bv, t)) ∧
    (∀ (q : QB) (bv : BindVars) (t : Nat),
       (∀ p ∈ bv, ∀ j : Nat, t < j → p.1 ≠ "@" ++ "target" ++ "_" ++ Nat.repr j) →
       gatherRelatedCollectionsRecursively q ≠ [] →
       buildWithClause true q bv t = .ok
         ("WITH " ++ commaStmtSpec "target" (gatherRelatedCollectionsRecursively q) t ++ " ",
          bv ++ commaDeltaSpec "target" (gatherRelatedCollectionsRecursively q) t,
          t + (gatherRelatedCollectionsRecursively q).length)) ∧
    (∀ (vs : List String) (t : Nat),
       (commaDeltaSpec "target" vs t).map (fun p => p.2) =
         vs.map (fun v => BindVal.prim (.str v))) ∧
    (∀ (k : QKind) (opts : CommonOpts) (doc : String) (isRoot : Bool)
       (name : String) (c : QB) (rest : Children),
       gatherRelatedCollectionsRecursively (QB.node k opts doc isRoot (.cons name c rest)) =
         gatherRelatedCollectionsRecursively (QB.node k opts doc isRoot .nil) ++
           (gatherRelatedCollectionsRecursively c ++ gatherChildren rest)) := by
  refine ⟨fun q bv t => rfl, ?_, ?_, commaDeltaSpec_values "target", ?_⟩
  · intro q bv t hg
    simp only [buildWithClause, hg]
    rfl
  · intro q bv t hfresh hg
    simp only [buildWithClause]
    rw [if_pos trivial]
    have hlen : (gatherRelatedCollectionsRecursively q).length > 0 := by
      cases hgq : gatherRelatedCollectionsRecursively q
      · exact absurd hgq hg
      · simp
    rw [if_pos hlen]
    have hhc : handleCommaSeparated (gatherRelatedCollectionsRecursively q) "target" bv t =
        .ok (commaStmtSpec "target" (gatherRelatedCollectionsRecursively q) t,
             bv ++ commaDeltaSpec "target" (gatherRelatedCollectionsRecursively q) t,
             t + (gatherRelatedCollectionsRecursively q).length) := by
      unfold handleCommaSeparated
      rw [show checkSafe "target" = .ok () from rfl, exceptOkBind]
      rw [if_neg (by
        intro hcontra
        exact hg (List.isEmpty_iff.mp hcontra))]
      rw [commaLoop_spec "target" _ bv t (by
        intro p hp j hj
        have := hfresh p hp j hj
        simpa [sappend_assoc] using this)]
      rfl
    rw [hhc, bindOk]
    rfl
  · intro k opts doc isRoot name c rest
    show (match k with
      | QKind.edge _ (some (.one s)) _ _ _ _ => if s == "" then [] else [s]
      | QKind.edge _ (some (.many l)) _ _ _ _ => l
      | _ => []) ++ gatherChildren (.cons name c rest) = _
    show _ = (match k with
      | QKind.edge _ (some (.one s)) _ _ _ _ => if s == "" then [] else [s]
      | QKind.edge _ (some (.many l)) _ _ _ _ => l
      | _ => []) ++ gatherChildren .nil ++
        (gatherRelatedCollectionsRecursively c ++ gatherChildren rest)
    rw [show gatherChildren (.cons name c rest) =
        gatherRelatedCollectionsRecursively c ++ gatherChildren rest from rfl]
    rw [show gatherChildren .nil = ([] : List String) from rfl]
    rw [List.append_nil]

/-- Claim C6 witness: a non-root and an empty-gather root emit nothing;
a root with two related collections emits `WITH` with one binding per
occurrence. -/
theorem claim6_witness :
    buildWithClause false (ArangoDocumentQueryBuilder.make "m" ⟨false, none, none, none⟩)
      [] 0 = .ok ("", [], 0) ∧
    buildWithClause true (ArangoDocumentQueryBuilder.make "m" ⟨false, none, none, none⟩)
      [] 0 = .ok ("", [], 0) ∧
    buildWithClause true builderOnlyEdge [] 0 = .ok
      ("WITH " ++ commaStmtSpec "target"
        (gatherRelatedCollectionsRecursively builderOnlyEdge) 0 ++ " ",
       [] ++ commaDeltaSpec "target" (gatherRelatedCollectionsRecursively builderOnlyEdge) 0,
       0 + (gatherRelatedCollectionsRecursively builderOnlyEdge).length) :=
  ⟨claim6_withClause.1 _ [] 0,
   claim6_withClause.2.1 _ [] 0 rfl,
   claim6_withClause.2.2.1 builderOnlyEdge [] 0
     (fun p hp => absurd hp (List.not_mem_nil p)) (by decide)⟩

/-! ## Claim C10 — termination of the parent-chain walk -/

/-- A chain that has already reached a parentless node is spent. -/
theorem ancestor_at_root {env : ParentEnv} {k r r' : Nat}
    (h : ancestor env k r = some r') (hr : env.parent r = none) :
    k = 0 ∧ r' = r := by
  cases k with
  | zero => exact ⟨rfl, (Option.some.injEq _ _).mp h.symm⟩
  | succ k =>
    rw [ancestor, hr] at h
    exact Option.noConfusion h

/-- The walk loop reaches the chain's parentless end given enough fuel. -/
theorem topmostLoop_reaches :
    ∀ (k : Nat) (env : ParentEnv) (p r : Nat),
      (∀ m, env.isRootQ m = true → env.parent m = none) →
      ancestor env k p = some r → env.parent r = none →
      ∀ fuel, k < fuel → topmostLoop env fuel p = some r := by
  intro k
  induction k with
  | zero =>
    intro env p r hc h hr fuel hf
    obtain rfl : p = r := (Option.some.injEq _ _).mp h
    cases fuel with
    | zero => omega
    | succ f =>
      rw [topmostLoop, hr]
  | succ k ih =>
    intro env p r hc h hr fuel hf
    rw [ancestor] at h
    cases hp : env.parent p with
    | none => rw [hp] at h; exact Option.noConfusion h
    | some lp =>
      rw [hp] at h
      simp only [Option.some_bind] at h
      cases fuel with
      | zero => omega
      | succ f =>
        rw [topmostLoop, hp]
        show (if env.isRootQ lp = true then some lp else topmostLoop env f lp) = some r
        by_cases hroot : env.isRootQ lp = true
        · rw [if_pos hroot]
          obtain ⟨-, rfl⟩ := ancestor_at_root h (hc lp hroot)
          rfl
        · rw [if_neg hroot]
          exact ih env lp r hc h hr f (by omega)

/-- The loop spins forever on the two-node cycle. -/
theorem topmostLoop_cycle :
    ∀ (fuel n : Nat), n = 0 ∨ n = 1 → topmostLoop cycEnv fuel n = none := by
  intro fuel
  induction fuel with
  | zero => intro n _; rfl
  | succ f ih =>
    intro n hn
    rcases hn with rfl | rfl
    · rw [topmostLoop, show cycEnv.parent 0 = some 1 from rfl]
      show (if cycEnv.isRootQ 1 = true then some 1 else topmostLoop cycEnv f 1) = none
      rw [if_neg (by decide)]
      exact ih 1 (Or.inr rfl)
    · rw [topmostLoop, show cycEnv.parent 1 = some 0 from rfl]
      show (if cycEnv.isRootQ 0 = true then some 0 else topmostLoop cycEnv f 0) = none
      rw [if_neg (by decide)]
      exact ih 0 (Or.inl rfl)

/-- Claim C10: for every builder whose parent chain is finite and acyclic
(it reaches a parentless node in `k` steps — the shape `addAdditionalQuery`
maintains, where a root flag also implies no parent), the walk
`getTopmostParentQuery` terminates (any fuel of at least `k` suffices) and
returns the parentless chain end, and `getNextGlobalTick` therefore
terminates, returning that root's incremented counter. The code has no
cycle guard: on a two-node parent cycle the walk exhausts any amount of
fuel, so the acyclicity precondition is necessary. -/
theorem claim10_parentChain :
    (∀ (env : ParentEnv) (n r k : Nat),
       (∀ m, env.isRootQ m = true → env.parent m = none) →
       ancestor env k n = some r → env.parent r = none →
       ∀ fuel, k ≤ fuel →
         getTopmostParentQuery env fuel n = some r ∧
         ∀ ticks : Nat → Nat,
           getNextGlobalTick env ticks fuel n = some (ticks r + 1)) ∧
    (∀ fuel, getTopmostParentQuery cycEnv fuel 0 = none) ∧
    (∀ (fuel : Nat) (ticks : Nat → Nat), getNextGlobalTick cycEnv ticks fuel 0 = none) := by
  have hmain : ∀ (env : ParentEnv) (n r k : Nat),
      (∀ m, env.isRootQ m = true → env.parent m = none) →
      ancestor env k n = some r → env.parent r = none →
      ∀ fuel, k ≤ fuel → getTopmostParentQuery env fuel n = some r := by
    intro env n r k hc h hr fuel hf
    unfold getTopmostParentQuery
    cases k with
    | zero =>
      obtain rfl : n = r := (Option.some.injEq _ _).mp h
      rw [hr]
    | succ k =>
      rw [ancestor] at h
      cases hp : env.parent n with
      | none => rw [hp] at h; exact Option.noConfusion h
      | some p1 =>
        rw [hp] at h
        simp only [Option.some_bind] at h
        show (if env.isRootQ p1 = true then some p1 else topmostLoop env fuel p1) = some r
        by_cases hroot : env.isRootQ p1 = true
        · rw [if_pos hroot]
          obtain ⟨-, rfl⟩ := ancestor_at_root h (hc p1 hroot)
          rfl
        · rw [if_neg hroot]
          exact topmostLoop_reaches k env p1 r hc h hr fuel (by omega)
  have hcyc : ∀ fuel, getTopmostParentQuery cycEnv fuel 0 = none := by
    intro fuel
    unfold getTopmostParentQuery
    rw [show cycEnv.parent 0 = some 1 from rfl]
    show (if cycEnv.isRootQ 1 = true then some 1 else topmostLoop cycEnv fuel 1) = none
    rw [if_neg (by decide)]
    exact topmostLoop_cycle fuel 1 (Or.inr rfl)
  refine ⟨?_, hcyc, ?_⟩
  · intro env n r k hc h hr fuel hf
    refine ⟨hmain env n r k hc h hr fuel hf, ?_⟩
    intro ticks
    unfold getNextGlobalTick
    rw [hmain env n r k hc h hr fuel hf]
    rfl
  · intro fuel ticks
    unfold getNextGlobalTick
    rw [hcyc fuel]
    rfl

/-- Claim C10 witness: on the three-node chain `2 → 1 → 0` the walk
resolves node `2` to the flagged, parentless root `0` with fuel `5 ≥ 2`,
and the global tick is that root's counter plus one. -/
theorem claim10_witness :
    getTopmostParentQuery chainEnv 5 2 = some 0 ∧
    getNextGlobalTick chainEnv (fun _ => 7) 5 2 = some 8 := by
  have hc : ∀ m, chainEnv.isRootQ m = true → chainEnv.parent m = none := by
    intro m hm
    have : m = 0 := by simpa [chainEnv] using hm
    subst this
    rfl
  have h := claim10_parentChain.1 chainEnv 2 0 2 hc rfl rfl 5 (by omega)
  exact ⟨h.1, h.2 (fun _ => 7)⟩

/-! ## Claim C1 — scanner infrastructure

Facts about the placeholder scanner: delimiters split token streams, a
delimiter-free run is one token, and a token's characters come from the
input. -/

theorem scanStep_shift (cur : List Char) (out : List (List Char)) (c : Char) :
    scanStep ⟨cur, out⟩ c = ⟨(scanStep ⟨cur, []⟩ c).cur,
      out ++ (scanStep ⟨cur, []⟩ c).out⟩ := by
  unfold scanStep
  by_cases hc : isDelim c
  · rw [if_pos hc, if_pos hc]
    cases cur <;> simp
  · rw [if_neg hc, if_neg hc]
    simp

theorem foldl_scan_shift :
    ∀ (l : List Char) (cur : List Char) (out : List (List Char)),
      List.foldl scanStep ⟨cur, out⟩ l =
        ⟨(List.foldl scanStep ⟨cur, []⟩ l).cur,
         out ++ (List.foldl scanStep ⟨cur, []⟩ l).out⟩ := by
  intro l
  induction l with
  | nil => intro cur out; simp [List.foldl]
  | cons c cs ih =>
    intro cur out
    rw [List.foldl_cons, List.foldl_cons]
    cases hs : scanStep ⟨cur, []⟩ c with
    | mk c1 o1 =>
      rw [scanStep_shift cur out c, hs]
      show List.foldl scanStep ⟨c1, out ++ o1⟩ cs =
        ⟨(List.foldl scanStep ⟨c1, o1⟩ cs).cur,
         out ++ (List.foldl scanStep ⟨c1, o1⟩ cs).out⟩
      rw [ih c1 (out ++ o1), ih c1 o1]
      simp [List.append_assoc]

theorem scanStep_delim {c : Char} (st : ScanSt) (hc : isDelim c = true) :
    scanStep st c = ⟨[], scanFinish st⟩ := by
  cases st with
  | mk cur out =>
    unfold scanStep scanFinish
    rw [if_pos hc]
    cases cur <;> rfl

theorem scanFinish_shift (cur : List Char) (o1 o2 : List (List Char)) :
    scanFinish ⟨cur, o1 ++ o2⟩ = o1 ++ scanFinish ⟨cur, o2⟩ := by
  unfold scanFinish
  cases cur <;> simp

/-- Splitting the scan at a delimiter. -/
theorem tokensOf_append_delim {c : Char} (hc : isDelim c = true)
    (a b : List Char) : tokensOf (a ++ c :: b) = tokensOf a ++ tokensOf b := by
  unfold tokensOf
  rw [List.foldl_append, List.foldl_cons]
  rw [scanStep_delim (List.foldl scanStep ⟨[], []⟩ a) hc]
  rw [foldl_scan_shift b [] (scanFinish (List.foldl scanStep ⟨[], []⟩ a))]
  rw [scanFinish_shift]

/-- Splitting the references at a delimiter. -/
theorem refsL_append_delim {c : Char} (hc : isDelim c = true)
    (a b : List Char) : refsL (a ++ c :: b) = refsL a ++ refsL b := by
  unfold refsL
  rw [tokensOf_append_delim hc, List.filterMap_append]

theorem foldl_scan_token :
    ∀ (l : List Char), (∀ x ∈ l, isDelim x = false) →
      ∀ (cur : List Char) (out : List (List Char)),
        List.foldl scanStep ⟨cur, out⟩ l = ⟨cur ++ l, out⟩ := by
  intro l
  induction l with
  | nil => intro _ cur out; simp [List.foldl]
  | cons c cs ih =>
    intro h cur out
    rw [List.foldl_cons]
    have hc : isDelim c = false := h c (List.mem_cons_self _ _)
    show List.foldl scanStep (scanStep ⟨cur, out⟩ c) cs = _
    rw [show scanStep ⟨cur, out⟩ c = ⟨cur ++ [c], out⟩ by
      unfold scanStep
      rw [if_neg (by simp [hc])]]
    rw [ih (fun x hx => h x (List.mem_cons_of_mem _ hx)) (cur ++ [c]) out]
    simp

/-- A delimiter-free run is a single token. -/
theorem tokensOf_token {l : List Char} (hne : l ≠ [])
    (h : ∀ x ∈ l, isDelim x = false) : tokensOf l = [l] := by
  unfold tokensOf
  rw [foldl_scan_token l h [] []]
  unfold scanFinish
  cases l with
  | nil => exact absurd rfl hne
  | cons c cs => simp

/-- References of a delimiter-free run. -/
theorem refsL_token {l : List Char} (hne : l ≠ [])
    (h : ∀ x ∈ l, isDelim x = false) : refsL l = (tokenRef l).toList := by
  unfold refsL
  rw [tokensOf_token hne h]
  cases htr : tokenRef l <;> simp [List.filterMap, htr]

/-- Characters of the scan state come from the initial state or the
input. -/
theorem foldl_scan_chars :
    ∀ (l cur : List Char) (out : List (List Char)),
      (∀ tok ∈ (List.foldl scanStep ⟨cur, out⟩ l).out, ∀ c ∈ tok,
        (∃ t ∈ out, c ∈ t) ∨ c ∈ cur ∨ c ∈ l) ∧
      (∀ c ∈ (List.foldl scanStep ⟨cur, out⟩ l).cur, c ∈ cur ∨ c ∈ l) := by
  intro l
  induction l with
  | nil =>
    intro cur out
    constructor
    · intro tok htok c hc
      exact Or.inl ⟨tok, htok, hc⟩
    · intro c hc
      exact Or.inl hc
  | cons c cs ih =>
    intro cur out
    rw [List.foldl_cons]
    by_cases hc : isDelim c
    · cases cur with
      | nil =>
        rw [show scanStep ⟨[], out⟩ c = ⟨[], out⟩ by unfold scanStep; rw [if_pos hc]]
        obtain ⟨i1, i2⟩ := ih [] out
        refine ⟨?_, ?_⟩
        · intro tok htok x hx
          rcases (i1 tok htok x hx) with h | h | h
          · exact Or.inl h
          · exact absurd h (List.not_mem_nil x)
          · exact Or.inr (Or.inr (List.mem_cons_of_mem _ h))
        · intro x hx
          rcases i2 x hx with h | h
          · exact absurd h (List.not_mem_nil x)
          · exact Or.inr (List.mem_cons_of_mem _ h)
      | cons d ds =>
        rw [show scanStep ⟨d :: ds, out⟩ c = ⟨[], out ++ [d :: ds]⟩ by
          unfold scanStep; rw [if_pos hc]]
        obtain ⟨i1, i2⟩ := ih [] (out ++ [d :: ds])
        refine ⟨?_, ?_⟩
        · intro tok htok x hx
          rcases (i1 tok htok x hx) with ⟨t, ht, hxt⟩ | h | h
          · rcases List.mem_append.mp ht with ht | ht
            · exact Or.inl ⟨t, ht, hxt⟩
            · rw [List.mem_singleton] at ht
              subst ht
              exact Or.inr (Or.inl hxt)
          · exact absurd h (List.not_mem_nil x)
          · exact Or.inr (Or.inr (List.mem_cons_of_mem _ h))
        · intro x hx
          rcases i2 x hx with h | h
          · exact absurd h (List.not_mem_nil x)
          · exact Or.inr (List.mem_cons_of_mem _ h)
    · rw [show scanStep ⟨cur, out⟩ c = ⟨cur ++ [c], out⟩ by
        unfold scanStep; rw [if_neg hc]]
      obtain ⟨i1, i2⟩ := ih (cur ++ [c]) out
      have hsplit : ∀ x : Char, x ∈ cur ++ [c] → x ∈ cur ∨ x ∈ c :: cs := by
        intro x hx
        rcases List.mem_append.mp hx with hx | hx
        · exact Or.inl hx
        · rw [List.mem_singleton] at hx
          subst hx
          exact Or.inr (List.mem_cons_self _ _)
      refine ⟨?_, ?_⟩
      · intro tok htok x hx
        rcases (i1 tok htok x hx) with h | h | h
        · exact Or.inl h
        · rcases hsplit x h with h' | h'
          · exact Or.inr (Or.inl h')
          · exact Or.inr (Or.inr h')
        · exact Or.inr (Or.inr (List.mem_cons_of_mem _ h))
      · intro x hx
        rcases i2 x hx with h | h
        · exact hsplit x h
        · exact Or.inr (List.mem_cons_of_mem _ h)

/-- Token characters come from the scanned input. -/
theorem tokensOf_chars {l : List Char} {tok : List Char} {c : Char}
    (htok : tok ∈ tokensOf l) (hc : c ∈ tok) : c ∈ l := by
  unfold tokensOf scanFinish at htok
  obtain ⟨i1, i2⟩ := foldl_scan_chars l [] []
  rcases hcur : (List.foldl scanStep ⟨[], []⟩ l).cur with _ | ⟨d, ds⟩
  · rw [hcur] at htok
    rcases i1 tok htok c hc with ⟨t, ht, -⟩ | h | h
    · exact absurd ht (List.not_mem_nil t)
    · exact absurd h (List.not_mem_nil c)
    · exact h
  · rw [hcur] at htok
    rcases List.mem_append.mp htok with ht | ht
    · rcases i1 tok ht c hc with ⟨t, ht', -⟩ | h | h
      · exact absurd ht' (List.not_mem_nil t)
      · exact absurd h (List.not_mem_nil c)
      · exact h
    · rw [List.mem_singleton] at ht
      subst ht
      rcases i2 c (hcur ▸ hc) with h | h
      · exact absurd h (List.not_mem_nil c)
      · exact h

/-- A run without `@` refers to nothing. -/
theorem refsL_noAt {l : List Char} (h : ∀ c ∈ l, c ≠ '@') : refsL l = [] := by
  unfold refsL
  rw [List.filterMap_eq_nil]
  intro tok htok
  cases tok with
  | nil => rfl
  | cons c rest =>
    have hc : c ≠ '@' := by
      intro hceq
      subst hceq
      exact h '@' (tokensOf_chars htok (List.mem_cons_self _ _)) rfl
    simp [tokenRef, hc]

/-! ## Claim C1 — character classes and generated names -/

theorem isDelim_cases {c : Char} (h : isDelim c = true) :
    c = ' ' ∨ c = ',' ∨ c = '(' ∨ c = ')' ∨ c = '\x7b' ∨ c = '\x7d' ∨ c = '.' := by
  simp only [isDelim, Bool.or_eq_true, beq_iff_eq] at h
  tauto

theorem safeTail_not_delim {c : Char} (h : isSafeTail c = true) : isDelim c = false := by
  cases hd : isDelim c
  · rfl
  · exfalso
    rcases isDelim_cases hd with rfl | rfl | rfl | rfl | rfl | rfl | rfl <;>
      revert h <;> decide

theorem safeTail_ne_at {c : Char} (h : isSafeTail c = true) : c ≠ '@' := by
  rintro rfl
  revert h
  decide

theorem isDigit_safeTail {c : Char} (h : c.isDigit = true) : isSafeTail c = true := by
  simp only [Char.isDigit, Bool.and_eq_true, decide_eq_true_eq] at h
  simp only [isSafeTail, Bool.or_eq_true, Bool.and_eq_true, decide_eq_true_eq]
  tauto

theorem safeHead_safeTail {c : Char} (h : isSafeHead c = true) : isSafeTail c = true := by
  simp only [isSafeTail, Bool.or_eq_true]
  exact Or.inl (Or.inl (Or.inl h))

theorem checkSafeB_chars {s : String} (h : checkSafeB s = true) :
    ∀ c ∈ s.data, isSafeTail c = true := by
  unfold checkSafeB at h
  intro c hc
  cases hd : s.data with
  | nil => rw [hd] at hc; exact absurd hc (List.not_mem_nil c)
  | cons x xs =>
    rw [hd] at h hc
    rw [Bool.and_eq_true, List.all_eq_true] at h
    rcases List.mem_cons.mp hc with rfl | hc'
    · exact safeHead_safeTail h.1
    · exact h.2 c hc'

theorem safe_refsL_nil {s : String} (h : checkSafeB s = true) : refsL s.data = [] :=
  refsL_noAt (fun c hc => safeTail_ne_at (checkSafeB_chars h c hc))

theorem noAt_refsL_nil {s : String} (h : noAtB s = true) : refsL s.data = [] := by
  apply refsL_noAt
  intro c hc
  unfold noAtB at h
  rw [List.all_eq_true] at h
  simpa using h c hc

/-- `takeWhile` passes over a satisfying prefix. -/
theorem takeWhile_append_all {α : Type} (p : α → Bool) :
    ∀ (a b : List α), (∀ x ∈ a, p x = true) →
      (a ++ b).takeWhile p = a ++ b.takeWhile p := by
  intro a
  induction a with
  | nil => intro b _; rfl
  | cons x xs ih =>
    intro b h
    rw [List.cons_append, List.takeWhile_cons, if_pos (h x (List.mem_cons_self _ _))]
    rw [ih b (fun y hy => h y (List.mem_cons_of_mem _ hy))]
    rfl

/-- The tick suffix of a generated name `pre ++ Nat.repr k` where `pre`
does not end in a digit. -/
theorem keyTick_pre {pre : String} (k : Nat)
    (h : ∀ c, pre.data.getLast? = some c → c.isDigit = false) :
    keyTick (pre ++ Nat.repr k) = (natDigits k).reverse := by
  unfold keyTick
  rw [sdata_append, repr_data, List.reverse_append]
  rw [takeWhile_append_all Char.isDigit ((natDigits k).reverse) pre.data.reverse
    (fun c hc => natDigits_digits k c (List.mem_reverse.mp hc))]
  have : pre.data.reverse.takeWhile Char.isDigit = [] := by
    cases hrev : pre.data.reverse with
    | nil => rfl
    | cons c cs =>
      have hlast : pre.data.getLast? = some c := by
        rw [← List.head?_reverse, hrev]
        rfl
      rw [List.takeWhile_cons, if_neg (by simp [h c hlast])]
  rw [this, List.append_nil]

/-- A generated key from the tick range `(lo, hi]`. -/
theorem genKey_mk {pre : String} {k lo hi : Nat}
    (h : ∀ c, pre.data.getLast? = some c → c.isDigit = false)
    (h1 : lo < k) (h2 : k ≤ hi) : GenKey lo hi (pre ++ Nat.repr k) :=
  ⟨k, h1, h2, keyTick_pre k h⟩

/-- Two generated keys with ticks on either side of a bound differ. -/
theorem genKey_ne {s1 s2 : String} {l1 h1 l2 h2 : Nat}
    (g1 : GenKey l1 h1 s1) (g2 : GenKey l2 h2 s2) (hlt : h1 ≤ l2) : s1 ≠ s2 := by
  obtain ⟨k1, hk1a, hk1b, ht1⟩ := g1
  obtain ⟨k2, hk2a, hk2b, ht2⟩ := g2
  intro he
  subst he
  rw [ht1] at ht2
  have := natDigits_inj (List.reverse_injective ht2)
  omega

theorem keysIn_mono {bv : BindVars} {lo hi lo' hi' : Nat}
    (h : KeysIn bv lo hi) (h1 : lo' ≤ lo) (h2 : hi ≤ hi') : KeysIn bv lo' hi' := by
  intro p hp
  obtain ⟨k, hk1, hk2, hk3⟩ := h p hp
  exact ⟨k, by omega, by omega, hk3⟩

theorem keysIn_append {a b : BindVars} {lo mid hi : Nat}
    (ha : KeysIn a lo mid) (hb : KeysIn b mid hi) (hm : lo ≤ mid) (hh : mid ≤ hi) :
    KeysIn (a ++ b) lo hi := by
  intro p hp
  rcases List.mem_append.mp hp with hp | hp
  · exact keysIn_mono ha (by omega) (by omega) p hp
  · exact keysIn_mono hb (by omega) (by omega) p hp

theorem keysIn_perm {a b : BindVars} {lo hi : Nat}
    (hab : a.Perm b) (h : KeysIn a lo hi) : KeysIn b lo hi := by
  intro p hp
  exact h p (hab.mem_iff.mpr hp)

theorem tickInj_perm {a b : BindVars} (hab : a.Perm b) (h : TickInj a) : TickInj b := by
  unfold TickInj at h ⊢
  exact (List.Perm.nodup_iff
    (List.Perm.map (fun p : String × BindVal => keyTick p.1) hab)).mp h

theorem tickInj_append {a b : BindVars} {lo mid hi : Nat}
    (ha : KeysIn a lo mid) (hb : KeysIn b mid hi)
    (ia : TickInj a) (ib : TickInj b) : TickInj (a ++ b) := by
  unfold TickInj
  rw [List.map_append]
  apply List.Nodup.append ia ib
  intro x hxa hxb
  obtain ⟨p, hp, hpx⟩ := List.mem_map.mp hxa
  obtain ⟨q, hq, hqx⟩ := List.mem_map.mp hxb
  obtain ⟨k1, hk1a, hk1b, ht1⟩ := ha p hp
  obtain ⟨k2, hk2a, hk2b, ht2⟩ := hb q hq
  have : (natDigits k1).reverse = (natDigits k2).reverse := by
    rw [← ht1, ← ht2, hpx, hqx]
  have := natDigits_inj (List.reverse_injective this)
  omega

/-! ## Claim C1 — step composition -/

theorem refsL_nil : refsL [] = [] := rfl

/-- A clean left fragment splits the reference scan. -/
theorem refs_sterm_append {f1 : String} (s1 : STermS f1) (f2 : String) :
    placeholderRefs (f1 ++ f2) = placeholderRefs f1 ++ placeholderRefs f2 := by
  unfold placeholderRefs
  rw [sdata_append]
  rcases s1 with h0 | ⟨u, c, hu, hc⟩
  · rw [h0, List.nil_append]
    rw [show refsL ([] : List Char) = [] from rfl, List.nil_append]
  · have hf1 : refsL f1.data = refsL u := by
      rw [hu, show (u ++ [c] : List Char) = u ++ c :: ([] : List Char) from rfl,
        refsL_append_delim hc, refsL_nil, List.append_nil]
    rw [hf1, hu, List.append_assoc, show ([c] ++ f2.data : List Char) = c :: f2.data from rfl,
      refsL_append_delim hc]

theorem sterm_append {f1 f2 : String} (s1 : STermS f1) (s2 : STermS f2) :
    STermS (f1 ++ f2) := by
  rcases s2 with h0 | ⟨u, c, hu, hc⟩
  · rcases s1 with h1 | ⟨u1, c1, hu1, hc1⟩
    · left
      rw [sdata_append, h0, h1]
      rfl
    · right
      exact ⟨u1, c1, by rw [sdata_append, h0, hu1, List.append_nil], hc1⟩
  · right
    exact ⟨f1.data ++ u, c, by rw [sdata_append, hu, List.append_assoc], hc⟩

theorem stepOK_refl (bv : BindVars) (t : Nat) : StepOK bv t "" bv t := by
  refine ⟨le_refl t, [], by simp, ?_, ?_, ?_, Or.inl rfl⟩
  · intro p hp
    exact absurd hp (List.not_mem_nil p)
  · exact List.nodup_nil
  · intro r hr
    exact absurd hr (List.not_mem_nil r)

/-- Composing two consecutive build steps. -/
theorem stepOK_comp {bv : BindVars} {t : Nat} {f1 : String} {bv1 : BindVars} {t1 : Nat}
    {f2 : String} {bv2 : BindVars} {t2 : Nat}
    (h1 : StepOK bv t f1 bv1 t1) (h2 : StepOK bv1 t1 f2 bv2 t2) :
    StepOK bv t (f1 ++ f2) bv2 t2 := by
  obtain ⟨le1, d1, p1, k1, i1, r1, s1⟩ := h1
  obtain ⟨le2, d2, p2, k2, i2, r2, s2⟩ := h2
  refine ⟨le1.trans le2, d1 ++ d2, ?_, keysIn_append k1 k2 le1 le2,
    tickInj_append k1 k2 i1 i2, ?_, sterm_append s1 s2⟩
  · have : bv2.Perm ((bv ++ d1) ++ d2) := p2.trans (p1.append_right d2)
    rw [List.append_assoc] at this
    exact this
  · intro r hr
    rw [refs_sterm_append s1 f2] at hr
    rw [List.map_append]
    rcases List.mem_append.mp hr with hr | hr
    · exact List.mem_append_left _ (r1 r hr)
    · exact List.mem_append_right _ (r2 r hr)

/-- A step that allocates nothing and emits a clean `@`-free fragment. -/
theorem stepOK_silent {bv : BindVars} {t : Nat} {frag : String}
    (hrefs : placeholderRefs frag = []) (hst : STermS frag) :
    StepOK bv t frag bv t := by
  refine ⟨le_refl t, [], by simp, ?_, List.nodup_nil, ?_, hst⟩
  · intro p hp
    exact absurd hp (List.not_mem_nil p)
  · intro r hr
    rw [hrefs] at hr
    exact absurd hr (List.not_mem_nil r)

/-! ## Claim C1 — freshness bookkeeping -/

theorem ticksLe_nil (t : Nat) : TicksLe [] t := by
  intro p hp
  exact absurd hp (List.not_mem_nil p)

theorem ticksLe_mono {bv : BindVars} {t t' : Nat} (h : TicksLe bv t) (hle : t ≤ t') :
    TicksLe bv t' := by
  intro p hp k hk
  exact le_trans (h p hp k hk) hle

theorem ticksLe_append {a b : BindVars} {t : Nat} (ha : TicksLe a t) (hb : TicksLe b t) :
    TicksLe (a ++ b) t := by
  intro p hp k hk
  rcases List.mem_append.mp hp with hp | hp
  · exact ha p hp k hk
  · exact hb p hp k hk

theorem ticksLe_perm {a b : BindVars} {t : Nat} (hab : a.Perm b) (h : TicksLe a t) :
    TicksLe b t := by
  intro p hp k hk
  exact h p (hab.mem_iff.mpr hp) k hk

theorem ticksLe_of_keysIn {d : BindVars} {lo hi : Nat} (h : KeysIn d lo hi) :
    TicksLe d hi := by
  intro p hp k hk
  obtain ⟨j, _, hj2, ht⟩ := h p hp
  have : k = j := natDigits_inj (List.reverse_injective (by rw [← hk]; exact ht))
  omega

/-- A name with a tick beyond `t` is absent from a record whose ticks are
at most `t`. -/
theorem fresh_of_ticksLe {bv : BindVars} {t hi : Nat} {s : String}
    (hb : TicksLe bv t) (g : GenKey t hi s) : ∀ p ∈ bv, p.1 ≠ s := by
  intro p hp he
  obtain ⟨k, hk1, _, ht⟩ := g
  have := hb p hp k (by rw [he]; exact ht)
  omega

/-- A build step keeps the tick bound of the record. -/
theorem ticksLe_step {bv bv' : BindVars} {t t' : Nat} {frag : String}
    (h : StepOK bv t frag bv' t') (hb : TicksLe bv t) : TicksLe bv' t' := by
  obtain ⟨le1, d, pd, kd, _, _, _⟩ := h
  exact ticksLe_perm pd.symm (ticksLe_append (ticksLe_mono hb le1) (ticksLe_of_keysIn kd))

theorem map_self_of {α : Type} (f : α → α) :
    ∀ l : List α, (∀ x ∈ l, f x = x) → l.map f = l := by
  intro l
  induction l with
  | nil => intro _; rfl
  | cons x xs ih =>
    intro h
    rw [List.map_cons, h x (List.mem_cons_self _ _),
      ih (fun y hy => h y (List.mem_cons_of_mem _ hy))]

/-- Spreading a record with entirely fresh keys is plain concatenation. -/
theorem jsSpread_fresh (a b : BindVars) (h : ∀ p ∈ a, ∀ q ∈ b, p.1 ≠ q.1) :
    jsSpread a b = a ++ b := by
  unfold jsSpread
  congr 1
  · apply map_self_of
    intro p hp
    have hnone : b.find? (fun (q : String × BindVal) => q.1 == p.1) = none := by
      apply List.find?_eq_none.mpr
      intro q hq hc
      exact h p hp q hq (eq_of_beq hc).symm
    rw [hnone]
  · apply List.filter_eq_self.mpr
    intro q hq
    have hfalse : a.any (fun (p : String × BindVal) => p.1 == q.1) = false := by
      apply List.any_eq_false.mpr
      intro p hp hc
      exact h p hp q hq (eq_of_beq hc)
    rw [hfalse]
    rfl

/-! ## Claim C1 — reference computation for fragment chunks -/

theorem refsL_cons_delim {c : Char} (hc : isDelim c = true) (l : List Char) :
    refsL (c :: l) = refsL l :=
  refsL_append_delim hc [] l

/-- A `@name` token refers to `name`. -/
theorem refsL_at_token {s : String} (h : checkSafeB s = true) :
    refsL ('@' :: s.data) = [s] := by
  have hnd : ∀ x ∈ '@' :: s.data, isDelim x = false := by
    intro x hx
    rcases List.mem_cons.mp hx with rfl | hx
    · decide
    · exact safeTail_not_delim (checkSafeB_chars h x hx)
  rw [refsL_token (by simp) hnd]
  show (tokenRef ('@' :: s.data)).toList = [s]
  show (if '@' = '@' then some (String.mk s.data) else none).toList = [s]
  rw [if_pos rfl]
  rfl

/-- A `@@name` token refers to the key `@name`. -/
theorem refsL_atat_token {s : String} (h : checkSafeB s = true) :
    refsL ('@' :: '@' :: s.data) = ["@" ++ s] := by
  have hnd : ∀ x ∈ '@' :: '@' :: s.data, isDelim x = false := by
    intro x hx
    rcases List.mem_cons.mp hx with rfl | hx
    · decide
    rcases List.mem_cons.mp hx with rfl | hx
    · decide
    · exact safeTail_not_delim (checkSafeB_chars h x hx)
  rw [refsL_token (by simp) hnd]
  show (tokenRef ('@' :: '@' :: s.data)).toList = ["@" ++ s]
  show (if '@' = '@' then some (String.mk ('@' :: s.data)) else none).toList = ["@" ++ s]
  rw [if_pos rfl]
  rfl

theorem refs_safe {s : String} (h : checkSafeB s = true) : placeholderRefs s = [] :=
  safe_refsL_nil h

theorem refs_noAt {s : String} (h : noAtB s = true) : placeholderRefs s = [] :=
  noAt_refsL_nil h

theorem refs_trail_space (s : String) : placeholderRefs (s ++ " ") = placeholderRefs s := by
  show refsL (s.data ++ ' ' :: []) = refsL s.data
  rw [refsL_append_delim (show isDelim ' ' = true by decide), refsL_nil, List.append_nil]

theorem refs_trail_dot (s : String) : placeholderRefs (s ++ ".") = placeholderRefs s := by
  show refsL (s.data ++ '.' :: []) = refsL s.data
  rw [refsL_append_delim (show isDelim '.' = true by decide), refsL_nil, List.append_nil]

theorem refs_safe_space {s : String} (h : checkSafeB s = true) :
    placeholderRefs (s ++ " ") = [] := by
  rw [refs_trail_space]
  exact refs_safe h

theorem refs_noAt_space {s : String} (h : noAtB s = true) :
    placeholderRefs (s ++ " ") = [] := by
  rw [refs_trail_space]
  exact refs_noAt h

theorem refs_safe_dot {s : String} (h : checkSafeB s = true) :
    placeholderRefs (s ++ ".") = [] := by
  rw [refs_trail_dot]
  exact refs_safe h

theorem refs_at_key {s : String} (h : checkSafeB s = true) :
    placeholderRefs ("@" ++ s) = [s] :=
  refsL_at_token h

theorem refs_atat_key {s : String} (h : checkSafeB s = true) :
    placeholderRefs ("@@" ++ s) = ["@" ++ s] :=
  refsL_atat_token h

theorem refs_at_space {s : String} (h : checkSafeB s = true) :
    placeholderRefs ("@" ++ s ++ " ") = [s] := by
  show refsL (('@' :: s.data) ++ ' ' :: []) = [s]
  rw [refsL_append_delim (show isDelim ' ' = true by decide), refsL_at_token h, refsL_nil,
    List.append_nil]

theorem refs_atat_space {s : String} (h : checkSafeB s = true) :
    placeholderRefs ("@@" ++ s ++ " ") = ["@" ++ s] := by
  show refsL (('@' :: '@' :: s.data) ++ ' ' :: []) = ["@" ++ s]
  rw [refsL_append_delim (show isDelim ' ' = true by decide), refsL_atat_token h, refsL_nil,
    List.append_nil]

theorem refs_at_comma {s : String} (h : checkSafeB s = true) :
    placeholderRefs ("@" ++ s ++ ", ") = [s] := by
  show refsL (('@' :: s.data) ++ ',' :: (' ' :: [])) = [s]
  rw [refsL_append_delim (show isDelim ',' = true by decide), refsL_at_token h,
    refsL_cons_delim (show isDelim ' ' = true by decide), refsL_nil, List.append_nil]

theorem refs_atat_comma {s : String} (h : checkSafeB s = true) :
    placeholderRefs ("@@" ++ s ++ ", ") = ["@" ++ s] := by
  show refsL (('@' :: '@' :: s.data) ++ ',' :: (' ' :: [])) = ["@" ++ s]
  rw [refsL_append_delim (show isDelim ',' = true by decide), refsL_atat_token h,
    refsL_cons_delim (show isDelim ' ' = true by decide), refsL_nil, List.append_nil]

theorem refs_open_paren (s : String) : placeholderRefs ("(" ++ s) = placeholderRefs s :=
  refsL_cons_delim (show isDelim '(' = true by decide) s.data

theorem refs_close_paren (s : String) : placeholderRefs (s ++ ") ") = placeholderRefs s := by
  show refsL (s.data ++ ')' :: (' ' :: [])) = refsL s.data
  rw [refsL_append_delim (show isDelim ')' = true by decide),
    refsL_cons_delim (show isDelim ' ' = true by decide), refsL_nil, List.append_nil]

/-- `a && b` as a separator splits references. -/
theorem refs_sep_split (a b : String) :
    placeholderRefs (a ++ " && " ++ b) = placeholderRefs a ++ placeholderRefs b := by
  unfold placeholderRefs
  rw [show (a ++ " && " ++ b).data = a.data ++ ' ' :: ('&' :: ('&' :: (' ' :: b.data))) from by
    simp only [sdata_append, List.append_assoc]
    rfl]
  rw [refsL_append_delim (show isDelim ' ' = true by decide)]
  congr 1
  rw [show ('&' :: ('&' :: (' ' :: b.data))) = ['&', '&'] ++ ' ' :: b.data from rfl]
  rw [refsL_append_delim (show isDelim ' ' = true by decide)]
  rw [show refsL ['&', '&'] = [] from rfl, List.nil_append]

/-! ## Claim C1 — clean fragment endings -/

theorem sterm_nil : STermS "" := Or.inl rfl

theorem sterm_trail_space (s : String) : STermS (s ++ " ") :=
  Or.inr ⟨s.data, ' ', by rw [sdata_append], by decide⟩

theorem sterm_trail_dot (s : String) : STermS (s ++ ".") :=
  Or.inr ⟨s.data, '.', by rw [sdata_append], by decide⟩

theorem sterm_trail_paren (s : String) : STermS (s ++ "(") :=
  Or.inr ⟨s.data, '(', by rw [sdata_append], by decide⟩

theorem sterm_trail_comma_space (s : String) : STermS (s ++ ", ") :=
  Or.inr ⟨s.data ++ [','], ' ', by rw [sdata_append, List.append_assoc]; rfl, by decide⟩

theorem sterm_trail_close_space (s : String) : STermS (s ++ ") ") :=
  Or.inr ⟨s.data ++ [')'], ' ', by rw [sdata_append, List.append_assoc]; rfl, by decide⟩

/-! ## Claim C1 — safety of generated names -/

theorem checkSafeB_append {a b : String} (ha : checkSafeB a = true)
    (hb : ∀ c ∈ b.data, isSafeTail c = true) : checkSafeB (a ++ b) = true := by
  unfold checkSafeB at ha ⊢
  rw [show (a ++ b).data = a.data ++ b.data from rfl]
  cases hd : a.data with
  | nil =>
    rw [hd] at ha
    exact absurd ha (by decide)
  | cons c cs =>
    rw [hd] at ha
    show (isSafeHead c && (cs ++ b.data).all isSafeTail) = true
    rw [Bool.and_eq_true] at ha ⊢
    refine ⟨ha.1, ?_⟩
    rw [List.all_append, Bool.and_eq_true]
    exact ⟨ha.2, List.all_eq_true.mpr hb⟩

theorem checkSafeB_repr {pre : String} (h : checkSafeB pre = true) (k : Nat) :
    checkSafeB (pre ++ Nat.repr k) = true :=
  checkSafeB_append h (fun c hc =>
    isDigit_safeTail (natDigits_digits k c (by rwa [repr_data] at hc)))

theorem checkSafeB_under {base : String} (h : checkSafeB base = true) :
    checkSafeB (base ++ "_") = true :=
  checkSafeB_append h (fun c hc => by
    have : c = '_' := List.mem_singleton.mp hc
    subst this
    decide)

/-- The last character of a generated-name prefix, once computed, rules
out a digit. -/
theorem lastDigitFree (pre : String)
    (hp : (pre.data.getLast?.map Char.isDigit).getD false = false) :
    ∀ c, pre.data.getLast? = some c → c.isDigit = false := by
  intro c hc
  rw [hc] at hp
  exact hp

/-- A prefix ending in an underscore never ends in a digit. -/
theorem lastUnder (X : String) :
    ∀ c, (X ++ "_").data.getLast? = some c → c.isDigit = false := by
  intro c hc
  rw [show (X ++ "_").data = X.data ++ ['_'] from rfl] at hc
  rw [List.getLast?_concat] at hc
  injection hc with h
  rw [← h]
  decide

/-! ## Claim C1 — the comma-separated declaration step -/

theorem at_assoc (pre base R : String) :
    pre ++ (base ++ "_" ++ R) = pre ++ base ++ "_" ++ R := by
  apply sdata_inj
  simp only [sdata_append, List.append_assoc]

theorem checkSafeB_key {base : String} (h : checkSafeB base = true) (k : Nat) :
    checkSafeB (base ++ "_" ++ Nat.repr k) = true :=
  checkSafeB_repr (checkSafeB_under h) k

theorem commaDelta_keys (base : String) : ∀ (vs : List String) (t : Nat),
    (commaDeltaSpec base vs t).map Prod.fst = commaKeysSpec base vs t := by
  intro vs
  induction vs with
  | nil => intro t; rfl
  | cons v rest ih =>
    intro t
    show ("@" ++ base ++ "_" ++ Nat.repr (t + 1)) ::
      (commaDeltaSpec base rest (t + 1)).map Prod.fst = _
    rw [ih (t + 1)]
    rfl

theorem commaDelta_keysIn (base : String) : ∀ (vs : List String) (t : Nat),
    KeysIn (commaDeltaSpec base vs t) t (t + vs.length) := by
  intro vs
  induction vs with
  | nil =>
    intro t p hp
    exact absurd hp (List.not_mem_nil p)
  | cons v rest ih =>
    intro t p hp
    rcases List.mem_cons.mp hp with rfl | hp
    · exact genKey_mk (lastUnder ("@" ++ base)) (by omega)
        (by rw [List.length_cons]; omega)
    · obtain ⟨k, hk1, hk2, hk3⟩ := ih (t + 1) p hp
      exact ⟨k, by omega, by rw [List.length_cons]; omega, hk3⟩

theorem commaDelta_tickInj (base : String) : ∀ (vs : List String) (t : Nat),
    TickInj (commaDeltaSpec base vs t) := by
  intro vs
  induction vs with
  | nil => intro t; exact List.nodup_nil
  | cons v rest ih =>
    intro t
    show (((("@" ++ base ++ "_" ++ Nat.repr (t + 1), BindVal.prim (.str v))) ::
      commaDeltaSpec base rest (t + 1)).map (fun p => keyTick p.1)).Nodup
    simp only [List.map_cons, List.nodup_cons]
    constructor
    · intro hmem
      simp only [List.mem_map] at hmem
      obtain ⟨p, hp, hpt⟩ := hmem
      obtain ⟨k, hk1, hk2, hk3⟩ := commaDelta_keysIn base rest (t + 1) p hp
      have hhead : keyTick ("@" ++ base ++ "_" ++ Nat.repr (t + 1)) =
          (natDigits (t + 1)).reverse := keyTick_pre (t + 1) (lastUnder ("@" ++ base))
      rw [hk3, hhead] at hpt
      have := natDigits_inj (List.reverse_injective hpt)
      omega
    · exact ih (t + 1)

/-- The comma-separated placeholder list refers to exactly the generated
keys, in order. -/
theorem refs_commaStmt {base : String} (h : checkSafeB base = true) :
    ∀ (vs : List String) (t : Nat),
      placeholderRefs (commaStmtSpec base vs t) = commaKeysSpec base vs t := by
  intro vs
  induction vs with
  | nil => intro t; rfl
  | cons v rest ih =>
    intro t
    cases rest with
    | nil =>
      show placeholderRefs ("@@" ++ base ++ "_" ++ Nat.repr (t + 1)) = _
      rw [(at_assoc "@@" base (Nat.repr (t + 1))).symm]
      rw [refs_atat_key (checkSafeB_key h (t + 1))]
      rw [at_assoc "@" base (Nat.repr (t + 1))]
      rfl
    | cons v2 rest2 =>
      show placeholderRefs ("@@" ++ base ++ "_" ++ Nat.repr (t + 1) ++ ", " ++
        commaStmtSpec base (v2 :: rest2) (t + 1)) = _
      have hgrp : "@@" ++ base ++ "_" ++ Nat.repr (t + 1) ++ ", " ++
          commaStmtSpec base (v2 :: rest2) (t + 1) =
          ("@@" ++ (base ++ "_" ++ Nat.repr (t + 1)) ++ ", ") ++
            commaStmtSpec base (v2 :: rest2) (t + 1) := by
        apply sdata_inj
        simp only [sdata_append, List.append_assoc]
      rw [hgrp, refs_sterm_append
        (sterm_trail_comma_space ("@@" ++ (base ++ "_" ++ Nat.repr (t + 1)))) _]
      rw [refs_atat_comma (checkSafeB_key h (t + 1)), ih (t + 1)]
      rw [at_assoc "@" base (Nat.repr (t + 1))]
      rfl

/-- `handleCommaSeparated` never fails on a guarded base name: it appends
one binding per value with consecutive fresh ticks, and its emitted text
refers to exactly those keys. -/
theorem comma_inv (vals : List String) (base : String) (bv : BindVars) (t : Nat)
    (hbase : checkSafeB base = true) (hb : TicksLe bv t) :
    handleCommaSeparated vals base bv t =
      .ok (commaStmtSpec base vals t, bv ++ commaDeltaSpec base vals t, t + vals.length) ∧
    KeysIn (commaDeltaSpec base vals t) t (t + vals.length) ∧
    TickInj (commaDeltaSpec base vals t) ∧
    placeholderRefs (commaStmtSpec base vals t) =
      (commaDeltaSpec base vals t).map Prod.fst := by
  refine ⟨?_, commaDelta_keysIn base vals t, commaDelta_tickInj base vals t,
    by rw [commaDelta_keys base vals t]; exact refs_commaStmt hbase vals t⟩
  unfold handleCommaSeparated
  rw [show checkSafe base = .ok () from by unfold checkSafe; rw [if_pos hbase], exceptOkBind]
  by_cases hemp : vals.isEmpty
  · rw [if_pos hemp]
    have hnil : vals = [] := List.isEmpty_iff.mp hemp
    subst hnil
    show Except.ok ("", bv, t) = _
    rw [show commaStmtSpec base [] t = "" from rfl,
      show commaDeltaSpec base [] t = ([] : BindVars) from rfl, List.append_nil]
    rfl
  · rw [if_neg hemp]
    have hfresh : ∀ p ∈ bv, ∀ j : Nat, t < j →
        p.1 ≠ "@" ++ base ++ "_" ++ Nat.repr j := by
      intro p hp j hj
      exact fresh_of_ticksLe hb (genKey_mk (lastUnder ("@" ++ base)) hj (le_refl j)) p hp
    rw [commaLoop_spec base vals bv t hfresh]
    rfl

/-! ## Claim C1 — the sort and limit steps -/

/-- `buildSort` is one clean step. -/
theorem sort_inv {doc : String} (hdoc : checkSafeB doc = true) (sb : Option SortBy)
    (bv : BindVars) (t : Nat) (hb : TicksLe bv t) :
    StepOK bv t (buildSort doc sb bv t).1 (buildSort doc sb bv t).2.1
      (buildSort doc sb bv t).2.2 := by
  cases sb with
  | none => exact stepOK_refl bv t
  | some sb =>
    have g1 : GenKey t (t + 1) ("sortField_" ++ Nat.repr (t + 1)) :=
      genKey_mk (lastDigitFree "sortField_" (by decide)) (by omega) (le_refl (t + 1))
    have g2 : GenKey t (t + 2) ("sortOrder_" ++ Nat.repr (t + 2)) :=
      genKey_mk (lastDigitFree "sortOrder_" (by decide)) (by omega) (le_refl (t + 2))
    have g2' : GenKey (t + 1) (t + 2) ("sortOrder_" ++ Nat.repr (t + 2)) :=
      genKey_mk (lastDigitFree "sortOrder_" (by decide)) (by omega) (le_refl (t + 2))
    have hset1 : recSet bv ("sortField_" ++ Nat.repr (t + 1))
        (.arr ((jsSplitDot sb.field).map Prim.str)) =
        bv ++ [("sortField_" ++ Nat.repr (t + 1),
          BindVal.arr ((jsSplitDot sb.field).map Prim.str))] :=
      recSet_append _ _ _ (fresh_of_ticksLe hb g1)
    have hset2 : recSet (bv ++ [("sortField_" ++ Nat.repr (t + 1),
          BindVal.arr ((jsSplitDot sb.field).map Prim.str))])
        ("sortOrder_" ++ Nat.repr (t + 2)) (.prim (.str sb.order)) =
        (bv ++ [("sortField_" ++ Nat.repr (t + 1),
          BindVal.arr ((jsSplitDot sb.field).map Prim.str))]) ++
          [("sortOrder_" ++ Nat.repr (t + 2), BindVal.prim (.str sb.order))] :=
      recSet_append _ _ _ (by
        intro p hp
        rcases List.mem_append.mp hp with hp | hp
        · exact fresh_of_ticksLe hb g2 p hp
        · rw [List.mem_singleton] at hp
          subst hp
          exact genKey_ne g1 g2' (le_refl (t + 1)))
    show StepOK bv t
      ("SORT " ++ doc ++ ".@" ++ ("sortField_" ++ Nat.repr (t + 1)) ++ " @" ++
        ("sortOrder_" ++ Nat.repr (t + 2)) ++ " ")
      (recSet (recSet bv ("sortField_" ++ Nat.repr (t + 1))
          (.arr ((jsSplitDot sb.field).map Prim.str)))
        ("sortOrder_" ++ Nat.repr (t + 2)) (.prim (.str sb.order)))
      (t + 2)
    rw [hset1, hset2, List.append_assoc]
    refine ⟨by omega,
      [("sortField_" ++ Nat.repr (t + 1), BindVal.arr ((jsSplitDot sb.field).map Prim.str)),
       ("sortOrder_" ++ Nat.repr (t + 2), BindVal.prim (.str sb.order))],
      List.Perm.refl _, ?_, ?_, ?_, sterm_trail_space _⟩
    · intro p hp
      rcases List.mem_cons.mp hp with rfl | hp
      · exact ⟨t + 1, by omega, by omega,
          keyTick_pre (t + 1) (lastDigitFree "sortField_" (by decide))⟩
      · rcases List.mem_cons.mp hp with rfl | hp
        · exact ⟨t + 2, by omega, by omega,
            keyTick_pre (t + 2) (lastDigitFree "sortOrder_" (by decide))⟩
        · exact absurd hp (List.not_mem_nil p)
    · show ([keyTick ("sortField_" ++ Nat.repr (t + 1)),
        keyTick ("sortOrder_" ++ Nat.repr (t + 2))]).Nodup
      rw [keyTick_pre (t + 1) (lastDigitFree "sortField_" (by decide)),
        keyTick_pre (t + 2) (lastDigitFree "sortOrder_" (by decide)),
        List.nodup_cons]
      refine ⟨?_, List.nodup_singleton _⟩
      intro hmem
      rw [List.mem_singleton] at hmem
      have := natDigits_inj (List.reverse_injective hmem)
      omega
    · intro r hr
      have hfrag : "SORT " ++ doc ++ ".@" ++ ("sortField_" ++ Nat.repr (t + 1)) ++ " @" ++
          ("sortOrder_" ++ Nat.repr (t + 2)) ++ " " =
          ("SORT" ++ " ") ++ ((doc ++ ".") ++
            (("@" ++ ("sortField_" ++ Nat.repr (t + 1)) ++ " ") ++
              ("@" ++ ("sortOrder_" ++ Nat.repr (t + 2)) ++ " "))) := by
        apply sdata_inj
        simp only [sdata_append, List.append_assoc]
        rfl
      rw [hfrag, refs_sterm_append (sterm_trail_space "SORT") _,
        refs_sterm_append (sterm_trail_dot doc) _,
        refs_sterm_append (sterm_trail_space ("@" ++ ("sortField_" ++ Nat.repr (t + 1)))) _,
        show placeholderRefs ("SORT" ++ " ") = [] from rfl,
        refs_safe_dot hdoc,
        refs_at_space (checkSafeB_repr (show checkSafeB "sortField_" = true from rfl) (t + 1)),
        refs_at_space (checkSafeB_repr (show checkSafeB "sortOrder_" = true from rfl) (t + 2))]
        at hr
      simpa using hr

/-- `buildLimit` is one clean step. -/
theorem limit_inv (lb : Option LimitBy) (bv : BindVars) (t : Nat) (hb : TicksLe bv t) :
    StepOK bv t (buildLimit lb bv t).1 (buildLimit lb bv t).2.1 (buildLimit lb bv t).2.2 := by
  cases lb with
  | none => exact stepOK_refl bv t
  | some lb =>
    have g1 : GenKey t (t + 1) ("limitByOffset_" ++ Nat.repr (t + 1)) :=
      genKey_mk (lastDigitFree "limitByOffset_" (by decide)) (by omega) (le_refl (t + 1))
    have g2 : GenKey t (t + 2) ("limitByLimit_" ++ Nat.repr (t + 2)) :=
      genKey_mk (lastDigitFree "limitByLimit_" (by decide)) (by omega) (le_refl (t + 2))
    have g2' : GenKey (t + 1) (t + 2) ("limitByLimit_" ++ Nat.repr (t + 2)) :=
      genKey_mk (lastDigitFree "limitByLimit_" (by decide)) (by omega) (le_refl (t + 2))
    have hset1 : recSet bv ("limitByOffset_" ++ Nat.repr (t + 1)) (.prim (.num lb.offset)) =
        bv ++ [("limitByOffset_" ++ Nat.repr (t + 1), BindVal.prim (.num lb.offset))] :=
      recSet_append _ _ _ (fresh_of_ticksLe hb g1)
    have hset2 : recSet (bv ++ [("limitByOffset_" ++ Nat.repr (t + 1),
          BindVal.prim (.num lb.offset))])
        ("limitByLimit_" ++ Nat.repr (t + 2)) (.prim (.num lb.limit)) =
        (bv ++ [("limitByOffset_" ++ Nat.repr (t + 1), BindVal.prim (.num lb.offset))]) ++
          [("limitByLimit_" ++ Nat.repr (t + 2), BindVal.prim (.num lb.limit))] :=
      recSet_append _ _ _ (by
        intro p hp
        rcases List.mem_append.mp hp with hp | hp
        · exact fresh_of_ticksLe hb g2 p hp
        · rw [List.mem_singleton] at hp
          subst hp
          exact genKey_ne g1 g2' (le_refl (t + 1)))
    show StepOK bv t
      ("LIMIT @" ++ ("limitByOffset_" ++ Nat.repr (t + 1)) ++ ", @" ++
        ("limitByLimit_" ++ Nat.repr (t + 2)) ++ " ")
      (recSet (recSet bv ("limitByOffset_" ++ Nat.repr (t + 1)) (.prim (.num lb.offset)))
        ("limitByLimit_" ++ Nat.repr (t + 2)) (.prim (.num lb.limit)))
      (t + 2)
    rw [hset1, hset2, List.append_assoc]
    refine ⟨by omega,
      [("limitByOffset_" ++ Nat.repr (t + 1), BindVal.prim (.num lb.offset)),
       ("limitByLimit_" ++ Nat.repr (t + 2), BindVal.prim (.num lb.limit))],
      List.Perm.refl _, ?_, ?_, ?_, sterm_trail_space _⟩
    · intro p hp
      rcases List.mem_cons.mp hp with rfl | hp
      · exact ⟨t + 1, by omega, by omega,
          keyTick_pre (t + 1) (lastDigitFree "limitByOffset_" (by decide))⟩
      · rcases List.mem_cons.mp hp with rfl | hp
        · exact ⟨t + 2, by omega, by omega,
            keyTick_pre (t + 2) (lastDigitFree "limitByLimit_" (by decide))⟩
        · exact absurd hp (List.not_mem_nil p)
    · show ([keyTick ("limitByOffset_" ++ Nat.repr (t + 1)),
        keyTick ("limitByLimit_" ++ Nat.repr (t + 2))]).Nodup
      rw [keyTick_pre (t + 1) (lastDigitFree "limitByOffset_" (by decide)),
        keyTick_pre (t + 2) (lastDigitFree "limitByLimit_" (by decide)),
        List.nodup_cons]
      refine ⟨?_, List.nodup_singleton _⟩
      intro hmem
      rw [List.mem_singleton] at hmem
      have := natDigits_inj (List.reverse_injective hmem)
      omega
    · intro r hr
      have hfrag : "LIMIT @" ++ ("limitByOffset_" ++ Nat.repr (t + 1)) ++ ", @" ++
          ("limitByLimit_" ++ Nat.repr (t + 2)) ++ " " =
          ("LIMIT" ++ " ") ++
            (("@" ++ ("limitByOffset_" ++ Nat.repr (t + 1)) ++ ", ") ++
              ("@" ++ ("limitByLimit_" ++ Nat.repr (t + 2)) ++ " ")) := by
        apply sdata_inj
        simp only [sdata_append, List.append_assoc]
        rfl
      rw [hfrag, refs_sterm_append (sterm_trail_space "LIMIT") _,
        refs_sterm_append (sterm_trail_comma_space
          ("@" ++ ("limitByOffset_" ++ Nat.repr (t + 1)))) _,
        show placeholderRefs ("LIMIT" ++ " ") = [] from rfl,
        refs_at_comma (checkSafeB_repr (show checkSafeB "limitByOffset_" = true from rfl) (t + 1)),
        refs_at_space (checkSafeB_repr (show checkSafeB "limitByLimit_" = true from rfl) (t + 2))]
        at hr
      simpa using hr

/-! ## Claim C1 — the declaration (WITH) step -/

/-- `buildWithClause` is one clean step whenever it succeeds. -/
theorem with_inv {isRoot : Bool} {q : QB} {bv : BindVars} {t : Nat}
    {frag : String} {bv2 : BindVars} {t2 : Nat} (hb : TicksLe bv t)
    (h : buildWithClause isRoot q bv t = .ok (frag, bv2, t2)) :
    StepOK bv t frag bv2 t2 := by
  cases isRoot with
  | false =>
    have h3 : (("", bv, t) : String × BindVars × Nat) = (frag, bv2, t2) := Except.ok.inj h
    injection h3 with h4 h5
    injection h5 with h6 h7
    subst h4
    subst h6
    subst h7
    exact stepOK_refl bv t
  | true =>
    simp only [buildWithClause] at h
    rw [if_pos trivial] at h
    by_cases hlen : (gatherRelatedCollectionsRecursively q).length > 0
    · rw [if_pos hlen] at h
      obtain ⟨hcall, hkeys, hinj, hrefs⟩ :=
        comma_inv (gatherRelatedCollectionsRecursively q) "target" bv t rfl hb
      rw [hcall, bindOk] at h
      have h' : (Except.ok ("WITH " ++
          commaStmtSpec "target" (gatherRelatedCollectionsRecursively q) t ++ " ",
          bv ++ commaDeltaSpec "target" (gatherRelatedCollectionsRecursively q) t,
          t + (gatherRelatedCollectionsRecursively q).length) :
            Except QError (String × BindVars × Nat)) = .ok (frag, bv2, t2) := h
      have h3 := Except.ok.inj h'
      injection h3 with h4 h5
      injection h5 with h6 h7
      subst h4
      subst h6
      subst h7
      refine ⟨by omega,
        commaDeltaSpec "target" (gatherRelatedCollectionsRecursively q) t,
        List.Perm.refl _, hkeys, hinj, ?_, sterm_trail_space _⟩
      intro r hr
      have hgrp : "WITH " ++
          commaStmtSpec "target" (gatherRelatedCollectionsRecursively q) t ++ " " =
          ("WITH" ++ " ") ++
            (commaStmtSpec "target" (gatherRelatedCollectionsRecursively q) t ++ " ") := by
        apply sdata_inj
        simp only [sdata_append, List.append_assoc]
        rfl
      rw [hgrp, refs_sterm_append (sterm_trail_space "WITH") _,
        show placeholderRefs ("WITH" ++ " ") = [] from rfl, List.nil_append,
        refs_trail_space] at hr
      rw [hrefs] at hr
      exact hr
    · rw [if_neg hlen] at h
      have h3 : (("", bv, t) : String × BindVars × Nat) = (frag, bv2, t2) := Except.ok.inj h
      injection h3 with h4 h5
      injection h5 with h6 h7
      subst h4
      subst h6
      subst h7
      exact stepOK_refl bv t

/-! ## Claim C1 — the starting-vertex step -/

theorem refs_dotid (X : String) (hX : checkSafeB X = true) :
    placeholderRefs (X ++ "._id" ++ " ") = [] := by
  have hgrp : X ++ "._id" ++ " " = (X ++ ".") ++ ("_id" ++ " ") := by
    apply sdata_inj
    simp only [sdata_append, List.append_assoc]
    rfl
  rw [hgrp, refs_sterm_append (sterm_trail_dot X) _, refs_safe_dot hX,
    show placeholderRefs ("_id" ++ " ") = [] from rfl]
  rfl

/-- The shared no-`startingVertexId` fallback of `buildStartingVertexId`:
either the node's own `rootDoc` or the resolved ancestor alias, as a
reference-free `_id` access. -/
theorem vertex_fallback {rootDoc : String} {topSel : Option String} {bv : BindVars}
    {t : Nat} {frag : String} {bv2 : BindVars} {t2 : Nat}
    (hroot : (rootDoc == "" || checkSafeB rootDoc) = true)
    (hts : ∀ r, topSel = some r → checkSafeB r = true)
    (h : (if rootDoc = "" then
            match topSel with
            | none => (.error .missingStartingVertex : Except QError (String × BindVars × Nat))
            | some r => .ok (r ++ "._id", bv, t)
          else .ok (rootDoc ++ "._id", bv, t)) = .ok (frag, bv2, t2)) :
    t ≤ t2 ∧ ∃ d, bv2 = bv ++ d ∧ KeysIn d t t2 ∧ TickInj d ∧
      ∀ r ∈ placeholderRefs (frag ++ " "), r ∈ d.map Prod.fst := by
  by_cases hrd : rootDoc = ""
  · rw [if_pos hrd] at h
    rcases hts' : topSel with _ | r
    · rw [hts'] at h
      exact Except.noConfusion h
    · rw [hts'] at h
      have h3 := Except.ok.inj h
      injection h3 with h4 h5
      injection h5 with h6 h7
      subst h4
      subst h6
      subst h7
      refine ⟨le_refl t, [], (List.append_nil bv).symm, ?_, List.nodup_nil, ?_⟩
      · intro p hp
        exact absurd hp (List.not_mem_nil p)
      · intro r2 hr2
        rw [refs_dotid r (hts r hts')] at hr2
        exact absurd hr2 (List.not_mem_nil r2)
  · rw [if_neg hrd] at h
    have hsafe : checkSafeB rootDoc = true := by
      rw [Bool.or_eq_true] at hroot
      rcases hroot with h1 | h2
      · exact absurd (eq_of_beq h1) hrd
      · exact h2
    have h3 := Except.ok.inj h
    injection h3 with h4 h5
    injection h5 with h6 h7
    subst h4
    subst h6
    subst h7
    refine ⟨le_refl t, [], (List.append_nil bv).symm, ?_, List.nodup_nil, ?_⟩
    · intro p hp
      exact absurd hp (List.not_mem_nil p)
    · intro r2 hr2
      rw [refs_dotid rootDoc hsafe] at hr2
      exact absurd hr2 (List.not_mem_nil r2)

/-- `buildStartingVertexId`: on success the record grows by at most one
fresh binding and the emitted text (as a space-terminated chunk) refers
only to it. -/
theorem vertex_inv {sv : Option String} {rootDoc : String} {topSel : Option String}
    {bv : BindVars} {t : Nat} {frag : String} {bv2 : BindVars} {t2 : Nat}
    (hroot : (rootDoc == "" || checkSafeB rootDoc) = true)
    (hts : ∀ r, topSel = some r → checkSafeB r = true)
    (hb : TicksLe bv t)
    (h : buildStartingVertexId sv rootDoc topSel bv t = .ok (frag, bv2, t2)) :
    t ≤ t2 ∧ ∃ d, bv2 = bv ++ d ∧ KeysIn d t t2 ∧ TickInj d ∧
      ∀ r ∈ placeholderRefs (frag ++ " "), r ∈ d.map Prod.fst := by
  rcases sv with _ | s
  · simp only [buildStartingVertexId] at h
    exact vertex_fallback hroot hts h
  · simp only [buildStartingVertexId] at h
    by_cases hne : s ≠ ""
    · rw [if_pos hne] at h
      by_cases hvalid : isValidVertexIdB s = true
      · rw [if_pos hvalid] at h
        have h3 := Except.ok.inj h
        injection h3 with h4 h5
        injection h5 with h6 h7
        have hset : recSet bv ("starting_vertex_" ++ Nat.repr (t + 1)) (.prim (.str s)) =
            bv ++ [("starting_vertex_" ++ Nat.repr (t + 1), BindVal.prim (.str s))] :=
          recSet_append _ _ _ (fresh_of_ticksLe hb
            (genKey_mk (lastDigitFree "starting_vertex_" (by decide)) (by omega)
              (le_refl (t + 1))))
        subst h4
        subst h7
        refine ⟨by omega, [("starting_vertex_" ++ Nat.repr (t + 1), BindVal.prim (.str s))],
          ?_, ?_, ?_, ?_⟩
        · rw [← h6]
          exact hset
        · intro p hp
          rcases List.mem_cons.mp hp with rfl | hp
          · exact ⟨t + 1, by omega, le_refl _,
              keyTick_pre (t + 1) (lastDigitFree "starting_vertex_" (by decide))⟩
          · exact absurd hp (List.not_mem_nil p)
        · show ([keyTick ("starting_vertex_" ++ Nat.repr (t + 1))]).Nodup
          exact List.nodup_singleton _
        · intro r hr
          rw [refs_at_space (checkSafeB_repr
            (show checkSafeB "starting_vertex_" = true from rfl) (t + 1))] at hr
          simpa using hr
      · rw [if_neg hvalid] at h
        exact Except.noConfusion h
    · rw [if_neg hne] at h
      exact vertex_fallback hroot hts h

/-! ## Claim C1 — the selector step -/

theorem refs_dir (d : Direction) : placeholderRefs (Direction.render d ++ " ") = [] := by
  cases d <;> rfl

/-- The body of the edge selector (`buildEdges`, `buildStartingVertexId`,
depth bound, traversal template) is one clean step. -/
theorem selector_edge_inv {E : List String} {sv : Option String} {depth : Int}
    {dir : Direction} {rootDoc doc : String} {topSel : Option String}
    {bv : BindVars} {t : Nat} {frag : String} {bv2 : BindVars} {t2 : Nat}
    (hroot : (rootDoc == "" || checkSafeB rootDoc) = true)
    (hdoc : checkSafeB doc = true)
    (hts : ∀ r, topSel = some r → checkSafeB r = true)
    (hb : TicksLe bv t)
    (h : (do
        let res1 ← handleCommaSeparated E "edge" bv t
        let res2 ← buildStartingVertexId sv rootDoc topSel res1.2.1 res1.2.2
        let depthKeyName := "depth_" ++ Nat.repr (res2.2.2 + 1)
        pure ("FOR " ++ doc ++ " IN 1..@" ++ depthKeyName ++ " " ++ dir.render ++ " " ++
            res2.1 ++ " " ++ res1.1 ++ " ",
          recSet res2.2.1 depthKeyName (.prim (.num depth)), res2.2.2 + 1) :
        Except QError (String × BindVars × Nat)) = .ok (frag, bv2, t2)) :
    StepOK bv t frag bv2 t2 := by
  obtain ⟨hcall, hkeys1, hinj1, hrefs1⟩ := comma_inv E "edge" bv t rfl hb
  rw [hcall] at h
  simp only [bindOk] at h
  rcases hvx : buildStartingVertexId sv rootDoc topSel (bv ++ commaDeltaSpec "edge" E t)
      (t + E.length) with e | res2
  · rw [hvx, bindErr] at h
    exact Except.noConfusion h
  · rcases res2 with ⟨vf, vbv, vt⟩
    obtain ⟨hle2, d2, hbv2eq, hkeys2, hinj2, hrefs2⟩ := vertex_inv hroot hts
      (ticksLe_append (ticksLe_mono hb (by omega)) (ticksLe_of_keysIn hkeys1)) hvx
    rw [hvx] at h
    simp only [bindOk] at h
    have h' : (Except.ok
        ("FOR " ++ doc ++ " IN 1..@" ++ ("depth_" ++ Nat.repr (vt + 1)) ++ " " ++
            dir.render ++ " " ++ vf ++ " " ++ commaStmtSpec "edge" E t ++ " ",
          recSet vbv ("depth_" ++ Nat.repr (vt + 1)) (.prim (.num depth)), vt + 1) :
        Except QError (String × BindVars × Nat)) = .ok (frag, bv2, t2) := h
    have h3 := Except.ok.inj h'
    injection h3 with h4 h5
    injection h5 with h6 h7
    subst h4
    subst h7
    have hgdk : GenKey vt (vt + 1) ("depth_" ++ Nat.repr (vt + 1)) :=
      genKey_mk (lastDigitFree "depth_" (by decide)) (by omega) (le_refl _)
    have hbt2 : TicksLe vbv vt := by
      rw [hbv2eq]
      exact ticksLe_append (ticksLe_mono (ticksLe_append (ticksLe_mono hb (by omega))
        (ticksLe_of_keysIn hkeys1)) hle2) (ticksLe_of_keysIn hkeys2)
    have hset : recSet vbv ("depth_" ++ Nat.repr (vt + 1)) (.prim (.num depth)) =
        vbv ++ [("depth_" ++ Nat.repr (vt + 1), BindVal.prim (.num depth))] :=
      recSet_append _ _ _ (fresh_of_ticksLe hbt2 hgdk)
    have hsing : KeysIn [("depth_" ++ Nat.repr (vt + 1), BindVal.prim (.num depth))]
        vt (vt + 1) := by
      intro p hp
      rcases List.mem_cons.mp hp with rfl | hp
      · exact hgdk
      · exact absurd hp (List.not_mem_nil p)
    have hsinj : TickInj [("depth_" ++ Nat.repr (vt + 1), BindVal.prim (.num depth))] := by
      show ([keyTick ("depth_" ++ Nat.repr (vt + 1))]).Nodup
      exact List.nodup_singleton _
    refine ⟨by omega,
      commaDeltaSpec "edge" E t ++
        (d2 ++ [("depth_" ++ Nat.repr (vt + 1), BindVal.prim (.num depth))]),
      ?_, ?_, ?_, ?_, sterm_trail_space _⟩
    · rw [← h6, hset, hbv2eq, List.append_assoc, List.append_assoc]
    · exact keysIn_append hkeys1 (keysIn_append hkeys2 hsing hle2 (by omega))
        (by omega) (by omega)
    · exact tickInj_append hkeys1 (keysIn_append hkeys2 hsing hle2 (by omega)) hinj1
        (tickInj_append hkeys2 hsing hinj2 hsinj)
    · intro r hr
      have hfrag : "FOR " ++ doc ++ " IN 1..@" ++ ("depth_" ++ Nat.repr (vt + 1)) ++ " " ++
          dir.render ++ " " ++ vf ++ " " ++ commaStmtSpec "edge" E t ++ " " =
          ("FOR" ++ " ") ++ ((doc ++ " ") ++ (("IN" ++ " ") ++ (("1." ++ ".") ++
            (("@" ++ ("depth_" ++ Nat.repr (vt + 1)) ++ " ") ++ ((dir.render ++ " ") ++
              ((vf ++ " ") ++ (commaStmtSpec "edge" E t ++ " "))))))) := by
        apply sdata_inj
        simp only [sdata_append, List.append_assoc]
        rfl
      rw [hfrag, refs_sterm_append (sterm_trail_space "FOR") _,
        refs_sterm_append (sterm_trail_space doc) _,
        refs_sterm_append (sterm_trail_space "IN") _,
        refs_sterm_append (sterm_trail_dot "1.") _,
        refs_sterm_append (sterm_trail_space ("@" ++ ("depth_" ++ Nat.repr (vt + 1)))) _,
        refs_sterm_append (sterm_trail_space (Direction.render dir)) _,
        refs_sterm_append (sterm_trail_space vf) _,
        show placeholderRefs ("FOR" ++ " ") = [] from rfl,
        refs_safe_space hdoc,
        show placeholderRefs ("IN" ++ " ") = [] from rfl,
        show placeholderRefs ("1." ++ ".") = [] from rfl,
        refs_at_space (checkSafeB_repr (show checkSafeB "depth_" = true from rfl) (vt + 1)),
        refs_dir dir, refs_trail_space (commaStmtSpec "edge" E t), hrefs1] at hr
      simp only [List.nil_append, List.append_nil, List.mem_append,
        List.mem_singleton] at hr
      rw [List.map_append, List.map_append]
      rcases hr with rfl | hr | hr
      · exact List.mem_append_right _ (List.mem_append_right _ (List.mem_cons_self _ _))
      · exact List.mem_append_right _ (List.mem_append_left _ (hrefs2 r hr))
      · exact List.mem_append_left _ hr

/-- `buildSelector` is one clean step whenever it succeeds. -/
theorem selector_inv {k : QKind} {doc : String} {topSel : Option String}
    {bv : BindVars} {t : Nat} {frag : String} {bv2 : BindVars} {t2 : Nat}
    (hroot : ∀ ecs2 rel2 sv2 depth2 dir2 rootDoc2,
      k = .edge ecs2 rel2 sv2 depth2 dir2 rootDoc2 →
      (rootDoc2 == "" || checkSafeB rootDoc2) = true)
    (hdoc : checkSafeB doc = true)
    (hts : ∀ r, topSel = some r → checkSafeB r = true)
    (hb : TicksLe bv t)
    (h : buildSelector k doc topSel bv t = .ok (frag, bv2, t2)) :
    StepOK bv t frag bv2 t2 := by
  cases k with
  | base => exact Except.noConfusion h
  | document coll =>
    simp only [buildSelector] at h
    by_cases hcoll : checkSafeB coll = true
    · rw [show checkSafe coll = .ok () from by unfold checkSafe; rw [if_pos hcoll]] at h
      simp only [bindOk] at h
      have h' : (Except.ok
          ("FOR " ++ doc ++ " IN @@" ++ ("collection_" ++ Nat.repr (t + 1)) ++ " ",
            recSet bv ("@" ++ ("collection_" ++ Nat.repr (t + 1))) (.prim (.str coll)),
            t + 1) : Except QError (String × BindVars × Nat)) = .ok (frag, bv2, t2) := h
      have h3 := Except.ok.inj h'
      injection h3 with h4 h5
      injection h5 with h6 h7
      subst h4
      subst h7
      have hkeyeq : "@" ++ ("collection_" ++ Nat.repr (t + 1)) =
          "@collection_" ++ Nat.repr (t + 1) := by
        apply sdata_inj
        simp only [sdata_append, List.append_assoc]
        rfl
      have hg : GenKey t (t + 1) ("@" ++ ("collection_" ++ Nat.repr (t + 1))) := by
        rw [hkeyeq]
        exact genKey_mk (lastDigitFree "@collection_" (by decide)) (by omega) (le_refl _)
      have hset : recSet bv ("@" ++ ("collection_" ++ Nat.repr (t + 1)))
          (.prim (.str coll)) =
          bv ++ [("@" ++ ("collection_" ++ Nat.repr (t + 1)), BindVal.prim (.str coll))] :=
        recSet_append _ _ _ (fresh_of_ticksLe hb hg)
      refine ⟨by omega,
        [("@" ++ ("collection_" ++ Nat.repr (t + 1)), BindVal.prim (.str coll))],
        ?_, ?_, ?_, ?_, sterm_trail_space _⟩
      · rw [← h6, hset]
      · intro p hp
        rcases List.mem_cons.mp hp with rfl | hp
        · exact hg
        · exact absurd hp (List.not_mem_nil p)
      · show ([keyTick ("@" ++ ("collection_" ++ Nat.repr (t + 1)))]).Nodup
        exact List.nodup_singleton _
      · intro r hr
        have hfrag : "FOR " ++ doc ++ " IN @@" ++ ("collection_" ++ Nat.repr (t + 1)) ++ " " =
            ("FOR" ++ " ") ++ ((doc ++ " ") ++ (("IN" ++ " ") ++
              ("@@" ++ ("collection_" ++ Nat.repr (t + 1)) ++ " "))) := by
          apply sdata_inj
          simp only [sdata_append, List.append_assoc]
          rfl
        rw [hfrag, refs_sterm_append (sterm_trail_space "FOR") _,
          refs_sterm_append (sterm_trail_space doc) _,
          refs_sterm_append (sterm_trail_space "IN") _,
          show placeholderRefs ("FOR" ++ " ") = [] from rfl,
          refs_safe_space hdoc,
          show placeholderRefs ("IN" ++ " ") = [] from rfl,
          refs_atat_space (checkSafeB_repr (show checkSafeB "collection_" = true from rfl)
            (t + 1))] at hr
        simpa using hr
    · rw [show checkSafe coll = .error (.unsafePhrase coll) from by
        unfold checkSafe; rw [if_neg hcoll], bindErr] at h
      exact Except.noConfusion h
  | edge ecs rel sv depth dir rootDoc =>
    simp only [buildSelector] at h
    cases ecs with
    | one s => exact selector_edge_inv (hroot _ _ _ _ _ _ rfl) hdoc hts hb h
    | many l => exact selector_edge_inv (hroot _ _ _ _ _ _ rfl) hdoc hts hb h

/-! ## Claim C1 — the filter step -/

theorem validFilterNode_obj {es : FilterEntries} (h : validFilterNode (.obj es) = true) :
    validProps es = true ∧ validFilterEntries es = true := by
  have h' := h
  simp only [validFilterNode, Bool.and_eq_true] at h'
  exact h'

/-- A valid leaf's `@docNameToFilter` override (or the default alias) is a
guarded identifier. -/
theorem leafDocName_safe {doc : String} (hdoc : checkSafeB doc = true) (v : FilterNode)
    (hv : validFilterNode v = true) : checkSafeB (leafDocName doc v) = true := by
  cases v with
  | prim p => exact hdoc
  | arr l => exact hdoc
  | obj es =>
    have hp : validProps es = true := (validFilterNode_obj hv).1
    unfold validProps at hp
    rw [Bool.and_eq_true] at hp
    have h2 := hp.2
    simp only [leafDocName]
    rcases hg : es.getProp "@docNameToFilter" with _ | vn
    · exact hdoc
    · rw [hg] at h2
      rcases vn with p | l | es2
      · rcases p with s | n | b | _ | _
        · exact h2
        · exact hdoc
        · exact hdoc
        · exact hdoc
        · exact hdoc
      · exact hdoc
      · exact hdoc

/-- A valid leaf's `@operator` override (or the default `==`) contains no
`@`. -/
theorem leafOperator_noAt (v : FilterNode) (hv : validFilterNode v = true) :
    noAtB (leafOperator v) = true := by
  cases v with
  | prim p => rfl
  | arr l => rfl
  | obj es =>
    have hp : validProps es = true := (validFilterNode_obj hv).1
    unfold validProps at hp
    rw [Bool.and_eq_true] at hp
    have h1 := hp.1
    simp only [leafOperator]
    rcases hg : es.getProp "@operator" with _ | vn
    · rfl
    · rw [hg] at h1
      rcases vn with p | l | es2
      · rcases p with s | n | b | _ | _
        · exact h1
        · rfl
        · rfl
        · rfl
        · rfl
      · rfl
      · rfl

theorem leafSegs_append : ∀ {l1 : List AqlLeaf} {t tm : Nat} {l2 : List AqlLeaf} {t' : Nat},
    LeafSegs l1 t tm → LeafSegs l2 tm t' → tm ≤ t' → LeafSegs (l1 ++ l2) t t' := by
  intro l1
  induction l1 with
  | nil =>
    intro t tm l2 t' h1 h2 hle
    have he : tm = t := h1
    subst he
    exact h2
  | cons l rest ih =>
    intro t tm l2 t' h1 h2 hle
    obtain ⟨s, hs1, hs2, hs3, hs4, hs5, hs6⟩ := h1
    exact ⟨s, hs1, hs2, hs3, hs4, ih hs5 h2 hle, le_trans hs6 hle⟩

mutual
/-- `extractFilters` produces consecutive fresh leaf segments: each leaf's
two bindings take the next two ticks and its condition text refers to
exactly those two names. -/
theorem extract_inv : ∀ (es : FilterEntries) (doc pk : String) (t : Nat),
    checkSafeB doc = true → validFilterEntries es = true →
    LeafSegs (extractFilters doc es pk t).1 t (extractFilters doc es pk t).2 ∧
      t ≤ (extractFilters doc es pk t).2
  | .nil, doc, pk, t, hdoc, hv => ⟨rfl, le_refl t⟩
  | .cons key v rest, doc, pk, t, hdoc, hv => by
    have hparts : validFilterNode v = true ∧ validFilterEntries rest = true := by
      have hv' := hv
      simp only [validFilterEntries, Bool.and_eq_true] at hv'
      exact hv'
    by_cases hleaf : (isFilterPrimitiveType v || isFilterProperFilterObject v) = true
    · have hE : extractFilters doc (.cons key v rest) pk t =
          (⟨leafDocName doc v ++ ".@" ++ ("path_" ++ Nat.repr (t + 1)) ++ " " ++
              leafOperator v ++ " @" ++ ("filter_" ++ Nat.repr (t + 2)),
            [("path_" ++ Nat.repr (t + 1),
                .arr ((jsSplitDot (pk ++ key)).map Prim.str)),
             ("filter_" ++ Nat.repr (t + 2), leafValue v)]⟩ ::
            (extractFilters doc rest pk (t + 2)).1,
           (extractFilters doc rest pk (t + 2)).2) := by
        simp only [extractFilters]
        rw [if_pos hleaf]
      rw [hE]
      obtain ⟨ihseg, ihle⟩ := extract_inv rest doc pk (t + 2) hdoc hparts.2
      refine ⟨⟨t + 2, by omega, ?_, ?_, ?_, ihseg, ihle⟩,
        le_trans (Nat.le_add_right t 2) ihle⟩
      · intro p hp
        rcases List.mem_cons.mp hp with rfl | hp
        · exact ⟨t + 1, by omega, by omega,
            keyTick_pre (t + 1) (lastDigitFree "path_" (by decide))⟩
        · rcases List.mem_cons.mp hp with rfl | hp
          · exact ⟨t + 2, by omega, by omega,
              keyTick_pre (t + 2) (lastDigitFree "filter_" (by decide))⟩
          · exact absurd hp (List.not_mem_nil p)
      · show ([keyTick ("path_" ++ Nat.repr (t + 1)),
          keyTick ("filter_" ++ Nat.repr (t + 2))]).Nodup
        rw [keyTick_pre (t + 1) (lastDigitFree "path_" (by decide)),
          keyTick_pre (t + 2) (lastDigitFree "filter_" (by decide)),
          List.nodup_cons]
        refine ⟨?_, List.nodup_singleton _⟩
        intro hmem
        rw [List.mem_singleton] at hmem
        have := natDigits_inj (List.reverse_injective hmem)
        omega
      · intro r hr
        have hfrag : leafDocName doc v ++ ".@" ++ ("path_" ++ Nat.repr (t + 1)) ++ " " ++
            leafOperator v ++ " @" ++ ("filter_" ++ Nat.repr (t + 2)) =
            (leafDocName doc v ++ ".") ++
              (("@" ++ ("path_" ++ Nat.repr (t + 1)) ++ " ") ++
                ((leafOperator v ++ " ") ++ ("@" ++ ("filter_" ++ Nat.repr (t + 2))))) := by
          apply sdata_inj
          simp only [sdata_append, List.append_assoc]
          rfl
        rw [hfrag, refs_sterm_append (sterm_trail_dot (leafDocName doc v)) _,
          refs_sterm_append (sterm_trail_space ("@" ++ ("path_" ++ Nat.repr (t + 1)))) _,
          refs_sterm_append (sterm_trail_space (leafOperator v)) _,
          refs_safe_dot (leafDocName_safe hdoc v hparts.1),
          refs_at_space (checkSafeB_repr (show checkSafeB "path_" = true from rfl) (t + 1)),
          refs_noAt_space (leafOperator_noAt v hparts.1),
          refs_at_key (checkSafeB_repr (show checkSafeB "filter_" = true from rfl) (t + 2))]
          at hr
        simpa using hr
    · have hE : extractFilters doc (.cons key v rest) pk t =
          ((extractFiltersInto doc v (pk ++ key ++ ".") t).1 ++
             (extractFilters doc rest (pk ++ key ++ ".")
               (extractFiltersInto doc v (pk ++ key ++ ".") t).2).1,
           (extractFilters doc rest (pk ++ key ++ ".")
             (extractFiltersInto doc v (pk ++ key ++ ".") t).2).2) := by
        simp only [extractFilters]
        rw [if_neg hleaf]
      rw [hE]
      obtain ⟨iseg, ile⟩ := extractInto_inv v doc (pk ++ key ++ ".") t hdoc hparts.1
      obtain ⟨rseg, rle⟩ := extract_inv rest doc (pk ++ key ++ ".")
        (extractFiltersInto doc v (pk ++ key ++ ".") t).2 hdoc hparts.2
      exact ⟨leafSegs_append iseg rseg rle, le_trans ile rle⟩
termination_by structural es _ _ _ _ _ => es

/-- Recursing into a nested (non-leaf) filter value. -/
theorem extractInto_inv : ∀ (v : FilterNode) (doc pk : String) (t : Nat),
    checkSafeB doc = true → validFilterNode v = true →
    LeafSegs (extractFiltersInto doc v pk t).1 t (extractFiltersInto doc v pk t).2 ∧
      t ≤ (extractFiltersInto doc v pk t).2
  | .obj es, doc, pk, t, hdoc, hv => extract_inv es doc pk t hdoc (validFilterNode_obj hv).2
  | .prim p, doc, pk, t, hdoc, hv => ⟨rfl, le_refl t⟩
  | .arr l, doc, pk, t, hdoc, hv => ⟨rfl, le_refl t⟩
termination_by structural v _ _ _ _ _ => v
end

theorem leafSegs_refs : ∀ {leaves : List AqlLeaf} {t t' : Nat}, LeafSegs leaves t t' →
    ∀ l ∈ leaves, ∀ r ∈ placeholderRefs l.query, r ∈ l.bindVars.map Prod.fst := by
  intro leaves
  induction leaves with
  | nil =>
    intro t t' h l hl
    exact absurd hl (List.not_mem_nil l)
  | cons l0 rest ih =>
    intro t t' h l hl
    obtain ⟨tm, h1, h2, h3, h4, h5, h6⟩ := h
    rcases List.mem_cons.mp hl with rfl | hl
    · exact h4
    · exact ih h5 l hl

theorem join_keys_mem : ∀ {leaves : List AqlLeaf} {l : AqlLeaf}, l ∈ leaves →
    ∀ r ∈ l.bindVars.map Prod.fst,
      r ∈ ((leaves.map (fun l => l.bindVars)).join).map Prod.fst := by
  intro leaves
  induction leaves with
  | nil =>
    intro l hl
    exact absurd hl (List.not_mem_nil l)
  | cons l0 rest ih =>
    intro l hl r hr
    show r ∈ (l0.bindVars ++ (rest.map (fun l => l.bindVars)).join).map Prod.fst
    rw [List.map_append]
    rcases List.mem_cons.mp hl with rfl | hl
    · exact List.mem_append_left _ hr
    · exact List.mem_append_right _ (ih hl r hr)

theorem leafSegs_join_keysIn : ∀ {leaves : List AqlLeaf} {t t' : Nat},
    LeafSegs leaves t t' →
    t ≤ t' ∧ KeysIn ((leaves.map (fun l => l.bindVars)).join) t t' ∧
      TickInj ((leaves.map (fun l => l.bindVars)).join) := by
  intro leaves
  induction leaves with
  | nil =>
    intro t t' h
    have he : t' = t := h
    subst he
    exact ⟨le_refl _, fun p hp => absurd hp (List.not_mem_nil p), List.nodup_nil⟩
  | cons l rest ih =>
    intro t t' h
    obtain ⟨tm, h1, h2, h3, h4, h5, h6⟩ := h
    obtain ⟨ih1, ih2, ih3⟩ := ih h5
    refine ⟨le_trans h1 ih1, ?_, ?_⟩
    · show KeysIn (l.bindVars ++ (rest.map (fun l => l.bindVars)).join) t t'
      exact keysIn_append h2 ih2 h1 ih1
    · show TickInj (l.bindVars ++ (rest.map (fun l => l.bindVars)).join)
      exact tickInj_append h2 ih2 h3 ih3

theorem refs_joinSep_mem : ∀ (qs : List String) (r : String),
    r ∈ placeholderRefs (joinSep " && " qs) → ∃ q ∈ qs, r ∈ placeholderRefs q := by
  intro qs
  induction qs with
  | nil =>
    intro r hr
    exact absurd hr (List.not_mem_nil r)
  | cons q qs2 ih =>
    cases qs2 with
    | nil =>
      intro r hr
      exact ⟨q, List.mem_cons_self _ _, hr⟩
    | cons q2 rest =>
      intro r hr
      rw [show joinSep " && " (q :: q2 :: rest) = q ++ " && " ++ joinSep " && " (q2 :: rest)
        from rfl, refs_sep_split] at hr
      rcases List.mem_append.mp hr with hr | hr
      · exact ⟨q, List.mem_cons_self _ _, hr⟩
      · obtain ⟨q', hq', hr'⟩ := ih r hr
        exact ⟨q', List.mem_cons_of_mem _ hq', hr'⟩

/-- Folding the leaves' bind variables into the record by JavaScript
spreads is, up to order, plain concatenation: all their keys are fresh. -/
theorem foldl_spread : ∀ (leaves : List AqlLeaf) (bv : BindVars) (t t' : Nat),
    LeafSegs leaves t t' → TicksLe bv t →
    (leaves.foldl (fun acc l => jsSpread l.bindVars acc) bv).Perm
      (bv ++ (leaves.map (fun l => l.bindVars)).join) := by
  intro leaves
  induction leaves with
  | nil =>
    intro bv t t' _ _
    simp
  | cons l rest ih =>
    intro bv t t' h hb
    obtain ⟨tm, h1, h2, h3, h4, h5, h6⟩ := h
    simp only [List.foldl_cons]
    have hdisj : ∀ p ∈ l.bindVars, ∀ q ∈ bv, p.1 ≠ q.1 := by
      intro p hp q hq
      exact fun he => fresh_of_ticksLe hb (h2 p hp) q hq he.symm
    rw [jsSpread_fresh _ _ hdisj]
    have hacc : TicksLe (l.bindVars ++ bv) tm :=
      ticksLe_append (ticksLe_of_keysIn h2) (ticksLe_mono hb h1)
    have hrec := ih (l.bindVars ++ bv) tm t' h5 hacc
    refine hrec.trans ?_
    show ((l.bindVars ++ bv) ++ (rest.map (fun l => l.bindVars)).join).Perm
      (bv ++ (l.bindVars ++ (rest.map (fun l => l.bindVars)).join))
    have hc : ((l.bindVars ++ bv) ++ (rest.map (fun l => l.bindVars)).join).Perm
        ((bv ++ l.bindVars) ++ (rest.map (fun l => l.bindVars)).join) :=
      List.perm_append_comm.append_right _
    refine hc.trans ?_
    rw [List.append_assoc]

/-- `buildFilter` is one clean step. -/
theorem filter_inv {doc : String} (hdoc : checkSafeB doc = true) (fb : Option FilterEntries)
    (hfb : ∀ es, fb = some es → validFilterEntries es = true)
    (bv : BindVars) (t : Nat) (hb : TicksLe bv t) :
    StepOK bv t (buildFilter doc fb bv t).1 (buildFilter doc fb bv t).2.1
      (buildFilter doc fb bv t).2.2 := by
  cases fb with
  | none => exact stepOK_refl bv t
  | some es =>
    have hseg := (extract_inv es doc "" t hdoc (hfb es rfl)).1
    have h0 := hseg
    obtain ⟨hle, hkeys, hinj⟩ := leafSegs_join_keysIn hseg
    show StepOK bv t
      ("FILTER " ++
        joinSep " && " ((extractFilters doc es "" t).1.map (fun l => l.query)) ++ " ")
      ((extractFilters doc es "" t).1.foldl (fun acc l => jsSpread l.bindVars acc) bv)
      ((extractFilters doc es "" t).2)
    refine ⟨hle, ((extractFilters doc es "" t).1.map (fun l => l.bindVars)).join,
      foldl_spread (extractFilters doc es "" t).1 bv t (extractFilters doc es "" t).2 hseg hb,
      hkeys, hinj, ?_, sterm_trail_space _⟩
    intro r hr
    rw [refs_trail_space,
      refs_sterm_append (show STermS "FILTER " from
        Or.inr ⟨['F', 'I', 'L', 'T', 'E', 'R'], ' ', rfl, by decide⟩) _,
      show placeholderRefs "FILTER " = [] from rfl, List.nil_append] at hr
    obtain ⟨q', hq', hr'⟩ := refs_joinSep_mem _ r hr
    obtain ⟨l', hl', hq'eq⟩ := List.mem_map.mp hq'
    subst hq'eq
    exact join_keys_mem hl' r (leafSegs_refs h0 l' hl' r hr')

/-! ## Claim C1 — return clause and coverage plumbing -/

theorem noAtB_safe {s : String} (h : checkSafeB s = true) : noAtB s = true := by
  unfold noAtB
  rw [List.all_eq_true]
  intro c hc
  rw [bne_iff_ne]
  exact safeTail_ne_at (checkSafeB_chars h c hc)

theorem noAtB_append {a b : String} (ha : noAtB a = true) (hb : noAtB b = true) :
    noAtB (a ++ b) = true := by
  unfold noAtB at ha hb ⊢
  rw [show (a ++ b).data = a.data ++ b.data from rfl, List.all_append, ha, hb]
  rfl

theorem noAtB_joinSep : ∀ (l : List String), (∀ s ∈ l, noAtB s = true) →
    noAtB (joinSep ", " l) = true := by
  intro l
  induction l with
  | nil => intro _; rfl
  | cons s rest ih =>
    intro h
    cases rest with
    | nil => exact h s (List.mem_cons_self _ _)
    | cons s2 rest2 =>
      show noAtB (s ++ ", " ++ joinSep ", " (s2 :: rest2)) = true
      exact noAtB_append (noAtB_append (h s (List.mem_cons_self _ _)) (by rfl))
        (ih (fun x hx => h x (List.mem_cons_of_mem _ hx)))

theorem validChildren_keys : ∀ (cs : Children), validChildren cs = true →
    ∀ k ∈ Children.keys cs, checkSafeB k = true
  | .nil, _, k, hk => absurd hk (List.not_mem_nil k)
  | .cons n q rest, hv, k, hk => by
    have hv' := hv
    simp only [validChildren, Bool.and_eq_true] at hv'
    rcases List.mem_cons.mp hk with rfl | hk
    · exact hv'.1.1
    · exact validChildren_keys rest hv'.2 k hk
termination_by structural cs _ _ _ => cs

/-- The return clause of a valid node contains no `@` at all. -/
theorem noAtB_returnClause {doc : String} (hdoc : checkSafeB doc = true) :
    ∀ (cs : Children), validChildren cs = true →
    noAtB (buildReturnClause doc cs) = true := by
  intro cs hcs
  cases cs with
  | nil => exact noAtB_safe hdoc
  | cons n q rest =>
    show noAtB ("MERGE(" ++ doc ++ ", \x7b " ++
      joinSep ", " (Children.keys (.cons n q rest)) ++ " \x7d)") = true
    refine noAtB_append (noAtB_append (noAtB_append (noAtB_append (by rfl)
      (noAtB_safe hdoc)) (by rfl))
      (noAtB_joinSep _ (fun s hs => noAtB_safe (validChildren_keys _ hcs s hs)))) (by rfl)

theorem validQB_parts {k : QKind} {opts : CommonOpts} {doc : String} {isRoot : Bool}
    {cs : Children} (h : validQB (.node k opts doc isRoot cs) = true) :
    checkSafeB doc = true ∧
    (∀ es, opts.filterBy = some es → validFilterEntries es = true) ∧
    (∀ ecs rel sv depth dirn rootDoc, k = .edge ecs rel sv depth dirn rootDoc →
      (rootDoc == "" || checkSafeB rootDoc) = true) ∧
    validChildren cs = true := by
  have h' := h
  simp only [validQB, Bool.and_eq_true] at h'
  obtain ⟨⟨⟨h1, h2⟩, h3⟩, h4⟩ := h'
  refine ⟨h1, ?_, ?_, h4⟩
  · intro es hes
    rw [hes] at h2
    exact h2
  · intro ecs rel sv depth dirn rootDoc hk
    subst hk
    exact h3

/-- Keys never disappear across a build step. -/
theorem stepOK_keys_mono {bv : BindVars} {t : Nat} {frag : String} {bv' : BindVars}
    {t' : Nat} (h : StepOK bv t frag bv' t') :
    ∀ x ∈ bv.map Prod.fst, x ∈ bv'.map Prod.fst := by
  obtain ⟨_, d, hperm, _, _, _, _⟩ := h
  intro x hx
  rw [(hperm.map Prod.fst).mem_iff, List.map_append]
  exact List.mem_append_left _ hx

/-- A step's fragment refers only to keys present afterwards. -/
theorem stepOK_refs_sub {bv : BindVars} {t : Nat} {frag : String} {bv' : BindVars}
    {t' : Nat} (h : StepOK bv t frag bv' t') :
    ∀ r ∈ placeholderRefs frag, r ∈ bv'.map Prod.fst := by
  obtain ⟨_, d, hperm, _, _, hrefs, _⟩ := h
  intro r hr
  rw [(hperm.map Prod.fst).mem_iff, List.map_append]
  exact List.mem_append_right _ (hrefs r hr)

theorem refs_cover_step {a b : String} {keys : List String} (ha : STermS a)
    (h1 : ∀ r ∈ placeholderRefs a, r ∈ keys)
    (h2 : ∀ r ∈ placeholderRefs b, r ∈ keys) :
    ∀ r ∈ placeholderRefs (a ++ b), r ∈ keys := by
  intro r hr
  rw [refs_sterm_append ha] at hr
  rcases List.mem_append.mp hr with hr | hr
  · exact h1 r hr
  · exact h2 r hr

theorem refs_cover_noAt {s : String} {keys : List String} (h : noAtB s = true) :
    ∀ r ∈ placeholderRefs s, r ∈ keys := by
  intro r hr
  rw [refs_noAt h] at hr
  exact absurd hr (List.not_mem_nil r)

theorem stepOK_sterm {bv : BindVars} {t : Nat} {frag : String} {bv' : BindVars}
    {t' : Nat} (h : StepOK bv t frag bv' t') : STermS frag := by
  obtain ⟨-, -, -, -, -, -, hst⟩ := h
  exact hst

/-! ## Claim C1 — the main invariant of `prepareQuery` -/

mutual
/-- `prepareQuery` on a valid node whose resolved ancestor alias (if any)
is a guarded identifier: the produced bind-variable keys carry distinct
fresh tick suffixes from `(t, t']` and cover every placeholder of the
produced query text. -/
theorem prepareQuery_inv : ∀ (q : QB) (topSel : Option String) (t : Nat)
    (res : String × BindVars × Nat), validQB q = true →
    (∀ r, topSel = some r → checkSafeB r = true) →
    prepareQuery q topSel t = .ok res →
    PrepOK t res.1 res.2.1 res.2.2
  | .node k opts doc isRoot cs, topSel, t, res, hv, hts, hp => by
    obtain ⟨hdoc, hfb, hroot, hcs⟩ := validQB_parts hv
    simp only [prepareQuery] at hp
    rcases hsel : buildSelector k doc topSel [] t with e | sel
    · rw [hsel, bindErr] at hp
      exact Except.noConfusion hp
    rcases sel with ⟨sf, sbv, st⟩
    rw [hsel] at hp
    simp only [bindOk] at hp
    have hS : StepOK [] t sf sbv st := selector_inv hroot hdoc hts (ticksLe_nil t) hsel
    have hbS : TicksLe sbv st := ticksLe_step hS (ticksLe_nil t)
    rcases hFval : buildFilter doc opts.filterBy sbv st with ⟨ff, fbv, ft⟩
    have hF : StepOK sbv st ff fbv ft := by
      have hstep := filter_inv hdoc opts.filterBy hfb sbv st hbS
      rw [hFval] at hstep
      exact hstep
    simp only [hFval] at hp
    have hbF : TicksLe fbv ft := ticksLe_step hF hbS
    rcases hSoval : buildSort doc opts.sortBy fbv ft with ⟨sof, sobv, sot⟩
    have hSo : StepOK fbv ft sof sobv sot := by
      have hstep := sort_inv hdoc opts.sortBy fbv ft hbF
      rw [hSoval] at hstep
      exact hstep
    simp only [hSoval] at hp
    have hbSo : TicksLe sobv sot := ticksLe_step hSo hbF
    rcases hLval : buildLimit opts.limitBy sobv sot with ⟨lf, lbv, lt⟩
    have hL : StepOK sobv sot lf lbv lt := by
      have hstep := limit_inv opts.limitBy sobv sot hbSo
      rw [hLval] at hstep
      exact hstep
    simp only [hLval] at hp
    have hbL : TicksLe lbv lt := ticksLe_step hL hbSo
    rcases hWval : buildWithClause isRoot (.node k opts doc isRoot cs) lbv lt with e | wres
    · rw [hWval, bindErr] at hp
      exact Except.noConfusion hp
    rcases wres with ⟨wf, wbv, wt⟩
    rw [hWval] at hp
    simp only [bindOk] at hp
    have hW : StepOK lbv lt wf wbv wt := with_inv hbL hWval
    have hbW : TicksLe wbv wt := ticksLe_step hW hbL
    have hcts : checkSafeB (if isRoot then doc else topSel.getD doc) = true := by
      cases isRoot with
      | true => exact hdoc
      | false =>
        rcases htop : topSel with _ | r2
        · exact hdoc
        · exact hts r2 htop
    rcases hIval : buildAdditionalQueries cs (if isRoot then doc else topSel.getD doc)
        wbv wt with e | ires
    · rw [hIval, bindErr] at hp
      exact Except.noConfusion hp
    rcases ires with ⟨if2, ibv, it⟩
    rw [hIval] at hp
    simp only [bindOk] at hp
    have hI : StepOK wbv wt if2 ibv it :=
      buildAdditionalQueries_inv cs (if isRoot then doc else topSel.getD doc) wbv wt
        (if2, ibv, it) hcs hcts hbW hIval
    have hAll : StepOK [] t (sf ++ (ff ++ (sof ++ (lf ++ (wf ++ if2))))) ibv it :=
      stepOK_comp hS (stepOK_comp hF (stepOK_comp hSo (stepOK_comp hL (stepOK_comp hW hI))))
    have hSst : STermS sf := stepOK_sterm hS
    have hFst : STermS ff := stepOK_sterm hF
    have hSost : STermS sof := stepOK_sterm hSo
    have hLst : STermS lf := stepOK_sterm hL
    have hWst : STermS wf := stepOK_sterm hW
    have hIst : STermS if2 := stepOK_sterm hI
    have mono_hI := stepOK_keys_mono hI
    have mono_hW : ∀ x ∈ lbv.map Prod.fst, x ∈ ibv.map Prod.fst :=
      fun x hx => mono_hI x (stepOK_keys_mono hW x hx)
    have mono_hL : ∀ x ∈ sobv.map Prod.fst, x ∈ ibv.map Prod.fst :=
      fun x hx => mono_hW x (stepOK_keys_mono hL x hx)
    have mono_hSo : ∀ x ∈ fbv.map Prod.fst, x ∈ ibv.map Prod.fst :=
      fun x hx => mono_hL x (stepOK_keys_mono hSo x hx)
    have mono_hF : ∀ x ∈ sbv.map Prod.fst, x ∈ ibv.map Prod.fst :=
      fun x hx => mono_hSo x (stepOK_keys_mono hF x hx)
    have cov_sf : ∀ r ∈ placeholderRefs sf, r ∈ ibv.map Prod.fst :=
      fun r hr => mono_hF r (stepOK_refs_sub hS r hr)
    have cov_ff : ∀ r ∈ placeholderRefs ff, r ∈ ibv.map Prod.fst :=
      fun r hr => mono_hSo r (stepOK_refs_sub hF r hr)
    have cov_sof : ∀ r ∈ placeholderRefs sof, r ∈ ibv.map Prod.fst :=
      fun r hr => mono_hL r (stepOK_refs_sub hSo r hr)
    have cov_lf : ∀ r ∈ placeholderRefs lf, r ∈ ibv.map Prod.fst :=
      fun r hr => mono_hW r (stepOK_refs_sub hL r hr)
    have cov_wf : ∀ r ∈ placeholderRefs wf, r ∈ ibv.map Prod.fst :=
      fun r hr => mono_hI r (stepOK_refs_sub hW r hr)
    have cov_if : ∀ r ∈ placeholderRefs if2, r ∈ ibv.map Prod.fst := stepOK_refs_sub hI
    have hRC : noAtB (buildReturnClause doc cs) = true := noAtB_returnClause hdoc cs hcs
    obtain ⟨hAle, D, hAperm, hAkeys, hAinj, -, -⟩ := hAll
    rw [List.nil_append] at hAperm
    by_cases hwc : opts.withCount = true
    · rw [if_pos hwc] at hp
      have h3 := Except.ok.inj hp
      subst h3
      show PrepOK t
        (wf ++ "LET total = FIRST(" ++ sf ++ ff ++
          "COLLECT WITH COUNT INTO length RETURN length) " ++
          "LET docs = (" ++ sf ++ ff ++ sof ++ lf ++ if2 ++
          "RETURN " ++ buildReturnClause doc cs ++ ") " ++
          "RETURN \x7b docs, total \x7d") ibv it
      refine ⟨hAle, keysIn_perm hAperm.symm hAkeys, tickInj_perm hAperm.symm hAinj, ?_⟩
      intro r hr
      have hgrp : wf ++ "LET total = FIRST(" ++ sf ++ ff ++
          "COLLECT WITH COUNT INTO length RETURN length) " ++
          "LET docs = (" ++ sf ++ ff ++ sof ++ lf ++ if2 ++
          "RETURN " ++ buildReturnClause doc cs ++ ") " ++
          "RETURN \x7b docs, total \x7d" =
          wf ++ ("LET total = FIRST(" ++ (sf ++ (ff ++
            ("COLLECT WITH COUNT INTO length RETURN length) " ++
            ("LET docs = (" ++ (sf ++ (ff ++ (sof ++ (lf ++ (if2 ++
            ("RETURN " ++ ((buildReturnClause doc cs ++ ") ") ++
            "RETURN \x7b docs, total \x7d")))))))))))) := by
        apply sdata_inj
        simp only [sdata_append, List.append_assoc]
      rw [hgrp] at hr
      exact refs_cover_step hWst cov_wf
        (refs_cover_step (show STermS "LET total = FIRST(" from
            Or.inr ⟨"LET total = FIRST".data, '(', rfl, by decide⟩)
          (refs_cover_noAt (show noAtB "LET total = FIRST(" = true from rfl))
          (refs_cover_step hSst cov_sf (refs_cover_step hFst cov_ff
            (refs_cover_step (show STermS "COLLECT WITH COUNT INTO length RETURN length) "
                from Or.inr ⟨"COLLECT WITH COUNT INTO length RETURN length)".data, ' ',
                  rfl, by decide⟩)
              (refs_cover_noAt (show
                noAtB "COLLECT WITH COUNT INTO length RETURN length) " = true from rfl))
              (refs_cover_step (show STermS "LET docs = (" from
                  Or.inr ⟨"LET docs = ".data, '(', rfl, by decide⟩)
                (refs_cover_noAt (show noAtB "LET docs = (" = true from rfl))
                (refs_cover_step hSst cov_sf (refs_cover_step hFst cov_ff
                  (refs_cover_step hSost cov_sof (refs_cover_step hLst cov_lf
                    (refs_cover_step hIst cov_if
                      (refs_cover_step (show STermS "RETURN " from
                          Or.inr ⟨"RETURN".data, ' ', rfl, by decide⟩)
                        (refs_cover_noAt (show noAtB "RETURN " = true from rfl))
                        (refs_cover_step (sterm_trail_close_space
                            (buildReturnClause doc cs))
                          (refs_cover_noAt (noAtB_append hRC (by rfl)))
                          (refs_cover_noAt (show
                            noAtB "RETURN \x7b docs, total \x7d" = true
                              from rfl)))))))))))))) r hr
    · rw [if_neg hwc] at hp
      have h3 := Except.ok.inj hp
      subst h3
      show PrepOK t (wf ++ sf ++ ff ++ sof ++ lf ++ if2 ++ "RETURN " ++
        buildReturnClause doc cs) ibv it
      refine ⟨hAle, keysIn_perm hAperm.symm hAkeys, tickInj_perm hAperm.symm hAinj, ?_⟩
      intro r hr
      have hgrp : wf ++ sf ++ ff ++ sof ++ lf ++ if2 ++ "RETURN " ++
          buildReturnClause doc cs =
          wf ++ (sf ++ (ff ++ (sof ++ (lf ++ (if2 ++
            ("RETURN " ++ buildReturnClause doc cs)))))) := by
        apply sdata_inj
        simp only [sdata_append, List.append_assoc]
      rw [hgrp] at hr
      exact refs_cover_step hWst cov_wf (refs_cover_step hSst cov_sf
        (refs_cover_step hFst cov_ff (refs_cover_step hSost cov_sof
          (refs_cover_step hLst cov_lf (refs_cover_step hIst cov_if
            (refs_cover_step (show STermS "RETURN " from
                Or.inr ⟨"RETURN".data, ' ', rfl, by decide⟩)
              (refs_cover_noAt (show noAtB "RETURN " = true from rfl))
              (refs_cover_noAt hRC))))))) r hr
termination_by structural q _ _ _ _ _ _ => q

/-- `buildAdditionalQueries` on a valid child map with a guarded parent
alias is one clean step. -/
theorem buildAdditionalQueries_inv : ∀ (cs : Children) (cts : String) (bv : BindVars)
    (t : Nat) (res : String × BindVars × Nat), validChildren cs = true →
    checkSafeB cts = true → TicksLe bv t →
    buildAdditionalQueries cs cts bv t = .ok res →
    StepOK bv t res.1 res.2.1 res.2.2
  | .nil, cts, bv, t, res, hv, hcts, hb, hp => by
    simp only [buildAdditionalQueries] at hp
    have h3 := Except.ok.inj hp
    subst h3
    exact stepOK_refl bv t
  | .cons name c rest, cts, bv, t, res, hv, hcts, hb, hp => by
    have hparts : (checkSafeB name = true ∧ validQB c = true) ∧
        validChildren rest = true := by
      have hv' := hv
      simp only [validChildren, Bool.and_eq_true] at hv'
      exact hv'
    simp only [buildAdditionalQueries] at hp
    rcases hpc : prepareQuery c (some cts) t with e | ires
    · rw [hpc, bindErr] at hp
      exact Except.noConfusion hp
    rcases ires with ⟨pf, pbv, pt⟩
    rw [hpc] at hp
    simp only [bindOk] at hp
    have hP : PrepOK t pf pbv pt :=
      prepareQuery_inv c (some cts) t (pf, pbv, pt) hparts.1.2
        (fun r hr => by
          injection hr with hr2
          rw [← hr2]
          exact hcts) hpc
    obtain ⟨hPle, hPkeys, hPinj, hPrefs⟩ := hP
    have hdisj : ∀ p ∈ pbv, ∀ q2 ∈ bv, p.1 ≠ q2.1 := by
      intro p hpm q2 hq2
      exact fun he => fresh_of_ticksLe hb (hPkeys p hpm) q2 hq2 he.symm
    have hspread : jsSpread pbv bv = pbv ++ bv := jsSpread_fresh _ _ hdisj
    rw [hspread] at hp
    rcases hrest : buildAdditionalQueries rest cts (pbv ++ bv) pt with e | rres
    · rw [hrest, bindErr] at hp
      exact Except.noConfusion hp
    rcases rres with ⟨rf, rbv, rt⟩
    rw [hrest] at hp
    simp only [bindOk] at hp
    have hbmid : TicksLe (pbv ++ bv) pt :=
      ticksLe_append (ticksLe_of_keysIn hPkeys) (ticksLe_mono hb hPle)
    have hR : StepOK (pbv ++ bv) pt rf rbv rt :=
      buildAdditionalQueries_inv rest cts (pbv ++ bv) pt (rf, rbv, rt) hparts.2 hcts
        hbmid hrest
    have h3 := Except.ok.inj hp
    subst h3
    show StepOK bv t
      ("LET " ++ name ++ " = " ++
        (if c.optsOf.withCount ||
            (match c.optsOf.limitBy with
             | some lb => lb.limit == 1
             | none => false) then "FIRST" else "") ++
        "(" ++ pf ++ ") " ++ rf) rbv rt
    obtain ⟨hRle, dR, hRperm, hRkeys, hRinj, hRrefs, hRst⟩ := hR
    have hFno : noAtB (if c.optsOf.withCount ||
        (match c.optsOf.limitBy with
         | some lb => lb.limit == 1
         | none => false) then "FIRST" else "") = true := by
      by_cases hcnd : (c.optsOf.withCount ||
          (match c.optsOf.limitBy with
           | some lb => lb.limit == 1
           | none => false)) = true
      · rw [if_pos hcnd]
        rfl
      · rw [if_neg hcnd]
        rfl
    have hfullgrp : "LET " ++ name ++ " = " ++
        (if c.optsOf.withCount ||
            (match c.optsOf.limitBy with
             | some lb => lb.limit == 1
             | none => false) then "FIRST" else "") ++
        "(" ++ pf ++ ") " ++ rf =
        ("LET" ++ " ") ++ ((name ++ " ") ++ (("=" ++ " ") ++
          (((if c.optsOf.withCount ||
              (match c.optsOf.limitBy with
               | some lb => lb.limit == 1
               | none => false) then "FIRST" else "") ++ "(") ++
            ((pf ++ ") ") ++ rf)))) := by
      apply sdata_inj
      simp only [sdata_append, List.append_assoc]
      rfl
    refine ⟨le_trans hPle hRle, pbv ++ dR, ?_,
      keysIn_append hPkeys hRkeys hPle hRle,
      tickInj_append hPkeys hRkeys hPinj hRinj, ?_, ?_⟩
    · refine hRperm.trans ?_
      have hc : ((pbv ++ bv) ++ dR).Perm ((bv ++ pbv) ++ dR) :=
        List.perm_append_comm.append_right _
      refine hc.trans ?_
      rw [List.append_assoc]
    · intro r hr
      rw [hfullgrp] at hr
      have hcov_pf : ∀ r2 ∈ placeholderRefs (pf ++ ") "),
          r2 ∈ (pbv ++ dR).map Prod.fst := by
        intro r2 hr2
        rw [refs_close_paren] at hr2
        rw [List.map_append]
        exact List.mem_append_left _ (hPrefs r2 hr2)
      have hcov_rf : ∀ r2 ∈ placeholderRefs rf, r2 ∈ (pbv ++ dR).map Prod.fst := by
        intro r2 hr2
        rw [List.map_append]
        exact List.mem_append_right _ (hRrefs r2 hr2)
      exact refs_cover_step (sterm_trail_space "LET")
        (refs_cover_noAt (show noAtB ("LET" ++ " ") = true from rfl))
        (refs_cover_step (sterm_trail_space name)
          (refs_cover_noAt (noAtB_append (noAtB_safe hparts.1.1) (by rfl)))
          (refs_cover_step (sterm_trail_space "=")
            (refs_cover_noAt (show noAtB ("=" ++ " ") = true from rfl))
            (refs_cover_step (sterm_trail_paren _)
              (refs_cover_noAt (noAtB_append hFno (by rfl)))
              (refs_cover_step (sterm_trail_close_space pf) hcov_pf hcov_rf)))) r hr
    · exact sterm_append (sterm_trail_close_space _) hRst
termination_by structural cs _ _ _ _ _ _ _ _ => cs
end

/-- Claim C1: for every valid builder tree, after `prepareQuery()` on the
root (no parent, counter starting at `0`), every generated parameter name
appears exactly once as a key of the final merged parameter map — the keys
are pairwise distinct — and every named placeholder referenced in the
produced query text has a corresponding key in that map; this holds
because every node's name allocation delegates to the root's single
counter, whose values strictly increase, so each key carries a distinct
decimal tick suffix. -/
theorem claim1_uniqueCoverage (q : QB) (s : String) (bv : BindVars)
    (hv : validQB q = true) (h : prepareQueryTop q = .ok (s, bv)) :
    (bv.map Prod.fst).Nodup ∧ ∀ r ∈ placeholderRefs s, r ∈ bv.map Prod.fst := by
  unfold prepareQueryTop at h
  rcases hp : prepareQuery q none 0 with e | res
  · rw [hp] at h
    exact Except.noConfusion h
  · rw [hp] at h
    rcases res with ⟨s', bv', t'⟩
    have h3 : ((s', bv') : String × BindVars) = (s, bv) := Except.ok.inj h
    injection h3 with h4 h5
    rw [← h4, ← h5]
    obtain ⟨-, -, hinj, hrefs⟩ :=
      prepareQuery_inv q none 0 (s', bv', t') hv (fun r hr => Option.noConfusion hr) hp
    have hnd : ((bv'.map Prod.fst).map keyTick).Nodup := by
      rw [List.map_map]
      exact hinj
    exact ⟨List.Nodup.of_map keyTick hnd, hrefs⟩

/-- Claim C1 witness: the claim at the standalone edge tree of the
repository tests — seven generated keys, pairwise distinct, covering every
placeholder of the traversal text. -/
theorem claim1_witness :
    (([("path_4", BindVal.arr [.str "gitRepoInfo", .str "owner"]),
       ("filter_5", BindVal.prim (.str "Tospaa")),
       ("@edge_1", BindVal.prim (.str "related_execution_infos")),
       ("starting_vertex_2", BindVal.prim (.str "deneme/1-2")),
       ("depth_3", BindVal.prim (.num 4)),
       ("@target_6", BindVal.prim (.str "execution_info")),
       ("@target_7", BindVal.prim (.str "data_sources"))] : BindVars).map
        Prod.fst).Nodup ∧
    ∀ r ∈ placeholderRefs
      ("WITH @@target_6, @@target_7 FOR vertex IN 1..@depth_3 OUTBOUND " ++
       "@starting_vertex_2 @@edge_1 FILTER vertex.@path_4 == @filter_5 RETURN vertex"),
      r ∈ ([("path_4", BindVal.arr [.str "gitRepoInfo", .str "owner"]),
       ("filter_5", BindVal.prim (.str "Tospaa")),
       ("@edge_1", BindVal.prim (.str "related_execution_infos")),
       ("starting_vertex_2", BindVal.prim (.str "deneme/1-2")),
       ("depth_3", BindVal.prim (.num 4)),
       ("@target_6", BindVal.prim (.str "execution_info")),
       ("@target_7", BindVal.prim (.str "data_sources"))] : BindVars).map Prod.fst :=
  claim1_uniqueCoverage builderOnlyEdge _ _ (by rfl) (by rfl)
